import Mathlib

/-!
# img2xterm: rendering a raw RGB buffer as xterm-256 half-block cells

A shallow embedding of `src/img2xterm/img2xterm.go`.

* Go's package-level variables `oldfg`, `oldbg`, `sequence` and `fCache`, and the
  text written to standard output, are the fields of `World`; every function
  that touches them takes a `World` and returns the next one.
* `uint8` colours and bytes are natural numbers; the only 8-bit addition of the
  file (`uint8(..) + 232`) is reduced modulo 256 explicitly.
* An index out of range is a run-time failure in Go.  `Outcome.panic` records it
  together with the world at the moment of the failure, so that what had been
  printed and stored before the failure stays visible.
* Go strings are modelled by `String`; the three bytes `\xe2\x96\x84` are the
  character U+2584 and `\xe2\x96\x80` is U+2580.
* Go's `int` is modelled by unbounded integers. The loop counters stay below their
  bounds and a pixel index that is in range is below the length of a slice, so
  no 64-bit wrap-around is reachable before the first out-of-range read.
* The colour quantizers and the frame cache are not defined in the source file;
  they are parameters (`Quantizers`, the cache of a `World`), so the theorems
  hold for every choice of them.
* A `float64` value is a rational number and every `float64` operation is the
  exact operation followed by `round64`, the rounding of IEEE binary64 to the
  nearest value, ties to even. `DrawRGB` takes its two grayscale computations as
  a parameter (`FloatModel`); `float64Model` is the instance that the program
  runs and `exactFloat` is the same without rounding.
-/

namespace Img2xterm

/-! ## Constants and configuration (lines 9-30) -/

/-- Line 10: `colorUndef = iota`, the first constant of the block. -/
def colorUndef : Nat := 0

/-- Line 11: `colorTransparent = iota`, the second constant of the block. -/
def colorTransparent : Nat := 1

/-- Lines 14-27: the configuration of a render call. `Width` and `Height` are Go
`int`s, so they may be zero or negative. -/
structure Config where
  Width : Int
  Height : Int
  Colorful : Bool
  DistanceAlgorithm : String
deriving DecidableEq, Repr

/-- Modelled from the spec: the declaration of `fCache` is not part of the source
file; the spec describes it as a grid of colour pairs. It is read and written as
`fCache[x][y/2][0]` and `fCache[x][y/2][1]`, so it is a sequence of columns, each
a sequence of pairs; an index outside the grid is an index-out-of-range
failure. -/
abbrev FrameCache := List (List (Nat × Nat))

/-- The package-level state of the program, together with what it has printed.

* `oldfg`, `oldbg`, `sequence`: the variables of lines 29-30;
* `fCache`: the frame cache;
* `stdout`: the arguments of the `fmt.Println` calls so far, oldest first (each
  call prints its argument followed by a newline);
* `dotCalls`: a ghost log of the arguments `(x, y, color1, color2)` of every call
  of `dot` so far, oldest first. No program variable corresponds to it. -/
structure World where
  oldfg : Nat
  oldbg : Nat
  sequence : String
  fCache : FrameCache
  stdout : List String
  dotCalls : List (Nat × Nat × Nat × Nat)
deriving DecidableEq, Repr

/-- Lines 29-30: the initial values of the package variables, for a given initial
frame cache, before anything was printed. -/
def World.init (cache : FrameCache) : World :=
  { oldfg := colorUndef, oldbg := colorUndef, sequence := "", fCache := cache,
    stdout := [], dotCalls := [] }

/-! ## dot (lines 128-167) -/

/-- Lines 128-167. `x` and `y` are natural numbers: every call in the file passes
a column `x >= 0` and a cell row `y/2 >= 0`. `strconv.Itoa` is `toString`. -/
def dot (x y color1 color2 : Nat) (w : World) : World :=
  -- line 130: move cursor
  let seq0 := w.sequence ++ ("\x1b[" ++ toString (y + 1) ++ ";" ++ toString (x + 1) ++ "H")
  -- lines 132-146: fg, bg := oldfg, oldbg; the glyph defaults to the lower half block
  let choice : Nat × Nat × String :=
    if color1 = color2 then
      (color1, w.oldfg, " ")
    else if color2 = colorTransparent then
      (color2, color1, "▀")
    else
      (color1, color2, "▄")
  let bg := choice.1
  let fg := choice.2.1
  let str := choice.2.2
  -- lines 148-154
  let seq1 :=
    if bg ≠ w.oldbg then
      if bg = colorTransparent then seq0 ++ "\x1b[49m"
      else seq0 ++ ("\x1b[48;5;" ++ toString bg ++ "m")
    else seq0
  -- lines 156-162
  let seq2 :=
    if fg ≠ w.oldfg then
      if fg = colorUndef then seq1 ++ "\x1b[39m"
      else seq1 ++ ("\x1b[38;5;" ++ toString fg ++ "m")
    else seq1
  -- lines 164-166
  { w with oldbg := bg, oldfg := fg, sequence := seq2 ++ str,
           dotCalls := w.dotCalls ++ [(x, y, color1, color2)] }

/-! ### The control codes, named -/

/-- The cursor-move code `ESC [ row ; col H` that line 130 builds for `dot(x, y, ..)`. -/
def cursorMove (x y : Nat) : String :=
  "\x1b[" ++ toString (y + 1) ++ ";" ++ toString (x + 1) ++ "H"

/-- The background-switch code of lines 149-153 for the target `bg`. -/
def bgCode (bg : Nat) : String :=
  if bg = colorTransparent then "\x1b[49m" else "\x1b[48;5;" ++ toString bg ++ "m"

/-- The foreground-switch code of lines 157-161 for the target `fg`. -/
def fgCode (fg : Nat) : String :=
  if fg = colorUndef then "\x1b[39m" else "\x1b[38;5;" ++ toString fg ++ "m"

/-! ## Pixel extraction (lines 32-47) -/

/-- Lines 32-38. Each round of the loop reads `raw[cur]`, `raw[cur+1]` and
`raw[cur+2]` and advances `cur` by three; when one or two bytes are left the
read of `raw[cur+1]` or `raw[cur+2]` is out of range (`none`). -/
def rawRGB2Pixels : List Nat → Option (List (Nat × Nat × Nat))
  | [] => some []
  | r :: g :: b :: rest =>
    match rawRGB2Pixels rest with
    | some ret => some ((r, g, b) :: ret)
    | none => none
  | _ => none

/-- Modelled from the spec: the three colour quantizers `rgb2XtermRGB`,
`rgb2XtermYIQ` and `rgb2XtermCIE94` are called by `DrawRGB` but declared outside
the source file; the spec describes them as maps from an RGB triple to a palette
index. They are parameters of the embedding. -/
structure Quantizers where
  rgb2XtermRGB : Nat → Nat → Nat → Nat
  rgb2XtermYIQ : Nat → Nat → Nat → Nat
  rgb2XtermCIE94 : Nat → Nat → Nat → Nat

/-- The two `float64` computations of the grayscale path, over a sample type `β`:

* `brightness r g b` is line 43,
  `(float64(r)*0.299 + float64(g)*0.587 + float64(b)*0.114) / 255.0`;
* `level p` is the conversion `uint8(p*23)` of lines 108 and 110.

The operations are parameters, so a theorem stated for every `FloatModel` holds
for whatever `float64` computes; `float64Model` is the instance of IEEE binary64
and `exactFloat` the instance without rounding. -/
structure FloatModel (β : Type) where
  brightness : Nat → Nat → Nat → β
  level : β → Nat

/-- The grayscale computations in exact rational arithmetic, without the rounding
of `float64`: the brightness is the exact quotient and `uint8(p*23)` keeps the low
eight bits of the integer part of the exact product. The program rounds after
each operation (`float64Model`). On the brightness of a byte triple both give
the same level (`float64_level_eq_exact`), so on a buffer of bytes `DrawRGB` does
the same with either (`DrawRGB_float64_eq_exact`); the brightness values differ,
and so does the level of other samples, such as `edgeBrightness`. -/
def exactFloat : FloatModel ℚ where
  brightness r g b := ((r : ℚ) * 0.299 + (g : ℚ) * 0.587 + (b : ℚ) * 0.114) / 255
  level p := Int.toNat ⌊p * 23⌋ % 256

/-! ## IEEE binary64 arithmetic

A finite `float64` value is a rational number `n * 2^k` with `|n| <= 2^53` and
`k >= -1074`. An arithmetic operation of Go on `float64` values, and the
conversion of a decimal constant to `float64`, returns the exact result rounded
to the nearest such value, the one with the even `n` when two are equally near.
The embedding keeps the values as rationals and rounds explicitly.

* Overflow to infinity (a result of magnitude `2^1024` or more) and NaN are not
  modelled; the values of this program stay below 257.
* Every operation is rounded on its own. The Go specification allows a
  compiler to fuse `x*y + z` into one operation with one rounding, which some
  architectures do; the embedding follows the unfused evaluation. -/

/-- The integer nearest to `x`, the even one of the two when `x` lies half-way
between two integers. -/
def roundHalfEven (x : ℚ) : Int :=
  if x - ⌊x⌋ < 1 / 2 then ⌊x⌋
  else if 1 / 2 < x - ⌊x⌋ then ⌊x⌋ + 1
  else if ⌊x⌋ % 2 = 0 then ⌊x⌋ else ⌊x⌋ + 1

/-- The exponent of the spacing of the `float64` values at `x`: `e - 52` for
`2^e <= |x| < 2^(e+1)`, and `-1074` below `2^-1022`, where the values are
subnormal. (At `x = 0` the value is `-52`; zero is rounded to zero with any
spacing.) -/
def ulpExp (x : ℚ) : Int :=
  max (Int.log 2 |x|) (-1022) - 52

/-- The rounding of an exact result to `float64`: the multiple of `2^(ulpExp x)`
nearest to `x`, ties to even. -/
def round64 (x : ℚ) : ℚ :=
  roundHalfEven (x / 2 ^ ulpExp x) * 2 ^ ulpExp x

/-- The `float64` product `x * y`. -/
def mul64 (x y : ℚ) : ℚ := round64 (x * y)

/-- The `float64` sum `x + y`. -/
def add64 (x y : ℚ) : ℚ := round64 (x + y)

/-- The `float64` difference `x - y`. -/
def sub64 (x y : ℚ) : ℚ := round64 (x - y)

/-- The `float64` quotient `x / y`. -/
def div64 (x y : ℚ) : ℚ := round64 (x / y)

/-- The conversion of a `float64` to an integer type, which drops the fraction. -/
def goInt (x : ℚ) : Int :=
  if 0 ≤ x then ⌊x⌋ else ⌈x⌉

/-- The grayscale computations as the program performs them.

* Line 43: the constants `0.299`, `0.587`, `0.114` are converted to `float64`,
  the three products are rounded, then the two sums from left to right, then the
  quotient by `255.0`.
* Lines 108 and 110: `uint8(p*23)` rounds the product and drops the fraction;
  the result is reduced modulo 256 (it is at most 23 for every brightness of a
  byte triple, see `float64Model_byteLevels`). -/
def float64Model : FloatModel ℚ where
  brightness r g b :=
    div64 (add64 (add64 (mul64 r (round64 0.299)) (mul64 g (round64 0.587)))
      (mul64 b (round64 0.114))) 255
  level p := Int.toNat (goInt (mul64 p 23)) % 256

/-- A `float64` value in `[0, 1]` just below `1/23`: the exact product with 23 is
`1 - 2^-55`, which is not a `float64` value and rounds to `1`. -/
def edgeBrightness : ℚ := 1566469435607129 / 2 ^ 55

/-- Quantizers for closed examples in grayscale mode (`Colorful = false`), where
`DrawRGB` calls none of them. -/
def unusedQuantizers : Quantizers :=
  { rgb2XtermRGB := fun _ _ _ => 0
    rgb2XtermYIQ := fun _ _ _ => 0
    rgb2XtermCIE94 := fun _ _ _ => 0 }

/-- A frame of 4 by 4 black pixels: 48 bytes, all zero. -/
def blackFrame : List Nat := List.replicate 48 0

/-- The black frame with the blue byte of its first pixel set to 1. -/
def blackFrameBlueOne : List Nat := [0, 0, 1] ++ List.replicate 45 0

/-- The black frame with its first pixel set to white. -/
def blackFrameWhiteOne : List Nat := [255, 255, 255] ++ List.replicate 45 0

/-- A cache of 4 columns and 2 cell rows whose entries all hold `(0, 0)`. -/
def emptyCache4x2 : FrameCache :=
  [[(0, 0), (0, 0)], [(0, 0), (0, 0)], [(0, 0), (0, 0)], [(0, 0), (0, 0)]]

/-- Lines 40-47, with the same loop and the same out-of-range reads as
`rawRGB2Pixels`. -/
def rawRGB2BrightnessPixels {β : Type} (F : FloatModel β) : List Nat → Option (List β)
  | [] => some []
  | r :: g :: b :: rest =>
    match rawRGB2BrightnessPixels F rest with
    | some ret => some (F.brightness r g b :: ret)
    | none => none
  | _ => none

/-! ## DrawRGB (lines 52-126) -/

/-- How a call ends: `done w` when it returns normally in world `w`, `panic w` when
an index is out of range, `w` being the world at that moment. -/
inductive Outcome where
  | done (w : World)
  | panic (w : World)
deriving DecidableEq, Repr

/-- The world in which the call ended, normally or not. -/
def Outcome.world : Outcome → World
  | .done w => w
  | .panic w => w

/-- Whether the call ended by an index-out-of-range failure. -/
def Outcome.failed : Outcome → Bool
  | .done _ => false
  | .panic _ => true

/-- The read `fCache[x][j]` (both halves of the pair); `none` when `x` or `j` is
out of range. -/
def cacheGet (cache : FrameCache) (x j : Nat) : Option (Nat × Nat) :=
  match cache[x]? with
  | none => none
  | some col => col[j]?

/-- The assignment `fCache[x][j][0], fCache[x][j][1] = color1, color2` of lines 95
and 117. It is only executed after the read of the same entry succeeded. -/
def cacheSet (cache : FrameCache) (x j : Nat) (v : Nat × Nat) : FrameCache :=
  cache.set x ((cache.getD x []).set j v)

/-- Lines 76-90 (colourful) and 108-113 (grayscale): the colours of the cell whose
upper pixel is at column `x`, row `y`; `quant` maps a sample to its palette
index. `none` when a pixel index is out of range. -/
def cellColors {α : Type} (quant : α → Nat) (pixels : List α) (width height x y : Nat) :
    Option (Nat × Nat) :=
  match pixels[y * width + x]? with
  | none => none
  | some p1 =>
    if y + 1 < height then
      match pixels[(y + 1) * width + x]? with
      | none => none
      | some p2 => some (quant p1, quant p2)
    else
      some (quant p1, colorTransparent)

/-- The body of the inner loop, lines 76-96 and 108-118: compute the two colours,
compare them with the cache entry, and paint and store when one differs. -/
def paintCell {α : Type} (quant : α → Nat) (pixels : List α) (width height y x : Nat)
    (w : World) : Outcome :=
  match cellColors quant pixels width height x y with
  | none => .panic w
  | some (color1, color2) =>
    match cacheGet w.fCache x (y / 2) with
    | none => .panic w
    | some old =>
      if color1 ≠ old.1 ∨ color2 ≠ old.2 then
        let w1 := dot x (y / 2) color1 color2 w
        .done { w1 with fCache := cacheSet w1.fCache x (y / 2) (color1, color2) }
      else
        .done w

/-- A `for` loop whose counter takes the values of `xs` in order; it stops at the
first failure. -/
def forEach (xs : List Nat) (body : Nat → World → Outcome) (w : World) : Outcome :=
  match xs with
  | [] => .done w
  | x :: rest =>
    match body x w with
    | .done w1 => forEach rest body w1
    | .panic w1 => .panic w1

/-- Lines 98-101 and 120-123: `fmt.Println(sequence); sequence = ""` when
`y + 2 < height`. -/
def flushRow (height y : Nat) (w : World) : World :=
  if y + 2 < height then { w with stdout := w.stdout ++ [w.sequence], sequence := "" } else w

/-- One round of the outer loop: the inner loop `for x := 0; x < width; x++`, then
the flush. -/
def drawRow {α : Type} (quant : α → Nat) (pixels : List α) (width height y : Nat)
    (w : World) : Outcome :=
  match forEach (List.range width) (paintCell quant pixels width height y) w with
  | .done w1 => .done (flushRow height y w1)
  | .panic w1 => .panic w1

/-- The outer loop `for y := 0; y < height; y += 2`: `y` takes the values
`0, 2, 4, ...` below `height`, of which there are `(height + 1) / 2`. -/
def drawLoop {α : Type} (quant : α → Nat) (pixels : List α) (width height : Nat)
    (w : World) : Outcome :=
  forEach (List.range' 0 ((height + 1) / 2) 2) (drawRow quant pixels width height) w

/-- Lines 57-68: the quantizer that `DrawRGB` selects. It starts as
`rgb2XtermYIQ`; in colourful mode `"rgb"` selects `rgb2XtermRGB`, `"cie94"`
selects `rgb2XtermCIE94` and every other name `rgb2XtermYIQ`. -/
def rgb2Xterm (q : Quantizers) (config : Config) : Nat → Nat → Nat → Nat :=
  if config.Colorful then
    if config.DistanceAlgorithm = "rgb" then q.rgb2XtermRGB
    else if config.DistanceAlgorithm = "cie94" then q.rgb2XtermCIE94
    else q.rgb2XtermYIQ
  else q.rgb2XtermYIQ

/-- Lines 52-126. The two branches of the source run the same two loops, on RGB
triples quantized by `rgb2Xterm` and on brightness samples quantized by
`uint8(p*23) + 232` (an 8-bit addition).

`Width` and `Height` enter the loops through `Int.toNat`: a loop whose bound is
zero or negative runs no round, `y*width + x` is only computed inside the inner
loop, where `0 <= x < width`, and `y+1 < height`, `y+2 < height` only inside the
outer loop, where `0 <= y < height`. -/
def DrawRGB {β : Type} (q : Quantizers) (F : FloatModel β) (raw : List Nat) (config : Config)
    (w : World) : Outcome :=
  let width := config.Width.toNat
  let height := config.Height.toNat
  if config.Colorful then
    match rawRGB2Pixels raw with
    | none => .panic w
    | some pixels =>
      drawLoop (fun p => rgb2Xterm q config p.1 p.2.1 p.2.2) pixels width height w
  else
    match rawRGB2BrightnessPixels F raw with
    | none => .panic w
    | some pixels => drawLoop (fun p => (F.level p + 232) % 256) pixels width height w

/-- The colours `(color1, color2)` that `DrawRGB` computes for the cell whose upper
pixel is at column `x`, row `y` of the frame `raw`; `none` when the extraction
or a pixel read fails. -/
def framePair {β : Type} (q : Quantizers) (F : FloatModel β) (raw : List Nat) (config : Config)
    (x y : Nat) : Option (Nat × Nat) :=
  if config.Colorful then
    match rawRGB2Pixels raw with
    | none => none
    | some pixels =>
      cellColors (fun p => rgb2Xterm q config p.1 p.2.1 p.2.2) pixels
        config.Width.toNat config.Height.toNat x y
  else
    match rawRGB2BrightnessPixels F raw with
    | none => none
    | some pixels =>
      cellColors (fun p => (F.level p + 232) % 256) pixels
        config.Width.toNat config.Height.toNat x y

/-- The palette index that `DrawRGB` gives an RGB pixel: `rgb2Xterm` of its bytes
in colourful mode (line 80), `uint8(brightness*23) + 232` of its brightness in
grayscale mode (lines 43 and 108). -/
def sampleIndex {β : Type} (q : Quantizers) (F : FloatModel β) (config : Config)
    (p : Nat × Nat × Nat) : Nat :=
  if config.Colorful then rgb2Xterm q config p.1 p.2.1 p.2.2
  else (F.level (F.brightness p.1 p.2.1 p.2.2) + 232) % 256

/-- Lines 94-95 and 116-117: paint the cell, then store its pair in the cache. -/
def paintAndStore (x j : Nat) (p : Nat × Nat) (w : World) : World :=
  { dot x j p.1 p.2 w with fCache := cacheSet w.fCache x j p }

/-- The cache has an entry for every cell of a grid of `cols` columns and `rows`
cell rows. -/
def Covers (cache : FrameCache) (cols rows : Nat) : Prop :=
  ∀ x < cols, ∀ j < rows, (cacheGet cache x j).isSome

instance (cache : FrameCache) (cols rows : Nat) : Decidable (Covers cache cols rows) := by
  unfold Covers; infer_instance

/-- The frame is a buffer of `3 * Width * Height` bytes. -/
def ValidFrame (raw : List Nat) (config : Config) : Prop :=
  (raw.length : Int) = 3 * config.Width * config.Height

instance (raw : List Nat) (config : Config) : Decidable (ValidFrame raw config) := by
  unfold ValidFrame; infer_instance

/-! ## The emitted text as a stream of codes -/

/-- The pieces of text that the program emits: the cursor move of line 130, the
background switch of lines 149-153, the foreground switch of lines 157-161, a
glyph (line 166), and the newline that `fmt.Println` adds (lines 99 and 121). -/
inductive Code where
  | move (x y : Nat)
  | bg (color : Nat)
  | fg (color : Nat)
  | glyph (s : String)
  | newline
deriving DecidableEq, Repr

/-- The text of a code. -/
def Code.render : Code → String
  | .move x y => cursorMove x y
  | .bg color => bgCode color
  | .fg color => fgCode color
  | .glyph s => s
  | .newline => "\n"

/-- Whether a code is a background-switch code. -/
def Code.isBg : Code → Bool
  | .bg _ => true
  | _ => false

/-- Whether a code is a foreground-switch code. -/
def Code.isFg : Code → Bool
  | .fg _ => true
  | _ => false

/-- The text of a stream of codes. -/
def renderCodes : List Code → String
  | [] => ""
  | code :: rest => code.render ++ renderCodes rest

/-- The codes that one call `dot(x, y, color1, color2)` appends in world `w`, in
the order of lines 130-166. -/
def dotCodes (x y color1 color2 : Nat) (w : World) : List Code :=
  let choice : Nat × Nat × String :=
    if color1 = color2 then
      (color1, w.oldfg, " ")
    else if color2 = colorTransparent then
      (color2, color1, "▀")
    else
      (color1, color2, "▄")
  [Code.move x y]
    ++ (if choice.1 ≠ w.oldbg then [Code.bg choice.1] else [])
    ++ (if choice.2.1 ≠ w.oldfg then [Code.fg choice.2.1] else [])
    ++ [Code.glyph choice.2.2]

/-- What the program does to the output between and during `DrawRGB` calls: it
paints a cell (a call of `dot`) or flushes the row buffer (lines 99-100). -/
inductive Event where
  | paint (x y color1 color2 : Nat)
  | flush
deriving DecidableEq, Repr

/-- The world after a sequence of events. -/
def runEvents : List Event → World → World
  | [], w => w
  | .paint x y color1 color2 :: rest, w => runEvents rest (dot x y color1 color2 w)
  | .flush :: rest, w =>
    runEvents rest { w with stdout := w.stdout ++ [w.sequence], sequence := "" }

/-- The codes that a sequence of events emits, in order. -/
def eventCodes : List Event → World → List Code
  | [], _ => []
  | .paint x y color1 color2 :: rest, w =>
    dotCodes x y color1 color2 w ++ eventCodes rest (dot x y color1 color2 w)
  | .flush :: rest, w =>
    Code.newline :: eventCodes rest { w with stdout := w.stdout ++ [w.sequence], sequence := "" }

/-- The lines printed so far, each with its newline. -/
def printedText : List String → String
  | [] => ""
  | line :: rest => line ++ "\n" ++ printedText rest

/-- All the text emitted so far: what was printed, then what is pending in
`sequence`. -/
def emittedText (w : World) : String :=
  printedText w.stdout ++ w.sequence

/-! ## A render call as a sequence of events -/

/-- The world after a sequence of events in which every painted cell is also
stored in the cache, as `DrawRGB` does. -/
def replay : List Event → World → World
  | [], w => w
  | .paint x j color1 color2 :: rest, w => replay rest (paintAndStore x j (color1, color2) w)
  | .flush :: rest, w =>
    replay rest { w with stdout := w.stdout ++ [w.sequence], sequence := "" }

/-- The event of the cell at column `x` of the pair-row starting at pixel row `y`,
for the cell colours `pair` and the cache `cache`: a paint when the new pair
differs from the cached one, nothing otherwise. -/
def cellEvent (pair : Nat → Nat → Option (Nat × Nat)) (cache : FrameCache) (y x : Nat) :
    Option Event :=
  match pair x y with
  | none => none
  | some p => if some p = cacheGet cache x (y / 2) then none
              else some (Event.paint x (y / 2) p.1 p.2)

/-- The events of one pair-row: its stale cells from left to right, then the
flush when `y + 2 < height`. -/
def rowEvents (pair : Nat → Nat → Option (Nat × Nat)) (cache : FrameCache)
    (width height y : Nat) : List Event :=
  (List.range width).filterMap (cellEvent pair cache y)
    ++ (if y + 2 < height then [Event.flush] else [])

/-- The events of the pair-rows `ys`, in order. -/
def rowsEvents (pair : Nat → Nat → Option (Nat × Nat)) (cache : FrameCache)
    (width height : Nat) : List Nat → List Event
  | [] => []
  | y :: ys => rowEvents pair cache width height y ++ rowsEvents pair cache width height ys

/-- The events of a whole frame. -/
def frameEvents (pair : Nat → Nat → Option (Nat × Nat)) (cache : FrameCache)
    (width height : Nat) : List Event :=
  rowsEvents pair cache width height (List.range' 0 ((height + 1) / 2) 2)

/-- The events of the pair-rows before the final one. -/
def beforeLastRow (pair : Nat → Nat → Option (Nat × Nat)) (cache : FrameCache)
    (width height : Nat) : List Event :=
  rowsEvents pair cache width height (List.range' 0 ((height + 1) / 2 - 1) 2)

/-- The paint events of the final pair-row, whose upper pixel row is
`2 * ((height + 1) / 2 - 1)`. -/
def lastRowPaints (pair : Nat → Nat → Option (Nat × Nat)) (cache : FrameCache)
    (width height : Nat) : List Event :=
  (List.range width).filterMap (cellEvent pair cache (2 * ((height + 1) / 2 - 1)))

/-- The arguments of the `dot` call of an event. -/
def Event.call : Event → Option (Nat × Nat × Nat × Nat)
  | .paint x j color1 color2 => some (x, j, color1, color2)
  | .flush => none

/-! ## The grayscale index -/

/-- Lines 108 and 110: `uint8(p*23) + 232`, an addition of two `uint8` values, for
the brightness sample `p`. -/
def grayIndex {β : Type} (F : FloatModel β) (p : β) : Nat :=
  (F.level p + 232) % 256

/-- Modelled from the spec: the quantizers are declared outside the source file;
the spec says that quantization yields an index of the colour cube (16 to 231)
or of the grayscale ramp (232 to 255), never one of the reserved indices 0 to
15, among which are the two sentinels. -/
def Quantizers.InPalette (q : Quantizers) : Prop :=
  ∀ r g b, 16 ≤ q.rgb2XtermRGB r g b ∧ 16 ≤ q.rgb2XtermYIQ r g b ∧ 16 ≤ q.rgb2XtermCIE94 r g b

/-- The `float64` operations keep `uint8(brightness*23)` of every byte triple at
most 23, as exact arithmetic does (the brightness of a byte triple is at most
1). -/
def FloatModel.ByteLevels {β : Type} (F : FloatModel β) : Prop :=
  ∀ r g b, r < 256 → g < 256 → b < 256 → F.level (F.brightness r g b) ≤ 23

/-- Quantizers within the palette for closed examples: every colour goes to the
index 16. -/
def paletteQuantizers : Quantizers :=
  { rgb2XtermRGB := fun _ _ _ => 16
    rgb2XtermYIQ := fun _ _ _ => 16
    rgb2XtermCIE94 := fun _ _ _ => 16 }

/-- Modelled from the spec: the frame cache is declared and initialized outside the
source file; the spec says that it starts in the undefined sentinel state. A
grid of `cols` columns and `rows` cell rows whose entries are all
`(colorUndef, colorUndef)`. -/
def initialCache (cols rows : Nat) : FrameCache :=
  List.replicate cols (List.replicate rows (colorUndef, colorUndef))

/-- The output of `w2` continues the output of `w1`: the printed lines of `w1` are
still there, in front, and the text pending in the sequence of `w1` starts the
first line printed after them or, when no line was printed, the sequence of
`w2`. -/
def Continues (w1 w2 : World) : Prop :=
  ∃ lines, w2.stdout = w1.stdout ++ lines ∧
    ((lines = [] ∧ ∃ s, w2.sequence = w1.sequence ++ s) ∨
     (∃ s more, lines = (w1.sequence ++ s) :: more))

/-! ## AsciiDrawRGB (lines 169-214)

`AsciiDrawRGB` computes on `float64` values throughout: the brightness samples
are those of `float64Model` and every operation of lines 169-178 and 189-191 is
rounded. The function reads and writes no package variable; its result is the
text it prints and whether it failed. -/

/-- Lines 169-171: `x - y*math.Floor(x/y)`, the quotient, the product and the
difference being `float64` operations; `math.Floor` is exact. -/
def floatMod (x y : ℚ) : ℚ :=
  sub64 x (mul64 y (⌊div64 x y⌋ : ℚ))

/-- Lines 173-178: `y` when the `float64` difference `x - y` is positive, else `x`. -/
def floatMin (x y : ℚ) : ℚ :=
  if sub64 x y > 0 then y else x

/-- Line 208: the text of `fmt.Printf("\033[48;5;%dm\033[38;5;%dm%s", bg, fg, chr)`. -/
def asciiPrintf (bg fg : Int) (chr : String) : String :=
  "\x1b[48;5;" ++ toString bg ++ "m\x1b[38;5;" ++ toString fg ++ "m" ++ chr

/-- Lines 188-208: the text printed for one pixel of brightness `brightness`. The
band edges `0.2`, `0.4`, `0.6`, `0.8` are `float64` constants. -/
def asciiPixel (brightness : ℚ) : String :=
  let bg := add64 (mul64 brightness 23) 232
  let fg := floatMin 255 (add64 bg 1)
  let mod := floatMod bg 1
  let choice : ℚ × ℚ × String :=
    if mod < round64 0.2 then (bg, fg, " ")
    else if mod < round64 0.4 then (bg, fg, "░")
    else if mod < round64 0.6 then (bg, fg, "▒")
    else if mod < round64 0.8 then (fg, bg, "▒")
    else (fg, bg, "░")
  asciiPrintf (goInt choice.1) (goInt choice.2.1) choice.2.2

/-- The text of one pixel by the shading rule read in exact arithmetic, without
rounding: `bg = brightness*23 + 232`, `fg = min(255, bg+1)`, `m` the fractional
part of `bg`, five bands with the colours swapped in the last two. Not a
translation of the source: it is what `asciiPixel` is compared with. -/
def asciiPixelExact (brightness : ℚ) : String :=
  let bg := brightness * 23 + 232
  let fg := min 255 (bg + 1)
  let m := Int.fract bg
  if m < 0.2 then asciiPrintf ⌊bg⌋ ⌊fg⌋ " "
  else if m < 0.4 then asciiPrintf ⌊bg⌋ ⌊fg⌋ "░"
  else if m < 0.6 then asciiPrintf ⌊bg⌋ ⌊fg⌋ "▒"
  else if m < 0.8 then asciiPrintf ⌊fg⌋ ⌊bg⌋ "▒"
  else asciiPrintf ⌊fg⌋ ⌊bg⌋ "░"

/-- The inner loop of lines 187-209 over the columns `xs`, `out` being the text
printed so far: the text printed after it, and whether a pixel read failed. -/
def asciiRow (pixels : List ℚ) (width y : Nat) : List Nat → String → String × Bool
  | [], out => (out, false)
  | x :: rest, out =>
    match pixels[y * width + x]? with
    | none => (out, true)
    | some brightness => asciiRow pixels width y rest (out ++ asciiPixel brightness)

/-- The outer loop of lines 186-213 over the rows `ys`: each row, then a newline
when `y + 1 < height`. -/
def asciiRows (pixels : List ℚ) (width height : Nat) : List Nat → String → String × Bool
  | [], out => (out, false)
  | y :: rest, out =>
    match asciiRow pixels width y (List.range width) out with
    | (out1, true) => (out1, true)
    | (out1, false) =>
      asciiRows pixels width height rest (if y + 1 < height then out1 ++ "\n" else out1)

/-- Lines 182-214: the text that `AsciiDrawRGB` prints, and whether it failed by an
index out of range. -/
def AsciiDrawRGB (raw : List Nat) (config : Config) : String × Bool :=
  match rawRGB2BrightnessPixels float64Model raw with
  | none => ("", true)
  | some pixels =>
    asciiRows pixels config.Width.toNat config.Height.toNat
      (List.range config.Height.toNat) ""

/-- The concatenation of pieces of text. -/
def concatText : List String → String
  | [] => ""
  | s :: rest => s ++ concatText rest

/-- The pieces of text of the rows `ys` of a frame of brightness samples, in
row-major order: one piece for each pixel, and a newline after each row but the
last. -/
def asciiFrameTexts (samples : List ℚ) (width height : Nat) : List Nat → List String
  | [] => []
  | y :: rest =>
    (List.range width).map (fun x => asciiPixel (samples.getD (y * width + x) 0))
      ++ (if y + 1 < height then ["\n"] else [])
      ++ asciiFrameTexts samples width height rest

/-! ## Theorems about dot -/

/-- The state that `dot` leaves, in closed form: the sequence grows by the cursor
move, the background code when the background changes, the foreground code when
the foreground changes, and the glyph, in this order. -/
theorem dot_eq (x y color1 color2 : Nat) (w : World) :
    dot x y color1 color2 w =
      { oldbg := if color1 = color2 then color1
                 else if color2 = colorTransparent then colorTransparent else color1,
        oldfg := if color1 = color2 then w.oldfg
                 else if color2 = colorTransparent then color1 else color2,
        sequence := w.sequence ++ cursorMove x y
          ++ (if (if color1 = color2 then color1
                  else if color2 = colorTransparent then colorTransparent else color1) ≠ w.oldbg
              then bgCode (if color1 = color2 then color1
                  else if color2 = colorTransparent then colorTransparent else color1) else "")
          ++ (if (if color1 = color2 then w.oldfg
                  else if color2 = colorTransparent then color1 else color2) ≠ w.oldfg
              then fgCode (if color1 = color2 then w.oldfg
                  else if color2 = colorTransparent then color1 else color2) else "")
          ++ (if color1 = color2 then " "
              else if color2 = colorTransparent then "▀" else "▄"),
        fCache := w.fCache,
        stdout := w.stdout,
        dotCalls := w.dotCalls ++ [(x, y, color1, color2)] } := by
  unfold dot cursorMove bgCode fgCode
  by_cases h1 : color1 = color2
  · simp only [if_pos h1, ne_eq, not_true_eq_false, if_false]
    split_ifs <;> simp only [String.append_assoc, String.append_empty]
  · simp only [if_neg h1]
    by_cases h2 : color2 = colorTransparent
    · simp only [if_pos h2, ne_eq]
      split_ifs <;>
        simp_all only [String.append_assoc, String.append_empty, not_true_eq_false,
          not_false_eq_true]
    · simp only [if_neg h2, ne_eq]
      split_ifs <;> simp only [String.append_assoc, String.append_empty]

/-- C1. `dot` chooses glyph and colours by three cases. When the two colours are
equal the sequence grows by the cursor move, the background code for `color1` if
the background changes, and a space; the background becomes `color1` and the
foreground is unchanged. Otherwise, when `color2` is `colorTransparent`, the glyph
is U+2580, the foreground becomes `color1` and the background
`colorTransparent`. Otherwise the glyph is U+2584, the background becomes
`color1` and the foreground `color2`. In each case the glyph ends the
sequence. -/
theorem dot_three_cases (x y color1 color2 : Nat) (w : World) :
    (color1 = color2 →
      (dot x y color1 color2 w).oldbg = color1 ∧
      (dot x y color1 color2 w).oldfg = w.oldfg ∧
      (dot x y color1 color2 w).sequence =
        w.sequence ++ cursorMove x y
          ++ (if color1 ≠ w.oldbg then bgCode color1 else "") ++ " ") ∧
    (color1 ≠ color2 → color2 = colorTransparent →
      (dot x y color1 color2 w).oldbg = colorTransparent ∧
      (dot x y color1 color2 w).oldfg = color1 ∧
      (dot x y color1 color2 w).sequence =
        w.sequence ++ cursorMove x y
          ++ (if colorTransparent ≠ w.oldbg then bgCode colorTransparent else "")
          ++ (if color1 ≠ w.oldfg then fgCode color1 else "") ++ "▀") ∧
    (color1 ≠ color2 → color2 ≠ colorTransparent →
      (dot x y color1 color2 w).oldbg = color1 ∧
      (dot x y color1 color2 w).oldfg = color2 ∧
      (dot x y color1 color2 w).sequence =
        w.sequence ++ cursorMove x y
          ++ (if color1 ≠ w.oldbg then bgCode color1 else "")
          ++ (if color2 ≠ w.oldfg then fgCode color2 else "") ++ "▄") := by
  refine ⟨fun h => ?_, fun h1 h2 => ?_, fun h1 h2 => ?_⟩
  · rw [dot_eq]; simp [h]
  · subst h2
    rw [dot_eq]; simp [h1]
  · rw [dot_eq]; simp [h1, h2]

/-- The three cases of C1 at concrete cells, from the initial render state: equal
colours 196/196, a transparent lower half 231/1, and two colours 196/21. -/
theorem dot_three_cases_witness :
    (dot 0 0 196 196 (World.init [])).sequence = "\x1b[1;1H\x1b[48;5;196m " ∧
    (dot 0 0 196 196 (World.init [])).oldfg = colorUndef ∧
    (dot 2 1 231 1 (World.init [])).sequence = "\x1b[2;3H\x1b[49m\x1b[38;5;231m▀" ∧
    (dot 2 1 196 21 (World.init [])).sequence = "\x1b[2;3H\x1b[48;5;196m\x1b[38;5;21m▄" := by
  have h1 := (dot_three_cases 0 0 196 196 (World.init [])).1 rfl
  have h2 := (dot_three_cases 2 1 231 1 (World.init [])).2.1 (by decide) rfl
  have h3 := (dot_three_cases 2 1 196 21 (World.init [])).2.2 (by decide) (by decide)
  refine ⟨?_, ?_, ?_, ?_⟩
  · rw [h1.2.2]; decide
  · rw [h1.2.1]; decide
  · rw [h2.2.2]; decide
  · rw [h3.2.2]; decide

/-- C2. After `dot` the render state holds the effective background and
foreground of the cell, and the sequence has grown by: the cursor move; a
background-switch code exactly when the effective background differs from the old
`oldbg`, which is `ESC[49m` for `colorTransparent` and `ESC[48;5;<bg>m`
otherwise; a foreground-switch code exactly when the effective foreground
differs from the old `oldfg`, which is `ESC[39m` for `colorUndef` and
`ESC[38;5;<fg>m` otherwise; and the glyph. -/
theorem dot_switch_codes (x y color1 color2 : Nat) (w : World) :
    (dot x y color1 color2 w).oldbg =
        (if color1 = color2 then color1
         else if color2 = colorTransparent then colorTransparent else color1) ∧
    (dot x y color1 color2 w).oldfg =
        (if color1 = color2 then w.oldfg
         else if color2 = colorTransparent then color1 else color2) ∧
    (dot x y color1 color2 w).sequence =
      w.sequence ++ cursorMove x y
        ++ (if (dot x y color1 color2 w).oldbg ≠ w.oldbg then
              (if (dot x y color1 color2 w).oldbg = colorTransparent then "\x1b[49m"
               else "\x1b[48;5;" ++ toString (dot x y color1 color2 w).oldbg ++ "m")
            else "")
        ++ (if (dot x y color1 color2 w).oldfg ≠ w.oldfg then
              (if (dot x y color1 color2 w).oldfg = colorUndef then "\x1b[39m"
               else "\x1b[38;5;" ++ toString (dot x y color1 color2 w).oldfg ++ "m")
            else "")
        ++ (if color1 = color2 then " "
            else if color2 = colorTransparent then "▀" else "▄") := by
  rw [dot_eq]
  exact ⟨rfl, rfl, rfl⟩

/-! ## Decimal printing is injective -/

theorem toDigitsCore_fuel (n : Nat) : ∀ (fuel : Nat) (ds : List Char), n < fuel →
    Nat.toDigitsCore 10 fuel n ds = Nat.toDigits 10 n ++ ds := by
  induction n using Nat.strong_induction_on with
  | _ n ih =>
    intro fuel ds hf
    obtain ⟨k, rfl⟩ : ∃ k, fuel = k + 1 := ⟨fuel - 1, by omega⟩
    unfold Nat.toDigits
    simp only [Nat.toDigitsCore]
    by_cases h0 : n / 10 = 0
    · simp [h0]
    · simp only [h0, if_false]
      have hlt : n / 10 < n := by omega
      rw [ih (n / 10) hlt k _ (by omega), ih (n / 10) hlt n _ hlt]
      simp

theorem toDigits_step (n : Nat) :
    Nat.toDigits 10 n =
      if n / 10 = 0 then [Nat.digitChar (n % 10)]
      else Nat.toDigits 10 (n / 10) ++ [Nat.digitChar (n % 10)] := by
  conv_lhs => unfold Nat.toDigits
  simp only [Nat.toDigitsCore]
  by_cases h0 : n / 10 = 0
  · simp [h0]
  · simp only [h0, if_false]
    exact toDigitsCore_fuel (n / 10) n _ (by omega)

theorem digitChar_inj {a b : Nat} (ha : a < 10) (hb : b < 10)
    (h : Nat.digitChar a = Nat.digitChar b) : a = b := by
  interval_cases a <;> interval_cases b <;> first | rfl | (exact absurd h (by decide))

theorem toDigits_ne_nil (n : Nat) : Nat.toDigits 10 n ≠ [] := by
  rw [toDigits_step]; split_ifs <;> simp

theorem toDigits_inj : ∀ (a b : Nat), Nat.toDigits 10 a = Nat.toDigits 10 b → a = b := by
  intro a
  induction a using Nat.strong_induction_on with
  | _ a ih =>
    intro b h
    rw [toDigits_step a, toDigits_step b] at h
    have hma : a % 10 < 10 := Nat.mod_lt _ (by decide)
    have hmb : b % 10 < 10 := Nat.mod_lt _ (by decide)
    by_cases ha : a / 10 = 0 <;> by_cases hb : b / 10 = 0
    · simp only [ha, hb, if_true, List.cons.injEq, and_true] at h
      have := digitChar_inj hma hmb h
      omega
    · simp only [ha, hb, if_true, if_false] at h
      have hl := congrArg List.length h
      have := toDigits_ne_nil (b / 10)
      have : 0 < (Nat.toDigits 10 (b / 10)).length := List.length_pos.mpr this
      simp only [List.length_append, List.length_singleton] at hl
      omega
    · simp only [ha, hb, if_true, if_false] at h
      have hl := congrArg List.length h
      have := toDigits_ne_nil (a / 10)
      have : 0 < (Nat.toDigits 10 (a / 10)).length := List.length_pos.mpr this
      simp only [List.length_append, List.length_singleton] at hl
      omega
    · simp only [ha, hb, if_false] at h
      have h1 := List.append_inj' h rfl
      have h2 := ih (a / 10) (by omega) (b / 10) h1.1
      have h3 := digitChar_inj hma hmb (by simpa using h1.2)
      omega

theorem toString_nat_inj {a b : Nat} (h : toString a = toString b) : a = b := by
  have h1 : (Nat.toDigits 10 a).asString = (Nat.toDigits 10 b).asString := h
  exact toDigits_inj a b (congrArg String.data h1)

theorem string_append_left_cancel {a b c : String} (h : a ++ b = a ++ c) : b = c := by
  have := congrArg String.data h
  simp only [String.data_append] at this
  exact String.ext (List.append_cancel_left this)

theorem string_append_right_cancel {a b c : String} (h : a ++ c = b ++ c) : a = b := by
  have := congrArg String.data h
  simp only [String.data_append] at this
  exact String.ext (List.append_cancel_right this)

theorem bgCode_inj {a b : Nat} (h : bgCode a = bgCode b) : a = b := by
  unfold bgCode at h
  by_cases ha : a = colorTransparent <;> by_cases hb : b = colorTransparent
  · rw [ha, hb]
  · rw [if_pos ha, if_neg hb] at h
    have := congrArg String.data h
    simp [String.data_append] at this
  · rw [if_neg ha, if_pos hb] at h
    have := congrArg String.data h
    simp [String.data_append] at this
  · rw [if_neg ha, if_neg hb] at h
    exact toString_nat_inj (string_append_left_cancel (string_append_right_cancel h))

theorem fgCode_inj {a b : Nat} (h : fgCode a = fgCode b) : a = b := by
  unfold fgCode at h
  by_cases ha : a = colorUndef <;> by_cases hb : b = colorUndef
  · rw [ha, hb]
  · rw [if_pos ha, if_neg hb] at h
    have := congrArg String.data h
    simp [String.data_append] at this
  · rw [if_neg ha, if_pos hb] at h
    have := congrArg String.data h
    simp [String.data_append] at this
  · rw [if_neg ha, if_neg hb] at h
    exact toString_nat_inj (string_append_left_cancel (string_append_right_cancel h))


/-! ## The stream of codes -/

theorem renderCodes_append (a b : List Code) :
    renderCodes (a ++ b) = renderCodes a ++ renderCodes b := by
  induction a with
  | nil => simp [renderCodes]
  | cons code rest ih => simp [renderCodes, ih, String.append_assoc]

theorem printedText_concat (lines : List String) (s : String) :
    printedText (lines ++ [s]) = printedText lines ++ s ++ "\n" := by
  induction lines with
  | nil => simp [printedText]
  | cons line rest ih => simp [printedText, ih, String.append_assoc]

/-- The text that `dot` appends is the text of `dotCodes`. -/
theorem dot_sequence_codes (x y color1 color2 : Nat) (w : World) :
    (dot x y color1 color2 w).sequence =
      w.sequence ++ renderCodes (dotCodes x y color1 color2 w) := by
  rw [dot_eq]
  unfold dotCodes
  by_cases h1 : color1 = color2
  · simp only [if_pos h1, ne_eq, not_true_eq_false, if_false]
    split_ifs <;>
      simp [renderCodes, Code.render, String.append_assoc]
  · simp only [if_neg h1]
    by_cases h2 : color2 = colorTransparent
    · simp only [if_pos h2, ne_eq]
      split_ifs <;>
        simp_all [renderCodes, Code.render, String.append_assoc]
    · simp only [if_neg h2, ne_eq]
      split_ifs <;>
        simp [renderCodes, Code.render, String.append_assoc]

theorem dot_stdout (x y color1 color2 : Nat) (w : World) :
    (dot x y color1 color2 w).stdout = w.stdout := by
  rw [dot_eq]

theorem dot_fCache (x y color1 color2 : Nat) (w : World) :
    (dot x y color1 color2 w).fCache = w.fCache := by
  rw [dot_eq]

theorem dot_dotCalls (x y color1 color2 : Nat) (w : World) :
    (dot x y color1 color2 w).dotCalls = w.dotCalls ++ [(x, y, color1, color2)] := by
  rw [dot_eq]

/-- The text emitted by a sequence of events is the text of its codes. -/
theorem emittedText_runEvents (events : List Event) :
    ∀ w : World, emittedText (runEvents events w)
      = emittedText w ++ renderCodes (eventCodes events w) := by
  induction events with
  | nil => intro w; simp [runEvents, eventCodes, renderCodes]
  | cons e rest ih =>
    intro w
    cases e with
    | paint x y color1 color2 =>
      simp only [runEvents, eventCodes, ih, renderCodes_append]
      simp only [emittedText, dot_stdout, dot_sequence_codes, String.append_assoc]
    | flush =>
      simp only [runEvents, eventCodes, ih, renderCodes, Code.render]
      simp only [emittedText, printedText_concat, String.append_assoc, String.append_empty]

/-- The colour of a background-switch code. -/
theorem bg_codes_of_dotCodes (x y color1 color2 : Nat) (w : World) :
    (dotCodes x y color1 color2 w).filter Code.isBg =
      if (dot x y color1 color2 w).oldbg ≠ w.oldbg
      then [Code.bg (dot x y color1 color2 w).oldbg] else [] := by
  rw [dot_eq]
  unfold dotCodes
  by_cases h1 : color1 = color2
  · simp only [if_pos h1, ne_eq, not_true_eq_false, if_false]
    split_ifs <;> simp [Code.isBg]
  · simp only [if_neg h1]
    by_cases h2 : color2 = colorTransparent
    · simp only [if_pos h2, ne_eq]
      split_ifs <;> simp_all [Code.isBg]
    · simp only [if_neg h2, ne_eq]
      split_ifs <;> simp [Code.isBg]

theorem fg_codes_of_dotCodes (x y color1 color2 : Nat) (w : World) :
    (dotCodes x y color1 color2 w).filter Code.isFg =
      if (dot x y color1 color2 w).oldfg ≠ w.oldfg
      then [Code.fg (dot x y color1 color2 w).oldfg] else [] := by
  rw [dot_eq]
  unfold dotCodes
  by_cases h1 : color1 = color2
  · simp only [if_pos h1, ne_eq, not_true_eq_false, if_false]
    split_ifs <;> simp [Code.isFg]
  · simp only [if_neg h1]
    by_cases h2 : color2 = colorTransparent
    · simp only [if_pos h2, ne_eq]
      split_ifs <;> simp_all [Code.isFg]
    · simp only [if_neg h2, ne_eq]
      split_ifs <;> simp [Code.isFg]

/-- Among the background codes of a run, each differs from the one before it, and
the first differs from the code of the background the run started with. -/
theorem bg_chain (events : List Event) :
    ∀ w : World, List.Chain (fun a b => a ≠ b) (bgCode w.oldbg)
      (((eventCodes events w).filter Code.isBg).map Code.render) := by
  induction events with
  | nil => intro w; simp [eventCodes]
  | cons e rest ih =>
    intro w
    cases e with
    | paint x y color1 color2 =>
      simp only [eventCodes, List.filter_append, List.map_append, bg_codes_of_dotCodes]
      have h := ih (dot x y color1 color2 w)
      by_cases hb : (dot x y color1 color2 w).oldbg = w.oldbg
      · simp only [ne_eq, hb, not_true_eq_false, if_false, List.map_nil, List.nil_append]
        rw [← hb]; exact h
      · simp only [ne_eq, hb, not_false_eq_true, if_true, List.map_cons, List.map_nil,
          List.singleton_append, Code.render]
        exact List.Chain.cons (fun hc => hb (bgCode_inj hc).symm) h
    | flush =>
      simp only [eventCodes, List.filter_cons, Code.isBg, Bool.false_eq_true, if_false]
      exact ih { w with stdout := w.stdout ++ [w.sequence], sequence := "" }

theorem fg_chain (events : List Event) :
    ∀ w : World, List.Chain (fun a b => a ≠ b) (fgCode w.oldfg)
      (((eventCodes events w).filter Code.isFg).map Code.render) := by
  induction events with
  | nil => intro w; simp [eventCodes]
  | cons e rest ih =>
    intro w
    cases e with
    | paint x y color1 color2 =>
      simp only [eventCodes, List.filter_append, List.map_append, fg_codes_of_dotCodes]
      have h := ih (dot x y color1 color2 w)
      by_cases hb : (dot x y color1 color2 w).oldfg = w.oldfg
      · simp only [ne_eq, hb, not_true_eq_false, if_false, List.map_nil, List.nil_append]
        rw [← hb]; exact h
      · simp only [ne_eq, hb, not_false_eq_true, if_true, List.map_cons, List.map_nil,
          List.singleton_append, Code.render]
        exact List.Chain.cons (fun hc => hb (fgCode_inj hc).symm) h
    | flush =>
      simp only [eventCodes, List.filter_cons, Code.isFg, Bool.false_eq_true, if_false]
      exact ih { w with stdout := w.stdout ++ [w.sequence], sequence := "" }

/-- C3. For every starting world and every finite sequence of cells painted by
`dot`, with row flushes anywhere in between, the emitted text is the text of the
stream of codes `eventCodes`, and in that stream no background-switch code is
followed, as the next background-switch code, by an identical one; likewise for
the foreground-switch codes. The first switch code of each kind also differs
from the code of the colour the run started with. -/
theorem no_repeated_switch_codes (events : List Event) (w : World) :
    emittedText (runEvents events w) = emittedText w ++ renderCodes (eventCodes events w) ∧
    List.Chain (fun a b => a ≠ b) (bgCode w.oldbg)
      (((eventCodes events w).filter Code.isBg).map Code.render) ∧
    List.Chain (fun a b => a ≠ b) (fgCode w.oldfg)
      (((eventCodes events w).filter Code.isFg).map Code.render) :=
  ⟨emittedText_runEvents events w, bg_chain events w, fg_chain events w⟩

/-! ## The frame cache -/

theorem cacheGet_cacheSet (cache : FrameCache) (x j i k : Nat) (v : Nat × Nat) :
    cacheGet (cacheSet cache x j v) i k =
      if i = x ∧ k = j then (cacheGet cache x j).map (fun _ => v) else cacheGet cache i k := by
  unfold cacheGet cacheSet
  rw [List.getElem?_set, List.getD_eq_getElem?_getD]
  by_cases hx : x = i
  · subst hx
    by_cases hlt : x < cache.length
    · have hsome : cache[x]? = some cache[x] := List.getElem?_eq_getElem hlt
      simp only [hsome, Option.getD_some, if_true, hlt, true_and]
      rw [List.getElem?_set]
      by_cases hj : j = k
      · subst hj
        by_cases hjl : j < (cache[x]).length
        · simp [hjl, List.getElem?_eq_getElem hjl]
        · simp [hjl, List.getElem?_eq_none (Nat.le_of_not_lt hjl)]
      · have hj2 : ¬ k = j := fun h => hj h.symm
        simp [hj, hj2]
    · have hnone : cache[x]? = none := List.getElem?_eq_none (Nat.le_of_not_lt hlt)
      simp [hnone, hlt]
  · have hx2 : ¬ i = x := fun h => hx h.symm
    simp [hx, hx2]

theorem cacheGet_cacheSet_isSome (cache : FrameCache) (x j i k : Nat) (v : Nat × Nat) :
    (cacheGet (cacheSet cache x j v) i k).isSome = (cacheGet cache i k).isSome := by
  rw [cacheGet_cacheSet]
  by_cases h : i = x ∧ k = j
  · rw [if_pos h, h.1, h.2]; cases cacheGet cache x j <;> rfl
  · rw [if_neg h]

/-! ## Replaying events -/

theorem replay_append (a b : List Event) : ∀ w : World,
    replay (a ++ b) w = replay b (replay a w) := by
  induction a with
  | nil => intro w; rfl
  | cons e rest ih =>
    intro w
    cases e with
    | paint x j color1 color2 =>
      show replay (rest ++ b) _ = _
      exact ih _
    | flush =>
      show replay (rest ++ b) _ = _
      exact ih _

theorem paintAndStore_fCache (x j : Nat) (p : Nat × Nat) (w : World) :
    (paintAndStore x j p w).fCache = cacheSet w.fCache x j p := rfl

/-- An entry of the cache at which no event paints is unchanged. -/
theorem cacheGet_replay_of_no_paint (events : List Event) (i k : Nat) :
    ∀ w : World, (∀ color1 color2, Event.paint i k color1 color2 ∉ events) →
      cacheGet (replay events w).fCache i k = cacheGet w.fCache i k := by
  induction events with
  | nil => intro w _; rfl
  | cons e rest ih =>
    intro w h
    have hrest : ∀ color1 color2, Event.paint i k color1 color2 ∉ rest :=
      fun a b hm => h a b (List.mem_cons_of_mem _ hm)
    cases e with
    | paint x j color1 color2 =>
      simp only [replay]
      rw [ih _ hrest, paintAndStore_fCache, cacheGet_cacheSet]
      have hne : ¬ (i = x ∧ k = j) := by
        rintro ⟨rfl, rfl⟩
        exact h color1 color2 (List.mem_cons_self _ _)
      rw [if_neg hne]
    | flush =>
      simp only [replay]
      rw [ih _ hrest]

/-- Replaying events keeps every entry of the cache present. -/
theorem cacheGet_replay_isSome (events : List Event) (i k : Nat) :
    ∀ w : World, (cacheGet (replay events w).fCache i k).isSome
      = (cacheGet w.fCache i k).isSome := by
  induction events with
  | nil => intro w; rfl
  | cons e rest ih =>
    intro w
    cases e with
    | paint x j color1 color2 =>
      simp only [replay]
      rw [ih, paintAndStore_fCache, cacheGet_cacheSet_isSome]
    | flush =>
      simp only [replay]
      rw [ih]

/-! ## The loops of DrawRGB as a replay of events -/

section Loops

variable {α : Type} (quant : α → Nat) (pixels : List α) (width height : Nat)

theorem paintCell_eq (y x : Nat) (w : World)
    (hp : (cellColors quant pixels width height x y).isSome)
    (hc : (cacheGet w.fCache x (y / 2)).isSome) :
    paintCell quant pixels width height y x w =
      .done (replay (cellEvent (cellColors quant pixels width height) w.fCache y x).toList w) := by
  obtain ⟨p, hp⟩ := Option.isSome_iff_exists.mp hp
  obtain ⟨old, hc⟩ := Option.isSome_iff_exists.mp hc
  unfold paintCell cellEvent
  rw [hp, hc]
  obtain ⟨p1, p2⟩ := p
  obtain ⟨o1, o2⟩ := old
  simp only [Option.some.injEq, Prod.mk.injEq, ne_eq]
  by_cases h : p1 = o1 ∧ p2 = o2
  · obtain ⟨rfl, rfl⟩ := h
    simp [replay]
  · have h2 : ¬ p1 = o1 ∨ ¬ p2 = o2 := by
      by_cases h1 : p1 = o1
      · exact Or.inr (fun h3 => h ⟨h1, h3⟩)
      · exact Or.inl h1
    simp only [h, h2, if_true, if_false, Option.toList, replay, paintAndStore, dot_fCache]

theorem cellEvent_congr (pair : Nat → Nat → Option (Nat × Nat)) (c1 c2 : FrameCache)
    (y x : Nat) (h : cacheGet c1 x (y / 2) = cacheGet c2 x (y / 2)) :
    cellEvent pair c1 y x = cellEvent pair c2 y x := by
  unfold cellEvent
  rw [h]

theorem mem_cellEvent {pair : Nat → Nat → Option (Nat × Nat)} {cache : FrameCache}
    {y x : Nat} {e : Event} (h : cellEvent pair cache y x = some e) :
    ∃ p, pair x y = some p ∧ some p ≠ cacheGet cache x (y / 2) ∧
      e = Event.paint x (y / 2) p.1 p.2 := by
  unfold cellEvent at h
  cases hp : pair x y with
  | none => rw [hp] at h; exact absurd h (by simp)
  | some p =>
    rw [hp] at h
    dsimp only at h
    by_cases hs : some p = cacheGet cache x (y / 2)
    · rw [if_pos hs] at h; exact absurd h (by simp)
    · rw [if_neg hs] at h
      exact ⟨p, rfl, hs, (Option.some.inj h).symm⟩

/-- The inner loop over the columns `xs` replays the events of their stale cells. -/
theorem forEach_paintCell (y : Nat) : ∀ (xs : List Nat) (w : World), xs.Nodup →
    (∀ x ∈ xs, (cellColors quant pixels width height x y).isSome) →
    (∀ x ∈ xs, (cacheGet w.fCache x (y / 2)).isSome) →
    forEach xs (paintCell quant pixels width height y) w =
      .done (replay
        (xs.filterMap (cellEvent (cellColors quant pixels width height) w.fCache y)) w) := by
  intro xs
  induction xs with
  | nil => intro w _ _ _; rfl
  | cons x rest ih =>
    intro w hnd hp hc
    have hx : x ∉ rest := (List.nodup_cons.mp hnd).1
    unfold forEach
    rw [paintCell_eq quant pixels width height y x w (hp x (List.mem_cons_self _ _))
      (hc x (List.mem_cons_self _ _))]
    simp only
    have hsame : ∀ x2 ∈ rest,
        cacheGet (replay (cellEvent (cellColors quant pixels width height) w.fCache y
          x).toList w).fCache x2 (y / 2) = cacheGet w.fCache x2 (y / 2) := by
      intro x2 hx2
      apply cacheGet_replay_of_no_paint
      intro a b hm
      rw [Option.mem_toList] at hm
      obtain ⟨p, _, _, he⟩ := mem_cellEvent hm
      injection he with h1
      exact hx (h1 ▸ hx2)
    rw [ih _ (List.nodup_cons.mp hnd).2 (fun x2 h => hp x2 (List.mem_cons_of_mem _ h))
      (fun x2 h => by rw [hsame x2 h]; exact hc x2 (List.mem_cons_of_mem _ h))]
    rw [← replay_append]
    congr 2
    rw [List.filterMap_cons]
    have hcongr : rest.filterMap (cellEvent (cellColors quant pixels width height)
          (replay (cellEvent (cellColors quant pixels width height) w.fCache y
            x).toList w).fCache y)
        = rest.filterMap (cellEvent (cellColors quant pixels width height) w.fCache y) := by
      apply List.filterMap_congr
      intro x2 hx2
      exact cellEvent_congr _ _ _ _ _ (hsame x2 hx2)
    rw [hcongr]
    cases cellEvent (cellColors quant pixels width height) w.fCache y x <;> rfl

end Loops

section Rows

variable {α : Type} (quant : α → Nat) (pixels : List α) (width height : Nat)

theorem mem_rowEvents {pair : Nat → Nat → Option (Nat × Nat)} {cache : FrameCache}
    {y i k a b : Nat} :
    Event.paint i k a b ∈ rowEvents pair cache width height y ↔
      i < width ∧ k = y / 2 ∧ pair i y = some (a, b) ∧ some (a, b) ≠ cacheGet cache i (y / 2) := by
  unfold rowEvents
  rw [List.mem_append, List.mem_filterMap]
  constructor
  · rintro (⟨x, hx, he⟩ | hf)
    · obtain ⟨p, hp, hs, hev⟩ := mem_cellEvent he
      injection hev with h1 h2 h3 h4
      subst h1 h2 h3 h4
      exact ⟨List.mem_range.mp hx, rfl, hp, hs⟩
    · split_ifs at hf <;> simp at hf
  · rintro ⟨hi, rfl, hp, hs⟩
    refine Or.inl ⟨i, List.mem_range.mpr hi, ?_⟩
    unfold cellEvent
    rw [hp]
    simp only [if_neg hs]

theorem rowEvents_congr (pair : Nat → Nat → Option (Nat × Nat)) (c1 c2 : FrameCache) (y : Nat)
    (h : ∀ x, cacheGet c1 x (y / 2) = cacheGet c2 x (y / 2)) :
    rowEvents pair c1 width height y = rowEvents pair c2 width height y := by
  unfold rowEvents
  congr 1
  apply List.filterMap_congr
  intro x _
  exact cellEvent_congr _ _ _ _ _ (h x)

theorem rowsEvents_congr (pair : Nat → Nat → Option (Nat × Nat)) (c1 c2 : FrameCache) :
    ∀ ys : List Nat, (∀ y ∈ ys, ∀ x, cacheGet c1 x (y / 2) = cacheGet c2 x (y / 2)) →
      rowsEvents pair c1 width height ys = rowsEvents pair c2 width height ys := by
  intro ys
  induction ys with
  | nil => intro _; rfl
  | cons y rest ih =>
    intro h
    unfold rowsEvents
    rw [rowEvents_congr width height pair c1 c2 y (h y (List.mem_cons_self _ _)),
      ih (fun y2 h2 => h y2 (List.mem_cons_of_mem _ h2))]

/-- One round of the outer loop replays the events of its pair-row. -/
theorem drawRow_eq (y : Nat) (w : World)
    (hp : ∀ x < width, (cellColors quant pixels width height x y).isSome)
    (hc : ∀ x < width, (cacheGet w.fCache x (y / 2)).isSome) :
    drawRow quant pixels width height y w =
      .done (replay (rowEvents (cellColors quant pixels width height) w.fCache
        width height y) w) := by
  unfold drawRow
  rw [forEach_paintCell quant pixels width height y (List.range width) w (List.nodup_range _)
    (fun x hx => hp x (List.mem_range.mp hx)) (fun x hx => hc x (List.mem_range.mp hx))]
  simp only
  unfold rowEvents flushRow
  rw [replay_append]
  by_cases hf : y + 2 < height
  · simp only [if_pos hf, replay]
  · simp only [if_neg hf, replay]

/-- The outer loop over the pair-rows `ys` replays their events. -/
theorem forEach_drawRow : ∀ (ys : List Nat) (w : World),
    ys.Pairwise (fun a b => a / 2 ≠ b / 2) →
    (∀ y ∈ ys, ∀ x < width, (cellColors quant pixels width height x y).isSome) →
    (∀ y ∈ ys, ∀ x < width, (cacheGet w.fCache x (y / 2)).isSome) →
    forEach ys (drawRow quant pixels width height) w =
      .done (replay (rowsEvents (cellColors quant pixels width height) w.fCache
        width height ys) w) := by
  intro ys
  induction ys with
  | nil => intro w _ _ _; rfl
  | cons y rest ih =>
    intro w hpw hp hc
    unfold forEach
    rw [drawRow_eq quant pixels width height y w (hp y (List.mem_cons_self _ _))
      (hc y (List.mem_cons_self _ _))]
    simp only
    have hsame : ∀ y2 ∈ rest, ∀ x,
        cacheGet (replay (rowEvents (cellColors quant pixels width height) w.fCache
          width height y) w).fCache x (y2 / 2) = cacheGet w.fCache x (y2 / 2) := by
      intro y2 hy2 x
      apply cacheGet_replay_of_no_paint
      intro a b hm
      have hk := (mem_rowEvents width height |>.mp hm).2.1
      exact (List.pairwise_cons.mp hpw).1 y2 hy2 hk.symm
    rw [ih _ (List.pairwise_cons.mp hpw).2 (fun y2 h => hp y2 (List.mem_cons_of_mem _ h))
      (fun y2 h x hx => by rw [hsame y2 h x]; exact hc y2 (List.mem_cons_of_mem _ h) x hx)]
    rw [← replay_append, rowsEvents_congr width height _ _ _ rest hsame]
    rfl

theorem cellColors_isSome (x y : Nat) (hx : x < width) (hy : y < height)
    (hfit : width * height ≤ pixels.length) :
    (cellColors quant pixels width height x y).isSome := by
  have h1 : y * width + x < pixels.length := by
    have : (y + 1) * width ≤ height * width := Nat.mul_le_mul_right _ hy
    have h2 : height * width = width * height := Nat.mul_comm _ _
    have h3 : (y + 1) * width = y * width + width := by ring
    omega
  unfold cellColors
  rw [List.getElem?_eq_getElem h1]
  by_cases hy1 : y + 1 < height
  · have h4 : (y + 1) * width + x < pixels.length := by
      have : (y + 1 + 1) * width ≤ height * width := Nat.mul_le_mul_right _ hy1
      have h2 : height * width = width * height := Nat.mul_comm _ _
      have h3 : (y + 1 + 1) * width = (y + 1) * width + width := by ring
      omega
    simp only [if_pos hy1, List.getElem?_eq_getElem h4, Option.isSome_some]
  · simp only [if_neg hy1, Option.isSome_some]

theorem pairwise_rows (n : Nat) :
    (List.range' 0 n 2).Pairwise (fun a b => a / 2 ≠ b / 2) := by
  have h := List.pairwise_lt_range' 0 n 2 (by decide)
  refine List.Pairwise.imp_of_mem ?_ h
  intro a b ha hb hlt
  obtain ⟨i, _, rfl⟩ := List.mem_range'.mp ha
  obtain ⟨j, _, rfl⟩ := List.mem_range'.mp hb
  omega

/-- When the pixels and the cache cover the frame, the two loops of `DrawRGB`
return, and the world they leave is the replay of the events of the frame. -/
theorem drawLoop_eq (w : World) (hfit : width * height ≤ pixels.length)
    (hcov : Covers w.fCache width ((height + 1) / 2)) :
    drawLoop quant pixels width height w =
      .done (replay (frameEvents (cellColors quant pixels width height) w.fCache
        width height) w) := by
  unfold drawLoop frameEvents
  apply forEach_drawRow quant pixels width height _ w (pairwise_rows _)
  · intro y hy x hx
    obtain ⟨i, hi, rfl⟩ := List.mem_range'.mp hy
    exact cellColors_isSome quant pixels width height x _ hx (by omega) hfit
  · intro y hy x hx
    obtain ⟨i, hi, rfl⟩ := List.mem_range'.mp hy
    exact hcov x hx _ (by omega)

end Rows

/-! ## Pixel extraction -/

theorem rawRGB2Pixels_length : ∀ (n : Nat) (raw : List Nat), raw.length = 3 * n →
    ∃ pixels, rawRGB2Pixels raw = some pixels ∧ pixels.length = n := by
  intro n
  induction n with
  | zero =>
    intro raw h
    have : raw = [] := List.length_eq_zero.mp (by omega)
    subst this
    exact ⟨[], rfl, rfl⟩
  | succ n ih =>
    intro raw h
    match raw, h with
    | r :: g :: b :: rest, h =>
      obtain ⟨pixels, hp, hl⟩ := ih rest (by simp only [List.length_cons] at h; omega)
      exact ⟨(r, g, b) :: pixels, by simp only [rawRGB2Pixels, hp], by simp [hl]⟩
    | [], h => simp at h
    | [_], h => simp only [List.length_cons, List.length_nil] at h; omega
    | [_, _], h => simp only [List.length_cons, List.length_nil] at h; omega

theorem rawRGB2BrightnessPixels_length {β : Type} (F : FloatModel β) :
    ∀ (n : Nat) (raw : List Nat), raw.length = 3 * n →
    ∃ pixels, rawRGB2BrightnessPixels F raw = some pixels ∧ pixels.length = n := by
  intro n
  induction n with
  | zero =>
    intro raw h
    have : raw = [] := List.length_eq_zero.mp (by omega)
    subst this
    exact ⟨[], rfl, rfl⟩
  | succ n ih =>
    intro raw h
    match raw, h with
    | r :: g :: b :: rest, h =>
      obtain ⟨pixels, hp, hl⟩ := ih rest (by simp only [List.length_cons] at h; omega)
      exact ⟨F.brightness r g b :: pixels, by simp only [rawRGB2BrightnessPixels, hp],
        by simp [hl]⟩
    | [], h => simp at h
    | [_], h => simp only [List.length_cons, List.length_nil] at h; omega
    | [_, _], h => simp only [List.length_cons, List.length_nil] at h; omega

/-- A valid frame holds a whole number of pixels, at least as many as the loops
read. -/
theorem validFrame_pixels {raw : List Nat} {config : Config} (h : ValidFrame raw config) :
    ∃ n, raw.length = 3 * n ∧ config.Width.toNat * config.Height.toNat ≤ n := by
  unfold ValidFrame at h
  by_cases hw : 0 ≤ config.Width
  · by_cases hh : 0 ≤ config.Height
    · obtain ⟨a, ha⟩ := Int.eq_ofNat_of_zero_le hw
      obtain ⟨b, hb⟩ := Int.eq_ofNat_of_zero_le hh
      refine ⟨a * b, ?_, ?_⟩
      · rw [ha, hb] at h
        have : ((raw.length : Nat) : Int) = ((3 * (a * b) : Nat) : Int) := by
          rw [h]; push_cast; ring
        exact_mod_cast this
      · rw [ha, hb]; simp
    · have hz : config.Height.toNat = 0 := Int.toNat_eq_zero.mpr (by omega)
      have hm : (raw.length : Int) = 3 * (config.Width * config.Height) := by rw [h]; ring
      refine ⟨raw.length / 3, by omega, by rw [hz]; simp⟩
  · have hz : config.Width.toNat = 0 := Int.toNat_eq_zero.mpr (by omega)
    have hm : (raw.length : Int) = 3 * (config.Width * config.Height) := by rw [h]; ring
    refine ⟨raw.length / 3, by omega, by rw [hz]; simp⟩

/-- When the buffer holds whole pixels, at least as many as the loops read, and the
cache covers the frame, `DrawRGB` returns, and the world it leaves is the replay
of the events of the frame. -/
theorem DrawRGB_eq_of_fits {β : Type} (q : Quantizers) (F : FloatModel β) (raw : List Nat)
    (config : Config) (w : World)
    (hfits : ∃ n, raw.length = 3 * n ∧ config.Width.toNat * config.Height.toNat ≤ n)
    (hcov : Covers w.fCache config.Width.toNat ((config.Height.toNat + 1) / 2)) :
    DrawRGB q F raw config w =
      .done (replay (frameEvents (framePair q F raw config) w.fCache
        config.Width.toNat config.Height.toNat) w) := by
  obtain ⟨n, hn, hfit⟩ := hfits
  unfold DrawRGB
  by_cases hcol : config.Colorful = true
  · obtain ⟨pixels, hp, hl⟩ := rawRGB2Pixels_length n raw hn
    have hpair : framePair q F raw config =
        cellColors (fun p => rgb2Xterm q config p.1 p.2.1 p.2.2) pixels
          config.Width.toNat config.Height.toNat := by
      funext x y
      simp only [framePair, hcol, if_true, hp]
    simp only [hcol, if_true, hp]
    rw [hpair]
    exact drawLoop_eq _ pixels _ _ w (by omega) hcov
  · obtain ⟨pixels, hp, hl⟩ := rawRGB2BrightnessPixels_length F n raw hn
    have hpair : framePair q F raw config =
        cellColors (fun p => (F.level p + 232) % 256) pixels
          config.Width.toNat config.Height.toNat := by
      funext x y
      simp only [framePair, hcol, Bool.false_eq_true, if_false, hp]
    simp only [hcol, Bool.false_eq_true, if_false, hp]
    rw [hpair]
    exact drawLoop_eq _ pixels _ _ w (by omega) hcov

theorem DrawRGB_eq {β : Type} (q : Quantizers) (F : FloatModel β) (raw : List Nat)
    (config : Config) (w : World) (hv : ValidFrame raw config)
    (hcov : Covers w.fCache config.Width.toNat ((config.Height.toNat + 1) / 2)) :
    DrawRGB q F raw config w =
      .done (replay (frameEvents (framePair q F raw config) w.fCache
        config.Width.toNat config.Height.toNat) w) :=
  DrawRGB_eq_of_fits q F raw config w (validFrame_pixels hv) hcov

/-- Every cell of the frame has a pair of colours when the buffer holds enough
whole pixels. -/
theorem framePair_isSome {β : Type} (q : Quantizers) (F : FloatModel β) (raw : List Nat)
    (config : Config)
    (hfits : ∃ n, raw.length = 3 * n ∧ config.Width.toNat * config.Height.toNat ≤ n)
    (x y : Nat) (hx : x < config.Width.toNat) (hy : y < config.Height.toNat) :
    (framePair q F raw config x y).isSome := by
  obtain ⟨n, hn, hfit⟩ := hfits
  unfold framePair
  by_cases hcol : config.Colorful = true
  · obtain ⟨pixels, hp, hl⟩ := rawRGB2Pixels_length n raw hn
    simp only [hcol, if_true, hp]
    exact cellColors_isSome _ pixels _ _ x y hx hy (by omega)
  · obtain ⟨pixels, hp, hl⟩ := rawRGB2BrightnessPixels_length F n raw hn
    simp only [hcol, Bool.false_eq_true, if_false, hp]
    exact cellColors_isSome _ pixels _ _ x y hx hy (by omega)

/-! ## What a replay leaves -/

theorem replay_dotCalls (events : List Event) : ∀ w : World,
    (replay events w).dotCalls = w.dotCalls ++ events.filterMap Event.call := by
  induction events with
  | nil => intro w; simp [replay]
  | cons e rest ih =>
    intro w
    cases e with
    | paint x j color1 color2 =>
      simp only [replay, ih, paintAndStore, dot_dotCalls, List.filterMap_cons, Event.call,
        List.append_assoc, List.singleton_append]
    | flush =>
      simp only [replay, ih, List.filterMap_cons, Event.call]

theorem mem_filterMap_call {events : List Event} {x j a b : Nat} :
    (x, j, a, b) ∈ events.filterMap Event.call ↔ Event.paint x j a b ∈ events := by
  rw [List.mem_filterMap]
  constructor
  · rintro ⟨e, he, hc⟩
    cases e with
    | paint x2 j2 a2 b2 =>
      simp only [Event.call, Option.some.injEq, Prod.mk.injEq] at hc
      obtain ⟨rfl, rfl, rfl, rfl⟩ := hc
      exact he
    | flush => simp [Event.call] at hc
  · intro h
    exact ⟨_, h, rfl⟩

theorem mem_rowsEvents {pair : Nat → Nat → Option (Nat × Nat)} {cache : FrameCache}
    {width height : Nat} {e : Event} : ∀ {ys : List Nat},
    e ∈ rowsEvents pair cache width height ys ↔
      ∃ y ∈ ys, e ∈ rowEvents pair cache width height y := by
  intro ys
  induction ys with
  | nil => simp [rowsEvents]
  | cons y rest ih =>
    unfold rowsEvents
    rw [List.mem_append, ih]
    simp

/-- The paint events of a frame: one for each cell of the frame whose new pair
differs from the cached pair. -/
theorem mem_frameEvents {pair : Nat → Nat → Option (Nat × Nat)} {cache : FrameCache}
    {width height x j a b : Nat} :
    Event.paint x j a b ∈ frameEvents pair cache width height ↔
      x < width ∧ 2 * j < height ∧ pair x (2 * j) = some (a, b) ∧
        some (a, b) ≠ cacheGet cache x j := by
  unfold frameEvents
  rw [mem_rowsEvents]
  constructor
  · rintro ⟨y, hy, he⟩
    obtain ⟨i, hi, rfl⟩ := List.mem_range'.mp hy
    obtain ⟨hx, hk, hp, hs⟩ := (mem_rowEvents width height).mp he
    have hj : j = i := by omega
    subst hj
    have h2 : (0 + 2 * j) / 2 = j := by omega
    rw [h2] at hs
    rw [Nat.zero_add] at hp
    exact ⟨hx, by omega, hp, hs⟩
  · rintro ⟨hx, hj, hp, hs⟩
    refine ⟨2 * j, List.mem_range'.mpr ⟨j, by omega, by omega⟩, ?_⟩
    have h2 : (2 * j) / 2 = j := by omega
    exact (mem_rowEvents width height).mpr ⟨hx, h2.symm, hp, by rw [h2]; exact hs⟩

/-- An entry of the cache at which every paint event stores the same pair `v`
holds `v` after the replay, when an event paints there. -/
theorem cacheGet_replay_of_paint (i k : Nat) (v : Nat × Nat) (events : List Event) :
    ∀ w : World, (∀ a b, Event.paint i k a b ∈ events → (a, b) = v) →
      (cacheGet w.fCache i k).isSome →
      (∃ a b, Event.paint i k a b ∈ events) →
      cacheGet (replay events w).fCache i k = some v := by
  induction events with
  | nil => intro w _ _ h; obtain ⟨a, b, hm⟩ := h; simp at hm
  | cons e rest ih =>
    intro w hall hsome hex
    have hall2 : ∀ a b, Event.paint i k a b ∈ rest → (a, b) = v :=
      fun a b hm => hall a b (List.mem_cons_of_mem _ hm)
    cases e with
    | paint x j color1 color2 =>
      simp only [replay]
      by_cases hrest : ∃ a b, Event.paint i k a b ∈ rest
      · exact ih _ hall2 (by rw [paintAndStore_fCache, cacheGet_cacheSet_isSome]; exact hsome)
          hrest
      · have hno : ∀ a b, Event.paint i k a b ∉ rest := fun a b hm => hrest ⟨a, b, hm⟩
        rw [cacheGet_replay_of_no_paint rest i k _ hno, paintAndStore_fCache,
          cacheGet_cacheSet]
        obtain ⟨a, b, hm⟩ := hex
        rcases List.mem_cons.mp hm with heq | hm2
        · injection heq with h1 h2 h3 h4
          subst h1 h2 h3 h4
          obtain ⟨old, hold⟩ := Option.isSome_iff_exists.mp hsome
          have hv := hall a b (List.mem_cons_self _ _)
          simp [hold, hv]
        · exact absurd hm2 (hno a b)
    | flush =>
      simp only [replay]
      obtain ⟨a, b, hm⟩ := hex
      rcases List.mem_cons.mp hm with heq | hm2
      · exact absurd heq (by simp)
      · exact ih _ hall2 hsome ⟨a, b, hm2⟩

/-- After the replay of a frame, every cell of the frame holds its new pair and
every other entry of the cache is unchanged. -/
theorem cacheGet_replay_frameEvents (pair : Nat → Nat → Option (Nat × Nat)) (w : World)
    (width height x j : Nat)
    (hcov : Covers w.fCache width ((height + 1) / 2))
    (hpair : ∀ x j, x < width → 2 * j < height → (pair x (2 * j)).isSome) :
    cacheGet (replay (frameEvents pair w.fCache width height) w).fCache x j =
      if x < width ∧ 2 * j < height then pair x (2 * j) else cacheGet w.fCache x j := by
  by_cases hin : x < width ∧ 2 * j < height
  · rw [if_pos hin]
    obtain ⟨p, hp⟩ := Option.isSome_iff_exists.mp (hpair x j hin.1 hin.2)
    have hsome : (cacheGet w.fCache x j).isSome := hcov x hin.1 j (by omega)
    by_cases hst : some p = cacheGet w.fCache x j
    · rw [cacheGet_replay_of_no_paint, hp, hst]
      intro a b hm
      obtain ⟨_, _, hp2, hs⟩ := mem_frameEvents.mp hm
      rw [hp] at hp2
      exact hs (hp2 ▸ hst)
    · rw [hp]
      apply cacheGet_replay_of_paint x j p _ w _ hsome
      · exact ⟨p.1, p.2, mem_frameEvents.mpr ⟨hin.1, hin.2, hp, hst⟩⟩
      · intro a b hm
        obtain ⟨_, _, hp2, _⟩ := mem_frameEvents.mp hm
        rw [hp] at hp2
        exact (Option.some.inj hp2).symm
  · rw [if_neg hin]
    apply cacheGet_replay_of_no_paint
    intro a b hm
    obtain ⟨h1, h2, _, _⟩ := mem_frameEvents.mp hm
    exact hin ⟨h1, h2⟩

/-- C4. For every frame of `3 * Width * Height` bytes and every cache that covers
it, `DrawRGB` returns, and the `dot` calls it makes are exactly these: a call
`dot(x, j, color1, color2)` for each cell `(x, j)` of the frame (`x < Width` and
upper pixel row `2j < Height`) whose new pair `(color1, color2)` differs from the
pair stored at `fCache[x][j]` on entry. After the call every cell of the frame
holds its new pair and every other entry of the cache is unchanged. -/
theorem DrawRGB_paints_iff_changed {β : Type} (q : Quantizers) (F : FloatModel β)
    (raw : List Nat) (config : Config) (w : World) (hv : ValidFrame raw config)
    (hcov : Covers w.fCache config.Width.toNat ((config.Height.toNat + 1) / 2)) :
    ∃ w' calls, DrawRGB q F raw config w = .done w' ∧
      w'.dotCalls = w.dotCalls ++ calls ∧
      (∀ x j color1 color2, (x, j, color1, color2) ∈ calls ↔
        x < config.Width.toNat ∧ 2 * j < config.Height.toNat ∧
        framePair q F raw config x (2 * j) = some (color1, color2) ∧
        some (color1, color2) ≠ cacheGet w.fCache x j) ∧
      (∀ x j, x < config.Width.toNat → 2 * j < config.Height.toNat →
        cacheGet w'.fCache x j = framePair q F raw config x (2 * j)) ∧
      (∀ x j, ¬ (x < config.Width.toNat ∧ 2 * j < config.Height.toNat) →
        cacheGet w'.fCache x j = cacheGet w.fCache x j) := by
  refine ⟨_, _, DrawRGB_eq q F raw config w hv hcov, replay_dotCalls _ w, ?_, ?_, ?_⟩
  · intro x j color1 color2
    rw [mem_filterMap_call, mem_frameEvents]
  · intro x j hx hj
    rw [cacheGet_replay_frameEvents _ w _ _ x j hcov
      (fun x j hx hj => framePair_isSome q F raw config (validFrame_pixels hv) x _ hx hj),
      if_pos ⟨hx, hj⟩]
  · intro x j hout
    rw [cacheGet_replay_frameEvents _ w _ _ x j hcov
      (fun x j hx hj => framePair_isSome q F raw config (validFrame_pixels hv) x _ hx hj),
      if_neg hout]

/-- A frame of one column and two rows, black over white, in grayscale mode, on a
cache of one cell: the hypotheses of C4 hold and its conclusion follows. -/
theorem DrawRGB_paints_iff_changed_witness :
    ValidFrame [0, 0, 0, 255, 255, 255] ⟨1, 2, false, ""⟩ ∧
    Covers (World.init [[(0, 0)]]).fCache 1 1 ∧
    ∃ w' calls,
      DrawRGB unusedQuantizers exactFloat [0, 0, 0, 255, 255, 255] ⟨1, 2, false, ""⟩
        (World.init [[(0, 0)]]) = .done w' ∧
      w'.dotCalls = (World.init [[(0, 0)]]).dotCalls ++ calls ∧
      (∀ x j color1 color2, (x, j, color1, color2) ∈ calls ↔
        x < 1 ∧ 2 * j < 2 ∧
        framePair unusedQuantizers exactFloat [0, 0, 0, 255, 255, 255] ⟨1, 2, false, ""⟩
          x (2 * j) = some (color1, color2) ∧
        some (color1, color2) ≠ cacheGet (World.init [[(0, 0)]]).fCache x j) ∧
      (∀ x j, x < 1 → 2 * j < 2 →
        cacheGet w'.fCache x j =
          framePair unusedQuantizers exactFloat [0, 0, 0, 255, 255, 255] ⟨1, 2, false, ""⟩
            x (2 * j)) ∧
      (∀ x j, ¬ (x < 1 ∧ 2 * j < 2) →
        cacheGet w'.fCache x j = cacheGet (World.init [[(0, 0)]]).fCache x j) :=
  ⟨by decide, by decide,
    DrawRGB_paints_iff_changed unusedQuantizers exactFloat [0, 0, 0, 255, 255, 255]
      ⟨1, 2, false, ""⟩ (World.init [[(0, 0)]]) (by decide) (by decide)⟩

/-- C9. The first thing `dot(x, y, ..)` appends to the sequence is the cursor move
`ESC[<y+1>;<x+1>H`, row first and column second, both 1-indexed and in decimal;
the text already in the sequence stays in front of it. `DrawRGB` paints the cell
of the pixel rows `y` and `y+1` at column `x` by `dot(x, y/2, ..)`, so whenever
the body of its inner loop paints, the text it appends starts with
`ESC[<y/2+1>;<x+1>H`. -/
theorem dot_cursor_move (x y color1 color2 : Nat) (w : World) :
    (∃ rest, (dot x y color1 color2 w).sequence =
      w.sequence ++ ("\x1b[" ++ toString (y + 1) ++ ";" ++ toString (x + 1) ++ "H") ++ rest) ∧
    (∀ {α : Type} (quant : α → Nat) (pixels : List α) (width height : Nat) (w' : World),
      paintCell quant pixels width height y x w = .done w' → w'.dotCalls ≠ w.dotCalls →
      ∃ c1 c2 rest, w'.dotCalls = w.dotCalls ++ [(x, y / 2, c1, c2)] ∧
        w'.sequence =
          w.sequence ++ ("\x1b[" ++ toString (y / 2 + 1) ++ ";" ++ toString (x + 1) ++ "H")
            ++ rest) := by
  have hdot : ∀ (x y c1 c2 : Nat) (w : World), ∃ rest, (dot x y c1 c2 w).sequence =
      w.sequence ++ ("\x1b[" ++ toString (y + 1) ++ ";" ++ toString (x + 1) ++ "H") ++ rest := by
    intro x y c1 c2 w
    refine ⟨renderCodes (dotCodes x y c1 c2 w).tail, ?_⟩
    have hcons : dotCodes x y c1 c2 w = Code.move x y :: (dotCodes x y c1 c2 w).tail := by
      simp [dotCodes]
    rw [dot_sequence_codes]
    conv_lhs => rw [hcons]
    simp only [renderCodes, Code.render, cursorMove, String.append_assoc]
  refine ⟨hdot x y color1 color2 w, ?_⟩
  intro α quant pixels width height w' hdone hne
  unfold paintCell at hdone
  cases hp : cellColors quant pixels width height x y with
  | none => rw [hp] at hdone; exact absurd hdone (by simp)
  | some p =>
    rw [hp] at hdone
    dsimp only at hdone
    cases hc : cacheGet w.fCache x (y / 2) with
    | none => rw [hc] at hdone; exact absurd hdone (by simp)
    | some old =>
      rw [hc] at hdone
      dsimp only at hdone
      by_cases hd : p.1 ≠ old.1 ∨ p.2 ≠ old.2
      · rw [if_pos hd] at hdone
        injection hdone with hw
        subst hw
        obtain ⟨rest, hrest⟩ := hdot x (y / 2) p.1 p.2 w
        exact ⟨p.1, p.2, rest, dot_dotCalls _ _ _ _ _, hrest⟩
      · rw [if_neg hd] at hdone
        injection hdone with hw
        exact absurd (by rw [← hw]) hne

/-- C9 at the cell of pixel rows 4 and 5, column 2: it is painted at row 3,
column 3. -/
theorem dot_cursor_move_witness :
    ∃ c1 c2 rest,
      (dot 2 2 7 9 (World.init [[], [], [(0, 0), (0, 0), (0, 0)]])).dotCalls
        = [] ++ [(2, 4 / 2, c1, c2)] ∧
      (dot 2 2 7 9 (World.init [[], [], [(0, 0), (0, 0), (0, 0)]])).sequence
        = "" ++ ("\x1b[" ++ toString (4 / 2 + 1) ++ ";" ++ toString (2 + 1) ++ "H") ++ rest := by
  have h := (dot_cursor_move 2 4 7 9 (World.init [[], [], [(0, 0), (0, 0), (0, 0)]])).2
    (fun p : Nat => p) [0, 0, 0, 0, 0, 0, 0, 0, 0, 0, 0, 0, 0, 0, 7, 0, 0, 9] 3 6
    { dot 2 2 7 9 (World.init [[], [], [(0, 0), (0, 0), (0, 0)]]) with
      fCache := cacheSet (World.init [[], [], [(0, 0), (0, 0), (0, 0)]]).fCache 2 2 (7, 9) }
    (by decide) (by decide)
  exact h

/-! ## Flushes, and the text of a replay -/

theorem dot_setCache (x y color1 color2 : Nat) (w : World) (cache : FrameCache) :
    dot x y color1 color2 { w with fCache := cache } =
      { dot x y color1 color2 w with fCache := cache } := rfl

theorem dotCodes_setCache (x y color1 color2 : Nat) (w : World) (cache : FrameCache) :
    dotCodes x y color1 color2 { w with fCache := cache } = dotCodes x y color1 color2 w := rfl

theorem eventCodes_setCache (events : List Event) : ∀ (w : World) (cache : FrameCache),
    eventCodes events { w with fCache := cache } = eventCodes events w := by
  induction events with
  | nil => intro w cache; rfl
  | cons e rest ih =>
    intro w cache
    cases e with
    | paint x j color1 color2 =>
      simp only [eventCodes, dotCodes_setCache, dot_setCache, ih]
    | flush =>
      simp only [eventCodes]
      exact congrArg _ (ih { w with stdout := w.stdout ++ [w.sequence], sequence := "" } cache)

/-- The text emitted by a replay is the text of the codes of its events. -/
theorem emittedText_replay (events : List Event) : ∀ w : World,
    emittedText (replay events w) = emittedText w ++ renderCodes (eventCodes events w) := by
  induction events with
  | nil => intro w; simp [replay, eventCodes, renderCodes]
  | cons e rest ih =>
    intro w
    cases e with
    | paint x j color1 color2 =>
      simp only [replay, eventCodes, ih, renderCodes_append]
      have h1 : paintAndStore x j (color1, color2) w =
          { dot x j color1 color2 w with fCache := cacheSet w.fCache x j (color1, color2) } := rfl
      rw [h1, eventCodes_setCache]
      simp only [emittedText, dot_stdout, dot_sequence_codes, String.append_assoc]
    | flush =>
      simp only [replay, eventCodes, ih, renderCodes, Code.render]
      simp only [emittedText, printedText_concat, String.append_assoc, String.append_empty]

/-- A replay of paint events prints nothing and appends the text of their codes
to the sequence. -/
theorem replay_paints (events : List Event) : ∀ w : World, Event.flush ∉ events →
    (replay events w).stdout = w.stdout ∧
    (replay events w).sequence = w.sequence ++ renderCodes (eventCodes events w) := by
  induction events with
  | nil => intro w _; simp [replay, eventCodes, renderCodes]
  | cons e rest ih =>
    intro w hno
    have hrest : Event.flush ∉ rest := fun h => hno (List.mem_cons_of_mem _ h)
    cases e with
    | paint x j color1 color2 =>
      have h1 : paintAndStore x j (color1, color2) w =
          { dot x j color1 color2 w with fCache := cacheSet w.fCache x j (color1, color2) } := rfl
      obtain ⟨hs, hq⟩ := ih (paintAndStore x j (color1, color2) w) hrest
      simp only [replay, eventCodes, renderCodes_append]
      refine ⟨?_, ?_⟩
      · rw [hs]; exact dot_stdout x j color1 color2 w
      · rw [hq, h1, eventCodes_setCache]
        simp only [dot_sequence_codes, String.append_assoc]
    | flush => exact absurd (List.mem_cons_self _ _) hno

theorem replay_stdout_length (events : List Event) : ∀ w : World,
    (replay events w).stdout.length = w.stdout.length + events.count Event.flush := by
  induction events with
  | nil => intro w; simp [replay]
  | cons e rest ih =>
    intro w
    cases e with
    | paint x j color1 color2 =>
      have h1 : (paintAndStore x j (color1, color2) w).stdout = w.stdout :=
        dot_stdout x j color1 color2 w
      simp only [replay, ih, h1, List.count_cons]
      simp
    | flush =>
      simp only [replay, ih, List.count_cons, List.length_append, List.length_singleton]
      simp
      omega

/-- A replay of flushes alone changes neither the render state, nor the cache, nor
the log of `dot` calls; the pending sequence is printed by the first flush. -/
theorem replay_flushes (n : Nat) : ∀ w : World,
    (replay (List.replicate n Event.flush) w).oldfg = w.oldfg ∧
    (replay (List.replicate n Event.flush) w).oldbg = w.oldbg ∧
    (replay (List.replicate n Event.flush) w).fCache = w.fCache ∧
    (replay (List.replicate n Event.flush) w).dotCalls = w.dotCalls ∧
    (replay (List.replicate n Event.flush) w).sequence = (if n = 0 then w.sequence else "") ∧
    (replay (List.replicate n Event.flush) w).stdout =
      w.stdout ++ (if n = 0 then [] else w.sequence :: List.replicate (n - 1) "") := by
  induction n with
  | zero => intro w; simp [replay]
  | succ n ih =>
    intro w
    obtain ⟨h1, h2, h3, h4, h5, h6⟩ :=
      ih { w with stdout := w.stdout ++ [w.sequence], sequence := "" }
    simp only [List.replicate_succ, replay]
    refine ⟨h1, h2, h3, h4, ?_, ?_⟩
    · rw [h5]; simp
    · rw [h6]
      cases n with
      | zero => simp
      | succ m => simp [List.replicate_succ]

/-! ## The shape of the events of a frame -/

theorem rowsEvents_append (pair : Nat → Nat → Option (Nat × Nat)) (cache : FrameCache)
    (width height : Nat) (a b : List Nat) :
    rowsEvents pair cache width height (a ++ b) =
      rowsEvents pair cache width height a ++ rowsEvents pair cache width height b := by
  induction a with
  | nil => rfl
  | cons y rest ih =>
    show rowEvents pair cache width height y ++ rowsEvents pair cache width height (rest ++ b) = _
    rw [ih]
    simp only [rowsEvents, List.append_assoc]

theorem flush_not_mem_cells (pair : Nat → Nat → Option (Nat × Nat)) (cache : FrameCache)
    (y : Nat) (xs : List Nat) : Event.flush ∉ xs.filterMap (cellEvent pair cache y) := by
  intro h
  obtain ⟨x, _, he⟩ := List.mem_filterMap.mp h
  obtain ⟨p, _, _, hev⟩ := mem_cellEvent he
  exact absurd hev (by simp)

/-- The events of a frame of height at least one: the rows before the final
pair-row, then the paint events of the final pair-row, which is not flushed. -/
theorem frameEvents_split (pair : Nat → Nat → Option (Nat × Nat)) (cache : FrameCache)
    (width height : Nat) (hh : 1 ≤ height) :
    frameEvents pair cache width height =
      rowsEvents pair cache width height (List.range' 0 ((height + 1) / 2 - 1) 2)
        ++ (List.range width).filterMap
            (cellEvent pair cache (2 * ((height + 1) / 2 - 1))) := by
  unfold frameEvents
  obtain ⟨m, hm⟩ : ∃ m, (height + 1) / 2 = m + 1 := ⟨(height + 1) / 2 - 1, by omega⟩
  rw [hm, List.range'_concat, rowsEvents_append]
  simp only [Nat.add_sub_cancel, Nat.zero_add]
  congr 1
  have hnf : ¬ (2 * m + 2 < height) := by omega
  simp only [rowsEvents, rowEvents, if_neg hnf, List.append_nil]

/-- Each row before the final pair-row ends with one flush. -/
theorem count_flush_rowsEvents (pair : Nat → Nat → Option (Nat × Nat)) (cache : FrameCache)
    (width height : Nat) : ∀ ys : List Nat, (∀ y ∈ ys, y + 2 < height) →
      (rowsEvents pair cache width height ys).count Event.flush = ys.length := by
  intro ys
  induction ys with
  | nil => intro _; rfl
  | cons y rest ih =>
    intro h
    have hy := h y (List.mem_cons_self _ _)
    simp only [rowsEvents, rowEvents, if_pos hy, List.count_append, List.length_cons,
      ih (fun y2 h2 => h y2 (List.mem_cons_of_mem _ h2)),
      List.count_eq_zero.mpr (flush_not_mem_cells pair cache y (List.range width))]
    simp
    omega

theorem rows_before_last (height : Nat) :
    ∀ y ∈ List.range' 0 ((height + 1) / 2 - 1) 2, y + 2 < height := by
  intro y hy
  obtain ⟨i, hi, rfl⟩ := List.mem_range'.mp hy
  omega

/-- A frame none of whose cells is stale only flushes. -/
theorem frameEvents_of_no_stale (pair : Nat → Nat → Option (Nat × Nat)) (cache : FrameCache)
    (width height : Nat)
    (hno : ∀ x j, x < width → 2 * j < height → cellEvent pair cache (2 * j) x = none) :
    frameEvents pair cache width height =
      List.replicate ((height + 1) / 2 - 1) Event.flush := by
  have hrows : ∀ ys : List Nat, (∀ y ∈ ys, y + 2 < height ∧ ∃ j, y = 2 * j) →
      rowsEvents pair cache width height ys = List.replicate ys.length Event.flush := by
    intro ys
    induction ys with
    | nil => intro _; rfl
    | cons y rest ih =>
      intro h
      obtain ⟨hy, j, rfl⟩ := h y (List.mem_cons_self _ _)
      have hnil : (List.range width).filterMap (cellEvent pair cache (2 * j)) = [] :=
        List.filterMap_eq_nil_iff.mpr
          (fun x hx => hno x j (List.mem_range.mp hx) (by omega))
      simp only [rowsEvents, rowEvents, hnil, if_pos hy, List.nil_append, List.length_cons,
        List.replicate_succ, ih (fun y2 h2 => h y2 (List.mem_cons_of_mem _ h2)),
        List.singleton_append]
  by_cases hh : 1 ≤ height
  · rw [frameEvents_split pair cache width height hh]
    have hnil : (List.range width).filterMap
        (cellEvent pair cache (2 * ((height + 1) / 2 - 1))) = [] :=
      List.filterMap_eq_nil_iff.mpr
        (fun x hx => hno x _ (List.mem_range.mp hx) (by omega))
    rw [hnil, List.append_nil, hrows, List.length_range']
    intro y hy
    refine ⟨rows_before_last height y hy, ?_⟩
    obtain ⟨i, _, rfl⟩ := List.mem_range'.mp hy
    exact ⟨i, by omega⟩
  · have h0 : height = 0 := by omega
    subst h0
    rfl

theorem eventCodes_flushes (n : Nat) : ∀ w : World,
    eventCodes (List.replicate n Event.flush) w = List.replicate n Code.newline := by
  induction n with
  | zero => intro w; rfl
  | succ n ih =>
    intro w
    simp only [List.replicate_succ, eventCodes]
    exact congrArg _ (ih { w with stdout := w.stdout ++ [w.sequence], sequence := "" })

theorem covers_replay (events : List Event) (w : World) (cols rows : Nat)
    (h : Covers w.fCache cols rows) : Covers (replay events w).fCache cols rows := by
  intro x hx j hj
  rw [cacheGet_replay_isSome]
  exact h x hx j hj

/-- C5. Redraw idempotence. For every frame of `3 * Width * Height` bytes and every
cache that covers it, two calls of `DrawRGB` in a row with the same frame and
configuration both return, and the second call paints no cell: it makes no `dot`
call, leaves the cache and the render state as the first call left them, appends
nothing to the sequence (which it only clears when it flushes), and the only
text it emits is the newline of each flush. -/
theorem DrawRGB_redraw_idempotent {β : Type} (q : Quantizers) (F : FloatModel β)
    (raw : List Nat) (config : Config) (w : World) (hv : ValidFrame raw config)
    (hcov : Covers w.fCache config.Width.toNat ((config.Height.toNat + 1) / 2)) :
    ∃ w1 w2, DrawRGB q F raw config w = .done w1 ∧ DrawRGB q F raw config w1 = .done w2 ∧
      w2.dotCalls = w1.dotCalls ∧ w2.fCache = w1.fCache ∧
      w2.oldfg = w1.oldfg ∧ w2.oldbg = w1.oldbg ∧
      w2.sequence = (if (config.Height.toNat + 1) / 2 - 1 = 0 then w1.sequence else "") ∧
      emittedText w2 = emittedText w1 ++
        renderCodes (List.replicate ((config.Height.toNat + 1) / 2 - 1) Code.newline) := by
  have hfits := validFrame_pixels hv
  have hsome : ∀ x j, x < config.Width.toNat → 2 * j < config.Height.toNat →
      (framePair q F raw config x (2 * j)).isSome :=
    fun x j hx hj => framePair_isSome q F raw config hfits x _ hx hj
  have hcov1 := covers_replay (frameEvents (framePair q F raw config) w.fCache
    config.Width.toNat config.Height.toNat) w _ _ hcov
  have hno : ∀ x j, x < config.Width.toNat → 2 * j < config.Height.toNat →
      cellEvent (framePair q F raw config)
        (replay (frameEvents (framePair q F raw config) w.fCache
          config.Width.toNat config.Height.toNat) w).fCache (2 * j) x = none := by
    intro x j hx hj
    obtain ⟨p, hp⟩ := Option.isSome_iff_exists.mp (hsome x j hx hj)
    have h2 : (2 * j) / 2 = j := by omega
    unfold cellEvent
    rw [hp, h2, cacheGet_replay_frameEvents _ w _ _ x j hcov hsome, if_pos ⟨hx, hj⟩, hp]
    simp
  have hsecond := DrawRGB_eq q F raw config _ hv hcov1
  rw [frameEvents_of_no_stale _ _ _ _ hno] at hsecond
  obtain ⟨h1, h2, h3, h4, h5, _⟩ := replay_flushes ((config.Height.toNat + 1) / 2 - 1)
    (replay (frameEvents (framePair q F raw config) w.fCache
      config.Width.toNat config.Height.toNat) w)
  refine ⟨_, _, DrawRGB_eq q F raw config w hv hcov, hsecond, h4, h3, h1, h2, h5, ?_⟩
  rw [emittedText_replay, eventCodes_flushes]

/-- C5 on a frame of one column and two rows, black over white, in grayscale
mode. -/
theorem DrawRGB_redraw_idempotent_witness :
    ∃ w1 w2,
      DrawRGB unusedQuantizers exactFloat [0, 0, 0, 255, 255, 255] ⟨1, 2, false, ""⟩
        (World.init [[(0, 0)]]) = .done w1 ∧
      DrawRGB unusedQuantizers exactFloat [0, 0, 0, 255, 255, 255] ⟨1, 2, false, ""⟩ w1
        = .done w2 ∧
      w2.dotCalls = w1.dotCalls ∧ w2.fCache = w1.fCache ∧
      w2.oldfg = w1.oldfg ∧ w2.oldbg = w1.oldbg ∧
      w2.sequence = (if ((2 : Int).toNat + 1) / 2 - 1 = 0 then w1.sequence else "") ∧
      emittedText w2 = emittedText w1 ++
        renderCodes (List.replicate (((2 : Int).toNat + 1) / 2 - 1) Code.newline) :=
  DrawRGB_redraw_idempotent unusedQuantizers exactFloat [0, 0, 0, 255, 255, 255]
    ⟨1, 2, false, ""⟩ (World.init [[(0, 0)]]) (by decide) (by decide)

/-- C8, as the code behaves. For every configuration whose `Width` or `Height` is
zero or negative and every buffer of whole pixels, `DrawRGB` does not fail: it
returns, having made no `dot` call and left the cache and the render state
unchanged; it flushes `(Height + 1) / 2 - 1` times (the outer loop still runs
when only `Width` is non-positive), so for `Height <= 2` the world is
unchanged. -/
theorem DrawRGB_nonpositive_size {β : Type} (q : Quantizers) (F : FloatModel β)
    (raw : List Nat) (config : Config) (w : World)
    (hsize : config.Width ≤ 0 ∨ config.Height ≤ 0) (h3 : raw.length % 3 = 0) :
    ∃ w', DrawRGB q F raw config w = .done w' ∧
      w'.dotCalls = w.dotCalls ∧ w'.fCache = w.fCache ∧
      w'.oldfg = w.oldfg ∧ w'.oldbg = w.oldbg ∧
      w'.stdout.length = w.stdout.length + ((config.Height.toNat + 1) / 2 - 1) ∧
      (config.Height ≤ 2 → w' = w) := by
  have hzero : config.Width.toNat = 0 ∨ config.Height.toNat = 0 := by
    rcases hsize with h | h
    · exact Or.inl (Int.toNat_eq_zero.mpr h)
    · exact Or.inr (Int.toNat_eq_zero.mpr h)
  have hfits : ∃ n, raw.length = 3 * n ∧ config.Width.toNat * config.Height.toNat ≤ n := by
    refine ⟨raw.length / 3, by omega, ?_⟩
    rcases hzero with h | h <;> simp [h]
  have hcov : Covers w.fCache config.Width.toNat ((config.Height.toNat + 1) / 2) := by
    intro x hx j hj
    rcases hzero with h | h
    · omega
    · rw [h] at hj; omega
  have hno : ∀ x j, x < config.Width.toNat → 2 * j < config.Height.toNat →
      cellEvent (framePair q F raw config) w.fCache (2 * j) x = none := by
    intro x j hx hj
    rcases hzero with h | h <;> omega
  have heq := DrawRGB_eq_of_fits q F raw config w hfits hcov
  rw [frameEvents_of_no_stale _ _ _ _ hno] at heq
  obtain ⟨h1, h2, h3, h4, _, _⟩ := replay_flushes ((config.Height.toNat + 1) / 2 - 1) w
  refine ⟨_, heq, h4, h3, h1, h2, ?_, ?_⟩
  · rw [replay_stdout_length, List.count_replicate]
    simp
  · intro hle
    have : (config.Height.toNat + 1) / 2 - 1 = 0 := by omega
    rw [this]
    rfl

/-- C8 as stated fails: with `Width = -3`, `Height = 4` and an empty buffer,
`DrawRGB` returns normally whatever the quantizers are. -/
theorem DrawRGB_nonpositive_size_counterexample :
    ¬ ∃ q : Quantizers,
      (DrawRGB q exactFloat [] ⟨-3, 4, true, "rgb"⟩ (World.init [])).failed = true := by
  rintro ⟨q, h⟩
  have hdone : DrawRGB q exactFloat [] ⟨-3, 4, true, "rgb"⟩ (World.init []) =
      .done { World.init [] with stdout := [""] } := by
    simp [DrawRGB, rawRGB2Pixels, drawLoop, List.range', forEach, drawRow, flushRow,
      World.init]
  rw [hdone] at h
  exact absurd h (by decide)

/-- The amended C8 at `Width = -3`, `Height = 4`, an empty buffer and a pending
sequence: the call returns and has flushed once. -/
theorem DrawRGB_nonpositive_size_witness :
    ∃ w', DrawRGB unusedQuantizers exactFloat [] ⟨-3, 4, false, ""⟩
        { World.init [] with sequence := "pending" } = .done w' ∧
      w'.dotCalls = [] ∧ w'.fCache = [] ∧
      w'.oldfg = colorUndef ∧ w'.oldbg = colorUndef ∧
      w'.stdout.length = 0 + (((4 : Int).toNat + 1) / 2 - 1) ∧
      ((4 : Int) ≤ 2 → w' = { World.init [] with sequence := "pending" }) :=
  DrawRGB_nonpositive_size unusedQuantizers exactFloat [] ⟨-3, 4, false, ""⟩
    { World.init [] with sequence := "pending" } (Or.inl (by decide)) (by decide)

/-- C10. For every frame of height at least one (of `3 * Width * Height` bytes, on a
cache that covers it) `DrawRGB` returns after the events of the rows before the
final pair-row followed by the paint events of the final pair-row. The rows
before the final one flush `(Height + 1) / 2 - 1` times in all, one flush at the
end of each; the final pair-row prints nothing, and the text of its codes is
appended to the sequence, which is empty before it when `Height >= 3` and is the
sequence of the entry when `Height <= 2`. -/
theorem DrawRGB_flushes {β : Type} (q : Quantizers) (F : FloatModel β)
    (raw : List Nat) (config : Config) (w : World) (hh : 1 ≤ config.Height)
    (hv : ValidFrame raw config)
    (hcov : Covers w.fCache config.Width.toNat ((config.Height.toNat + 1) / 2)) :
    ∃ w0 w', DrawRGB q F raw config w = .done w' ∧
      w0 = replay (beforeLastRow (framePair q F raw config) w.fCache
        config.Width.toNat config.Height.toNat) w ∧
      w' = replay (lastRowPaints (framePair q F raw config) w.fCache
        config.Width.toNat config.Height.toNat) w0 ∧
      (beforeLastRow (framePair q F raw config) w.fCache
        config.Width.toNat config.Height.toNat).count Event.flush
          = (config.Height.toNat + 1) / 2 - 1 ∧
      Event.flush ∉ lastRowPaints (framePair q F raw config) w.fCache
        config.Width.toNat config.Height.toNat ∧
      w0.stdout.length = w.stdout.length + ((config.Height.toNat + 1) / 2 - 1) ∧
      w'.stdout = w0.stdout ∧
      w'.sequence = w0.sequence ++ renderCodes
        (eventCodes (lastRowPaints (framePair q F raw config) w.fCache
          config.Width.toNat config.Height.toNat) w0) ∧
      (3 ≤ config.Height → w0.sequence = "") ∧
      (config.Height ≤ 2 → w0 = w) := by
  have hh2 : 1 ≤ config.Height.toNat := by omega
  have hcount : (beforeLastRow (framePair q F raw config) w.fCache
        config.Width.toNat config.Height.toNat).count Event.flush
          = (config.Height.toNat + 1) / 2 - 1 := by
    unfold beforeLastRow
    rw [count_flush_rowsEvents _ _ _ _ _ (rows_before_last _), List.length_range']
  have hnf : Event.flush ∉ lastRowPaints (framePair q F raw config) w.fCache
        config.Width.toNat config.Height.toNat := flush_not_mem_cells _ _ _ _
  obtain ⟨hp1, hp2⟩ := replay_paints _ (replay (beforeLastRow (framePair q F raw config)
    w.fCache config.Width.toNat config.Height.toNat) w) hnf
  refine ⟨_, _, ?_, rfl, rfl, hcount, hnf, ?_, hp1, hp2, ?_, ?_⟩
  · rw [DrawRGB_eq q F raw config w hv hcov, frameEvents_split _ _ _ _ hh2, replay_append]
    rfl
  · rw [replay_stdout_length, hcount]
  · intro h3
    obtain ⟨m, hm⟩ : ∃ m, (config.Height.toNat + 1) / 2 - 1 = m + 1 :=
      ⟨(config.Height.toNat + 1) / 2 - 2, by omega⟩
    have hfl : 0 + 2 * m + 2 < config.Height.toNat := by omega
    unfold beforeLastRow
    rw [hm, List.range'_concat, rowsEvents_append]
    simp only [rowsEvents, rowEvents, if_pos hfl, List.append_nil]
    rw [← List.append_assoc, replay_append]
    rfl
  · intro h2
    have hz : (config.Height.toNat + 1) / 2 - 1 = 0 := by omega
    unfold beforeLastRow
    rw [hz]
    rfl

/-- C10 on a frame of one column and four rows in grayscale mode: one flush, after
the first pair-row. -/
theorem DrawRGB_flushes_witness :
    ∃ w0 w', DrawRGB unusedQuantizers exactFloat
        [0, 0, 0, 255, 255, 255, 0, 0, 0, 255, 255, 255] ⟨1, 4, false, ""⟩
        (World.init [[(0, 0), (0, 0)]]) = .done w' ∧
      w0 = replay (beforeLastRow (framePair unusedQuantizers exactFloat
        [0, 0, 0, 255, 255, 255, 0, 0, 0, 255, 255, 255] ⟨1, 4, false, ""⟩)
        [[(0, 0), (0, 0)]] 1 4) (World.init [[(0, 0), (0, 0)]]) ∧
      w' = replay (lastRowPaints (framePair unusedQuantizers exactFloat
        [0, 0, 0, 255, 255, 255, 0, 0, 0, 255, 255, 255] ⟨1, 4, false, ""⟩)
        [[(0, 0), (0, 0)]] 1 4) w0 ∧
      (beforeLastRow (framePair unusedQuantizers exactFloat
        [0, 0, 0, 255, 255, 255, 0, 0, 0, 255, 255, 255] ⟨1, 4, false, ""⟩)
        [[(0, 0), (0, 0)]] 1 4).count Event.flush = (4 + 1) / 2 - 1 ∧
      Event.flush ∉ lastRowPaints (framePair unusedQuantizers exactFloat
        [0, 0, 0, 255, 255, 255, 0, 0, 0, 255, 255, 255] ⟨1, 4, false, ""⟩)
        [[(0, 0), (0, 0)]] 1 4 ∧
      w0.stdout.length = 0 + ((4 + 1) / 2 - 1) ∧
      w'.stdout = w0.stdout ∧
      w'.sequence = w0.sequence ++ renderCodes
        (eventCodes (lastRowPaints (framePair unusedQuantizers exactFloat
          [0, 0, 0, 255, 255, 255, 0, 0, 0, 255, 255, 255] ⟨1, 4, false, ""⟩)
          [[(0, 0), (0, 0)]] 1 4) w0) ∧
      ((3 : Int) ≤ 4 → w0.sequence = "") ∧
      ((4 : Int) ≤ 2 → w0 = World.init [[(0, 0), (0, 0)]]) :=
  DrawRGB_flushes unusedQuantizers exactFloat
    [0, 0, 0, 255, 255, 255, 0, 0, 0, 255, 255, 255] ⟨1, 4, false, ""⟩
    (World.init [[(0, 0), (0, 0)]]) (by decide) (by decide) (by decide)

/-! ## Failures -/

theorem rawRGB2Pixels_some_length : ∀ (n : Nat) (raw : List Nat), raw.length ≤ n →
    ∀ pixels, rawRGB2Pixels raw = some pixels → raw.length = 3 * pixels.length := by
  intro n
  induction n with
  | zero =>
    intro raw h pixels hp
    have : raw = [] := List.length_eq_zero.mp (by omega)
    subst this
    simp only [rawRGB2Pixels, Option.some.injEq] at hp
    subst hp
    rfl
  | succ n ih =>
    intro raw h pixels hp
    match raw, h, hp with
    | [], _, hp =>
      simp only [rawRGB2Pixels, Option.some.injEq] at hp
      subst hp
      rfl
    | [_], _, hp => simp [rawRGB2Pixels] at hp
    | [_, _], _, hp => simp [rawRGB2Pixels] at hp
    | r :: g :: b :: rest, h, hp =>
      simp only [rawRGB2Pixels] at hp
      cases hrest : rawRGB2Pixels rest with
      | none => rw [hrest] at hp; simp at hp
      | some ret =>
        rw [hrest] at hp
        simp only [Option.some.injEq] at hp
        subst hp
        have := ih rest (by simp only [List.length_cons] at h; omega) ret hrest
        simp only [List.length_cons]
        omega

theorem rawRGB2BrightnessPixels_some_length {β : Type} (F : FloatModel β) :
    ∀ (n : Nat) (raw : List Nat), raw.length ≤ n →
    ∀ pixels, rawRGB2BrightnessPixels F raw = some pixels → raw.length = 3 * pixels.length := by
  intro n
  induction n with
  | zero =>
    intro raw h pixels hp
    have : raw = [] := List.length_eq_zero.mp (by omega)
    subst this
    simp only [rawRGB2BrightnessPixels, Option.some.injEq] at hp
    subst hp
    rfl
  | succ n ih =>
    intro raw h pixels hp
    match raw, h, hp with
    | [], _, hp =>
      simp only [rawRGB2BrightnessPixels, Option.some.injEq] at hp
      subst hp
      rfl
    | [_], _, hp => simp [rawRGB2BrightnessPixels] at hp
    | [_, _], _, hp => simp [rawRGB2BrightnessPixels] at hp
    | r :: g :: b :: rest, h, hp =>
      simp only [rawRGB2BrightnessPixels] at hp
      cases hrest : rawRGB2BrightnessPixels F rest with
      | none => rw [hrest] at hp; simp at hp
      | some ret =>
        rw [hrest] at hp
        simp only [Option.some.injEq] at hp
        subst hp
        have := ih rest (by simp only [List.length_cons] at h; omega) ret hrest
        simp only [List.length_cons]
        omega

/-- A loop fails when one of its rounds fails in every world. -/
theorem forEach_failed (body : Nat → World → Outcome) (x : Nat)
    (hfail : ∀ w, (body x w).failed = true) :
    ∀ (xs : List Nat), x ∈ xs → ∀ w, (forEach xs body w).failed = true := by
  intro xs
  induction xs with
  | nil => intro h; simp at h
  | cons x0 rest ih =>
    intro hmem w
    unfold forEach
    cases hb : body x0 w with
    | panic w1 => rfl
    | done w1 =>
      simp only
      rcases List.mem_cons.mp hmem with heq | hin
      · have := hfail w
        rw [heq, hb] at this
        exact absurd this (by simp [Outcome.failed])
      · exact ih hin w1

section ShortFrame

variable {α : Type} (quant : α → Nat) (pixels : List α) (width height : Nat)

/-- The cell that holds the last pixel of the frame has no colours when the
pixels do not fill the frame. -/
theorem cellColors_last_none (hw : 0 < width) (hh : 0 < height)
    (hshort : pixels.length < width * height) :
    cellColors quant pixels width height (width - 1) (2 * ((height - 1) / 2)) = none := by
  obtain ⟨h, rfl⟩ : ∃ h, height = h + 1 := ⟨height - 1, by omega⟩
  have hmul : width * (h + 1) = h * width + width := by ring
  simp only [Nat.add_sub_cancel]
  unfold cellColors
  by_cases hev : h % 2 = 0
  · have hy : 2 * (h / 2) = h := by omega
    rw [hy]
    have hidx : pixels.length ≤ h * width + (width - 1) := by omega
    rw [List.getElem?_eq_none hidx]
  · have hy : 2 * (h / 2) + 1 = h := by omega
    cases h1 : pixels[2 * (h / 2) * width + (width - 1)]? with
    | none => rfl
    | some p1 =>
      have hlt : 2 * (h / 2) + 1 < h + 1 := by omega
      simp only [if_pos hlt]
      rw [hy]
      have hidx : pixels.length ≤ h * width + (width - 1) := by omega
      rw [List.getElem?_eq_none hidx]

theorem drawLoop_failed (w : World) (hw : 0 < width) (hh : 0 < height)
    (hshort : pixels.length < width * height) :
    (drawLoop quant pixels width height w).failed = true := by
  unfold drawLoop
  apply forEach_failed _ (2 * ((height - 1) / 2))
  · intro w1
    unfold drawRow
    have hrow := forEach_failed (paintCell quant pixels width height (2 * ((height - 1) / 2)))
      (width - 1)
      (fun w2 => by
        unfold paintCell
        rw [cellColors_last_none quant pixels width height hw hh hshort]
        rfl)
      (List.range width) (List.mem_range.mpr (by omega)) w1
    cases hf : forEach (List.range width)
        (paintCell quant pixels width height (2 * ((height - 1) / 2))) w1 with
    | done w2 => rw [hf] at hrow; exact absurd hrow (by simp [Outcome.failed])
    | panic w2 => rfl
  · exact List.mem_range'.mpr ⟨(height - 1) / 2, by omega, by omega⟩

end ShortFrame

/-- C7, as the code behaves. For every buffer shorter than `3 * Width * Height`
bytes, `Width` and `Height` positive, `DrawRGB` fails by an index out of range.
When the length of the buffer is not a multiple of 3 the failure is in the pixel
extraction, before anything is emitted: the world at the failure (sequence,
cache, render state, printed lines) is the world of the entry. -/
theorem DrawRGB_short_buffer {β : Type} (q : Quantizers) (F : FloatModel β)
    (raw : List Nat) (config : Config) (w : World)
    (hw : 0 < config.Width) (hh : 0 < config.Height)
    (hshort : (raw.length : Int) < 3 * config.Width * config.Height) :
    (DrawRGB q F raw config w).failed = true ∧
    (raw.length % 3 ≠ 0 → DrawRGB q F raw config w = .panic w) := by
  obtain ⟨a, ha⟩ := Int.eq_ofNat_of_zero_le (Int.le_of_lt hw)
  obtain ⟨b, hb⟩ := Int.eq_ofNat_of_zero_le (Int.le_of_lt hh)
  have hwn : config.Width.toNat = a := by rw [ha]; simp
  have hhn : config.Height.toNat = b := by rw [hb]; simp
  have hlen : raw.length < 3 * (a * b) := by
    rw [ha, hb] at hshort
    have : ((raw.length : Nat) : Int) < ((3 * (a * b) : Nat) : Int) := by
      push_cast; rw [← Int.mul_assoc]; exact hshort
    exact_mod_cast this
  have ha0 : 0 < a := by rw [ha] at hw; exact_mod_cast hw
  have hb0 : 0 < b := by rw [hb] at hh; exact_mod_cast hh
  unfold DrawRGB
  rw [hwn, hhn]
  by_cases hcol : config.Colorful = true
  · simp only [hcol, if_true]
    cases hp : rawRGB2Pixels raw with
    | none => exact ⟨rfl, fun _ => rfl⟩
    | some pixels =>
      have hl := rawRGB2Pixels_some_length raw.length raw (Nat.le_refl _) pixels hp
      refine ⟨drawLoop_failed _ pixels a b w ha0 hb0 (by omega), fun h3 => ?_⟩
      omega
  · simp only [hcol, Bool.false_eq_true, if_false]
    cases hp : rawRGB2BrightnessPixels F raw with
    | none => exact ⟨rfl, fun _ => rfl⟩
    | some pixels =>
      have hl := rawRGB2BrightnessPixels_some_length F raw.length raw (Nat.le_refl _) pixels hp
      refine ⟨drawLoop_failed _ pixels a b w ha0 hb0 (by omega), fun h3 => ?_⟩
      omega

/-- C7 as stated fails: with `Width = 1`, `Height = 4` and a buffer of two pixels
(6 bytes instead of 12), the first pair-row is complete, so whatever the
quantizers are it has been flushed to the output when the read of the third
pixel fails. -/
theorem DrawRGB_short_buffer_counterexample :
    ¬ ∃ q : Quantizers,
      (DrawRGB q exactFloat [0, 0, 0, 0, 0, 0] ⟨1, 4, true, "rgb"⟩
        (World.init [[(0, 0), (0, 0)]])).world.stdout = [] := by
  rintro ⟨q, h⟩
  revert h
  by_cases hq : q.rgb2XtermRGB 0 0 0 = 0 <;>
    simp [DrawRGB, rawRGB2Pixels, drawLoop, List.range', forEach, drawRow, paintCell,
      cellColors, cacheGet, flushRow, rgb2Xterm, World.init, List.range, List.range.loop,
      Outcome.world, hq, dot, colorUndef]

/-- The amended C7 on a buffer of 7 bytes for a frame of 1 by 4 pixels: the call
fails, and fails in the world of the entry. -/
theorem DrawRGB_short_buffer_witness :
    (DrawRGB unusedQuantizers exactFloat [0, 0, 0, 0, 0, 0, 0] ⟨1, 4, false, ""⟩
      (World.init [[(0, 0), (0, 0)]])).failed = true ∧
    ([0, 0, 0, 0, 0, 0, 0].length % 3 ≠ 0 →
      DrawRGB unusedQuantizers exactFloat [0, 0, 0, 0, 0, 0, 0] ⟨1, 4, false, ""⟩
        (World.init [[(0, 0), (0, 0)]]) = .panic (World.init [[(0, 0), (0, 0)]])) :=
  DrawRGB_short_buffer unusedQuantizers exactFloat [0, 0, 0, 0, 0, 0, 0] ⟨1, 4, false, ""⟩
    (World.init [[(0, 0), (0, 0)]]) (by decide) (by decide) (by decide)

/-! ## Two frames that differ in one pixel -/

/-- The `i`-th triple that `rawRGB2Pixels` returns holds the bytes `3i`, `3i+1` and
`3i+2` of the buffer. -/
theorem rawRGB2Pixels_getElem : ∀ (i : Nat) (raw : List Nat) (pixels : List (Nat × Nat × Nat)),
    rawRGB2Pixels raw = some pixels →
    pixels[i]? = (raw[3 * i]?).bind (fun r => (raw[3 * i + 1]?).bind (fun g =>
      (raw[3 * i + 2]?).bind (fun b => some (r, g, b)))) := by
  intro i
  induction i with
  | zero =>
    intro raw pixels hp
    match raw, hp with
    | [], hp =>
      simp only [rawRGB2Pixels, Option.some.injEq] at hp
      subst hp
      rfl
    | [_], hp => simp [rawRGB2Pixels] at hp
    | [_, _], hp => simp [rawRGB2Pixels] at hp
    | r :: g :: b :: rest, hp =>
      simp only [rawRGB2Pixels] at hp
      cases hrest : rawRGB2Pixels rest with
      | none => rw [hrest] at hp; simp at hp
      | some ret =>
        rw [hrest] at hp
        simp only [Option.some.injEq] at hp
        subst hp
        simp
  | succ i ih =>
    intro raw pixels hp
    match raw, hp with
    | [], hp =>
      simp only [rawRGB2Pixels, Option.some.injEq] at hp
      subst hp
      rfl
    | [_], hp => simp [rawRGB2Pixels] at hp
    | [_, _], hp => simp [rawRGB2Pixels] at hp
    | r :: g :: b :: rest, hp =>
      simp only [rawRGB2Pixels] at hp
      cases hrest : rawRGB2Pixels rest with
      | none => rw [hrest] at hp; simp at hp
      | some ret =>
        rw [hrest] at hp
        simp only [Option.some.injEq] at hp
        subst hp
        have e0 : (r :: g :: b :: rest)[3 * (i + 1)]? = rest[3 * i]? := by
          rw [show 3 * (i + 1) = 3 * i + 1 + 1 + 1 by ring]
          simp only [List.getElem?_cons_succ]
        have e1 : (r :: g :: b :: rest)[3 * (i + 1) + 1]? = rest[3 * i + 1]? := by
          rw [show 3 * (i + 1) + 1 = 3 * i + 1 + 1 + 1 + 1 by ring]
          simp only [List.getElem?_cons_succ]
        have e2 : (r :: g :: b :: rest)[3 * (i + 1) + 2]? = rest[3 * i + 2]? := by
          rw [show 3 * (i + 1) + 2 = 3 * i + 2 + 1 + 1 + 1 by ring]
          simp only [List.getElem?_cons_succ]
        rw [e0, e1, e2, List.getElem?_cons_succ]
        exact ih rest ret hrest

/-- The brightness samples are the brightnesses of the RGB triples. -/
theorem rawRGB2BrightnessPixels_eq_map {β : Type} (F : FloatModel β) :
    ∀ (n : Nat) (raw : List Nat), raw.length ≤ n →
    rawRGB2BrightnessPixels F raw =
      (rawRGB2Pixels raw).map (List.map (fun p => F.brightness p.1 p.2.1 p.2.2)) := by
  intro n
  induction n with
  | zero =>
    intro raw h
    have : raw = [] := List.length_eq_zero.mp (by omega)
    subst this
    rfl
  | succ n ih =>
    intro raw h
    match raw, h with
    | [], _ => rfl
    | [_], _ => rfl
    | [_, _], _ => rfl
    | r :: g :: b :: rest, h =>
      simp only [rawRGB2BrightnessPixels, rawRGB2Pixels]
      rw [ih rest (by simp only [List.length_cons] at h; omega)]
      cases rawRGB2Pixels rest <;> rfl

theorem cellColors_map {α γ : Type} (f : α → γ) (quant : γ → Nat) (pixels : List α)
    (width height x y : Nat) :
    cellColors quant (pixels.map f) width height x y =
      cellColors (fun p => quant (f p)) pixels width height x y := by
  unfold cellColors
  simp only [List.getElem?_map]
  cases pixels[y * width + x]? with
  | none => rfl
  | some p1 =>
    simp only [Option.map_some']
    by_cases hy : y + 1 < height
    · simp only [if_pos hy]
      cases pixels[(y + 1) * width + x]? <;> rfl
    · simp only [if_neg hy]

/-- The colours of a cell depend on the buffer only through its two pixels. -/
theorem framePair_eq {β : Type} (q : Quantizers) (F : FloatModel β) (raw : List Nat)
    (config : Config) (x y : Nat) :
    framePair q F raw config x y =
      match rawRGB2Pixels raw with
      | none => none
      | some pixels =>
        cellColors (sampleIndex q F config) pixels config.Width.toNat config.Height.toNat x y := by
  unfold framePair
  by_cases hcol : config.Colorful = true
  · simp only [hcol, if_true]
    cases rawRGB2Pixels raw with
    | none => rfl
    | some pixels =>
      simp only
      congr 1
      funext p
      simp only [sampleIndex, hcol, if_true]
  · simp only [hcol, Bool.false_eq_true, if_false]
    rw [rawRGB2BrightnessPixels_eq_map F raw.length raw (Nat.le_refl _)]
    cases rawRGB2Pixels raw with
    | none => rfl
    | some pixels =>
      simp only [Option.map_some']
      rw [cellColors_map]
      congr 1
      funext p
      simp only [sampleIndex, hcol, Bool.false_eq_true, if_false]

theorem cellColors_congr {α : Type} (quant : α → Nat) (pa pb : List α)
    (width height x y : Nat) (h1 : pa[y * width + x]? = pb[y * width + x]?)
    (h2 : pa[(y + 1) * width + x]? = pb[(y + 1) * width + x]?) :
    cellColors quant pa width height x y = cellColors quant pb width height x y := by
  unfold cellColors
  rw [h1, h2]

theorem index_inj {W a b x x2 : Nat} (hx : x < W) (hx2 : x2 < W)
    (h : a * W + x = b * W + x2) : a = b ∧ x = x2 := by
  have hW : 0 < W := by omega
  have ha : (a * W + x) / W = a := by
    rw [Nat.add_comm, Nat.add_mul_div_right _ _ hW, Nat.div_eq_of_lt hx, Nat.zero_add]
  have hb : (b * W + x2) / W = b := by
    rw [Nat.add_comm, Nat.add_mul_div_right _ _ hW, Nat.div_eq_of_lt hx2, Nat.zero_add]
  have hab : a = b := by rw [← ha, ← hb, h]
  subst hab
  exact ⟨rfl, by omega⟩

/-- Two buffers that agree outside the bytes of the pixel at column `px`, row `py`
give every cell but the one of that pixel the same colours. -/
theorem framePair_of_same_bytes {β : Type} (q : Quantizers) (F : FloatModel β)
    (rawA rawB : List Nat) (config : Config) (px py x j : Nat)
    (hlen : rawA.length = rawB.length) (hpx : px < config.Width.toNat)
    (hsame : ∀ i, i < rawA.length → i / 3 ≠ py * config.Width.toNat + px →
      rawA[i]? = rawB[i]?)
    (hx : x < config.Width.toNat) (hne : ¬ (x = px ∧ j = py / 2)) :
    framePair q F rawA config x (2 * j) = framePair q F rawB config x (2 * j) := by
  have hbytes : ∀ i, i / 3 ≠ py * config.Width.toNat + px → rawA[i]? = rawB[i]? := by
    intro i hi
    by_cases hlt : i < rawA.length
    · exact hsame i hlt hi
    · rw [List.getElem?_eq_none (by omega), List.getElem?_eq_none (by omega)]
  rw [framePair_eq, framePair_eq]
  cases hA : rawRGB2Pixels rawA with
  | none =>
    cases hB : rawRGB2Pixels rawB with
    | none => rfl
    | some pb =>
      have h1 := rawRGB2Pixels_length (pb.length) rawB
        (rawRGB2Pixels_some_length rawB.length rawB (Nat.le_refl _) pb hB)
      obtain ⟨pa, hpa, _⟩ := rawRGB2Pixels_length pb.length rawA
        (by rw [hlen]; exact rawRGB2Pixels_some_length rawB.length rawB (Nat.le_refl _) pb hB)
      rw [hA] at hpa
      exact absurd hpa (by simp)
  | some pa =>
    cases hB : rawRGB2Pixels rawB with
    | none =>
      obtain ⟨pb, hpb, _⟩ := rawRGB2Pixels_length pa.length rawB
        (by rw [← hlen]; exact rawRGB2Pixels_some_length rawA.length rawA (Nat.le_refl _) pa hA)
      rw [hB] at hpb
      exact absurd hpb (by simp)
    | some pb =>
      have hpix : ∀ i, i ≠ py * config.Width.toNat + px → pa[i]? = pb[i]? := by
        intro i hi
        rw [rawRGB2Pixels_getElem i rawA pa hA, rawRGB2Pixels_getElem i rawB pb hB,
          hbytes (3 * i) (by omega), hbytes (3 * i + 1) (by omega),
          hbytes (3 * i + 2) (by omega)]
      simp only
      apply cellColors_congr
      · apply hpix
        intro h
        obtain ⟨h1, h2⟩ := index_inj hx hpx h
        exact hne ⟨h2, by omega⟩
      · apply hpix
        intro h
        obtain ⟨h1, h2⟩ := index_inj hx hpx h
        exact hne ⟨h2, by omega⟩

theorem filterMap_single {γ δ : Type} (f : γ → Option δ) (a : γ) :
    ∀ l : List γ, l.Nodup → a ∈ l → (∀ x ∈ l, x ≠ a → f x = none) →
      l.filterMap f = (f a).toList := by
  intro l
  induction l with
  | nil => intro _ h; simp at h
  | cons x rest ih =>
    intro hnd hmem hnone
    obtain ⟨hx, hnd2⟩ := List.nodup_cons.mp hnd
    by_cases hxa : x = a
    · subst hxa
      have hrest : rest.filterMap f = [] :=
        List.filterMap_eq_nil_iff.mpr (fun y hy =>
          hnone y (List.mem_cons_of_mem _ hy) (fun h => hx (h ▸ hy)))
      rw [List.filterMap_cons, hrest]
      cases f x <;> rfl
    · have hin : a ∈ rest := by
        rcases List.mem_cons.mp hmem with h | h
        · exact absurd h.symm hxa
        · exact h
      rw [List.filterMap_cons, hnone x (List.mem_cons_self _ _) hxa]
      exact ih hnd2 hin (fun y hy => hnone y (List.mem_cons_of_mem _ hy))

/-- When at most the cell at column `px` of the pair-row `2 * j0` is stale, the
`dot` calls of a frame are those of that cell. -/
theorem calls_of_single_cell (pair : Nat → Nat → Option (Nat × Nat)) (cache : FrameCache)
    (width height px j0 : Nat) (hpx : px < width) (hj0 : 2 * j0 < height)
    (hno : ∀ x j, x < width → 2 * j < height → ¬ (x = px ∧ j = j0) →
      cellEvent pair cache (2 * j) x = none) :
    (frameEvents pair cache width height).filterMap Event.call =
      ((cellEvent pair cache (2 * j0) px).bind Event.call).toList := by
  have hrow : ∀ y, (rowEvents pair cache width height y).filterMap Event.call =
      (List.range width).filterMap (fun x => (cellEvent pair cache y x).bind Event.call) := by
    intro y
    unfold rowEvents
    rw [List.filterMap_append, List.filterMap_filterMap]
    by_cases hf : y + 2 < height
    · simp [if_pos hf, Event.call]
    · simp [if_neg hf]
  have hrows : ∀ ys : List Nat, ys.Nodup → (∀ y ∈ ys, ∃ j, y = 2 * j ∧ 2 * j < height) →
      (rowsEvents pair cache width height ys).filterMap Event.call =
        if 2 * j0 ∈ ys then ((cellEvent pair cache (2 * j0) px).bind Event.call).toList
        else [] := by
    intro ys
    induction ys with
    | nil => intro _ _; rfl
    | cons y rest ih =>
      intro hnd hall
      obtain ⟨hy, hnd2⟩ := List.nodup_cons.mp hnd
      obtain ⟨j, rfl, hj⟩ := hall _ (List.mem_cons_self _ _)
      simp only [rowsEvents, List.filterMap_append, hrow,
        ih hnd2 (fun y2 h2 => hall y2 (List.mem_cons_of_mem _ h2))]
      by_cases hjj : j = j0
      · subst hjj
        rw [if_neg hy, List.append_nil, if_pos (List.mem_cons_self _ _)]
        apply filterMap_single _ px _ (List.nodup_range _) (List.mem_range.mpr hpx)
        intro x hx hxne
        rw [hno x j (List.mem_range.mp hx) hj (fun h => hxne h.1)]
        rfl
      · have hnil : (List.range width).filterMap
            (fun x => (cellEvent pair cache (2 * j) x).bind Event.call) = [] :=
          List.filterMap_eq_nil_iff.mpr (fun x hx => by
            rw [hno x j (List.mem_range.mp hx) hj (fun h => hjj h.2)]; rfl)
        rw [hnil, List.nil_append]
        have hiff : 2 * j0 ∈ 2 * j :: rest ↔ 2 * j0 ∈ rest := by
          rw [List.mem_cons]
          constructor
          · rintro (h | h)
            · omega
            · exact h
          · exact Or.inr
        by_cases hm : 2 * j0 ∈ rest
        · rw [if_pos hm, if_pos (hiff.mpr hm)]
        · rw [if_neg hm, if_neg (fun h => hm (hiff.mp h))]
  unfold frameEvents
  rw [hrows _ (List.nodup_range' 0 _ 2 (by decide))
    (fun y hy => by
      obtain ⟨i, hi, rfl⟩ := List.mem_range'.mp hy
      exact ⟨i, by omega, by omega⟩),
    if_pos (List.mem_range'.mpr ⟨j0, by omega, by omega⟩)]

/-- Two consecutive calls of `DrawRGB` on frames of the same size that agree
outside the pixel at column `px`, row `py`: the second call makes one `dot`
call, for the cell of that pixel, when the colours of that cell changed, and
none otherwise. -/
theorem DrawRGB_one_pixel {β : Type} (q : Quantizers) (F : FloatModel β)
    (rawA rawB : List Nat) (config : Config) (w : World) (px py : Nat)
    (hvA : ValidFrame rawA config) (hvB : ValidFrame rawB config)
    (hpx : px < config.Width.toNat) (hpy : py < config.Height.toNat)
    (hsame : ∀ i, i < rawA.length → i / 3 ≠ py * config.Width.toNat + px →
      rawA[i]? = rawB[i]?)
    (hcov : Covers w.fCache config.Width.toNat ((config.Height.toNat + 1) / 2)) :
    ∃ w1 w2 p, DrawRGB q F rawA config w = .done w1 ∧ DrawRGB q F rawB config w1 = .done w2 ∧
      framePair q F rawB config px (2 * (py / 2)) = some p ∧
      w2.dotCalls = w1.dotCalls ++
        (if framePair q F rawB config px (2 * (py / 2))
            = framePair q F rawA config px (2 * (py / 2)) then []
         else [(px, py / 2, p.1, p.2)]) := by
  have hlen : rawA.length = rawB.length := by
    unfold ValidFrame at hvA hvB
    have : (rawA.length : Int) = rawB.length := by rw [hvA, hvB]
    exact_mod_cast this
  have hj0 : 2 * (py / 2) < config.Height.toNat := by omega
  have hsomeA : ∀ x j, x < config.Width.toNat → 2 * j < config.Height.toNat →
      (framePair q F rawA config x (2 * j)).isSome :=
    fun x j hx hj => framePair_isSome q F rawA config (validFrame_pixels hvA) x _ hx hj
  obtain ⟨p, hp⟩ := Option.isSome_iff_exists.mp
    (framePair_isSome q F rawB config (validFrame_pixels hvB) px _ hpx hj0)
  have hcov1 := covers_replay (frameEvents (framePair q F rawA config) w.fCache
    config.Width.toNat config.Height.toNat) w _ _ hcov
  have hcache : ∀ x j, x < config.Width.toNat → 2 * j < config.Height.toNat →
      cacheGet (replay (frameEvents (framePair q F rawA config) w.fCache
        config.Width.toNat config.Height.toNat) w).fCache x j
        = framePair q F rawA config x (2 * j) := by
    intro x j hx hj
    rw [cacheGet_replay_frameEvents _ w _ _ x j hcov hsomeA, if_pos ⟨hx, hj⟩]
  have hhalf : ∀ j, (2 * j) / 2 = j := fun j => by omega
  have hno : ∀ x j, x < config.Width.toNat → 2 * j < config.Height.toNat →
      ¬ (x = px ∧ j = py / 2) →
      cellEvent (framePair q F rawB config)
        (replay (frameEvents (framePair q F rawA config) w.fCache
          config.Width.toNat config.Height.toNat) w).fCache (2 * j) x = none := by
    intro x j hx hj hne
    unfold cellEvent
    rw [hhalf, hcache x j hx hj,
      ← framePair_of_same_bytes q F rawA rawB config px py x j hlen hpx hsame hx hne]
    cases framePair q F rawA config x (2 * j) with
    | none => rfl
    | some v => simp
  refine ⟨_, _, p, DrawRGB_eq q F rawA config w hvA hcov,
    DrawRGB_eq q F rawB config _ hvB hcov1, hp, ?_⟩
  rw [replay_dotCalls, calls_of_single_cell _ _ _ _ px (py / 2) hpx hj0 hno]
  congr 1
  unfold cellEvent
  rw [hhalf, hcache px (py / 2) hpx hj0, hp]
  by_cases heq : some p = framePair q F rawA config px (2 * (py / 2))
  · simp [heq]
  · simp [heq, Event.call]

/-! ## The grayscale index in exact arithmetic -/

/-- In exact arithmetic `uint8(brightness*23)` of a pixel is the integer quotient
of `(299 r + 587 g + 114 b) * 23` by `255000`, reduced modulo 256. -/
theorem exactFloat_level_brightness (r g b : Nat) :
    exactFloat.level (exactFloat.brightness r g b) =
      (299 * r + 587 * g + 114 * b) * 23 / 255000 % 256 := by
  have hq : ((r : ℚ) * 0.299 + (g : ℚ) * 0.587 + (b : ℚ) * 0.114) / 255 * 23 =
      (((299 * r + 587 * g + 114 * b) * 23 : ℕ) : ℚ) / ((255000 : ℕ) : ℚ) := by
    push_cast
    norm_num
    ring
  show Int.toNat ⌊((r : ℚ) * 0.299 + (g : ℚ) * 0.587 + (b : ℚ) * 0.114) / 255 * 23⌋ % 256 = _
  rw [hq, Rat.floor_natCast_div_natCast]
  norm_cast

/-- C6, as the code behaves. Two frames of 4 by 4 pixels that agree outside the
pixel at column `px`, row `py`, rendered one after the other by `DrawRGB` with
the same configuration: both calls return, and the second call makes exactly
one `dot` call, for the cell `(px, py/2)` of the changed pixel, when the colours
of that cell changed, and no `dot` call at all when they did not. No other cell
is painted. -/
theorem DrawRGB_one_pixel_4x4 {β : Type} (q : Quantizers) (F : FloatModel β)
    (rawA rawB : List Nat) (config : Config) (w : World) (px py : Nat)
    (hW : config.Width = 4) (hH : config.Height = 4)
    (hA : rawA.length = 48) (hB : rawB.length = 48) (hpx : px < 4) (hpy : py < 4)
    (hsame : ∀ i, i < 48 → i / 3 ≠ py * 4 + px → rawA[i]? = rawB[i]?)
    (hcov : Covers w.fCache 4 2) :
    ∃ w1 w2 p, DrawRGB q F rawA config w = .done w1 ∧ DrawRGB q F rawB config w1 = .done w2 ∧
      framePair q F rawB config px (2 * (py / 2)) = some p ∧
      w2.dotCalls = w1.dotCalls ++
        (if framePair q F rawB config px (2 * (py / 2))
            = framePair q F rawA config px (2 * (py / 2)) then []
         else [(px, py / 2, p.1, p.2)]) := by
  have hWn : config.Width.toNat = 4 := by rw [hW]; rfl
  have hHn : config.Height.toNat = 4 := by rw [hH]; rfl
  apply DrawRGB_one_pixel q F rawA rawB config w px py
  · unfold ValidFrame; rw [hW, hH, hA]; rfl
  · unfold ValidFrame; rw [hW, hH, hB]; rfl
  · rw [hWn]; exact hpx
  · rw [hHn]; exact hpy
  · rw [hWn, hA]; exact hsame
  · rw [hWn, hHn]; exact hcov

/-- C6 as stated fails. Two grayscale frames of 4 by 4 pixels, all black, the
second with the blue byte of its first pixel raised from 0 to 1: the frames
differ in exactly one pixel, but that pixel keeps the palette index 232
(`0.114 / 255 * 23` is below 1), so the second call makes no `dot` call. -/
theorem DrawRGB_one_pixel_counterexample :
    blackFrame ≠ blackFrameBlueOne ∧
    (∀ i, i < 48 → i / 3 ≠ 0 → blackFrame[i]? = blackFrameBlueOne[i]?) ∧
    (DrawRGB unusedQuantizers exactFloat blackFrameBlueOne ⟨4, 4, false, ""⟩
      (DrawRGB unusedQuantizers exactFloat blackFrame ⟨4, 4, false, ""⟩
        (World.init emptyCache4x2)).world).world.dotCalls
      = (DrawRGB unusedQuantizers exactFloat blackFrame ⟨4, 4, false, ""⟩
        (World.init emptyCache4x2)).world.dotCalls := by
  refine ⟨by decide, by decide, ?_⟩
  obtain ⟨w1, w2, p, h1, h2, hp, hcalls⟩ := DrawRGB_one_pixel unusedQuantizers exactFloat
    blackFrame blackFrameBlueOne ⟨4, 4, false, ""⟩ (World.init emptyCache4x2)
    0 0 (by decide) (by decide) (by decide) (by decide) (by decide) (by decide)
  rw [h1]
  simp only [Outcome.world]
  rw [h2]
  simp only [Outcome.world]
  rw [hcalls, if_pos, List.append_nil]
  rw [framePair_eq, framePair_eq]
  simp [blackFrame, blackFrameBlueOne, List.replicate, rawRGB2Pixels, cellColors,
    sampleIndex, exactFloat_level_brightness]

/-- The amended C6 on the black frame followed by the frame whose first pixel is
white, in grayscale mode. -/
theorem DrawRGB_one_pixel_4x4_witness :
    ∃ w1 w2 p,
      DrawRGB unusedQuantizers exactFloat blackFrame ⟨4, 4, false, ""⟩
        (World.init emptyCache4x2) = .done w1 ∧
      DrawRGB unusedQuantizers exactFloat blackFrameWhiteOne ⟨4, 4, false, ""⟩ w1
        = .done w2 ∧
      framePair unusedQuantizers exactFloat blackFrameWhiteOne ⟨4, 4, false, ""⟩
        0 (2 * (0 / 2)) = some p ∧
      w2.dotCalls = w1.dotCalls ++
        (if framePair unusedQuantizers exactFloat blackFrameWhiteOne ⟨4, 4, false, ""⟩
              0 (2 * (0 / 2))
            = framePair unusedQuantizers exactFloat blackFrame ⟨4, 4, false, ""⟩
              0 (2 * (0 / 2)) then []
         else [(0, 0 / 2, p.1, p.2)]) :=
  DrawRGB_one_pixel_4x4 unusedQuantizers exactFloat blackFrame blackFrameWhiteOne
    ⟨4, 4, false, ""⟩ (World.init emptyCache4x2) 0 0 rfl rfl (by decide) (by decide)
    (by decide) (by decide) (by decide) (by decide)

/-! ## The text of a render call -/

/-- For a valid frame on a cache that covers it, the text that `DrawRGB` emits
(printed or pending) is the text of the codes of the events of the frame, to
which the chain properties `bg_chain` and `fg_chain` apply. -/
theorem DrawRGB_emittedText {β : Type} (q : Quantizers) (F : FloatModel β)
    (raw : List Nat) (config : Config) (w : World) (hv : ValidFrame raw config)
    (hcov : Covers w.fCache config.Width.toNat ((config.Height.toNat + 1) / 2)) :
    emittedText (DrawRGB q F raw config w).world =
      emittedText w ++ renderCodes (eventCodes (frameEvents (framePair q F raw config)
        w.fCache config.Width.toNat config.Height.toNat) w) := by
  rw [DrawRGB_eq q F raw config w hv hcov]
  exact emittedText_replay _ w

/-! ## Pixel extraction, in full -/

/-- C18. For a buffer whose length is a multiple of 3, `rawRGB2Pixels` returns
exactly `len(raw) / 3` triples, the `i`-th being the bytes `3i`, `3i+1`, `3i+2` of
the buffer, in this order; for a buffer whose length is not a multiple of 3 the
extraction fails with an index out of range. -/
theorem rawRGB2Pixels_spec (raw : List Nat) :
    (raw.length % 3 = 0 →
      ∃ pixels, rawRGB2Pixels raw = some pixels ∧ pixels.length = raw.length / 3 ∧
        ∀ i, i < raw.length / 3 →
          ∃ r g b, raw[3 * i]? = some r ∧ raw[3 * i + 1]? = some g ∧
            raw[3 * i + 2]? = some b ∧ pixels[i]? = some (r, g, b)) ∧
    (raw.length % 3 ≠ 0 → rawRGB2Pixels raw = none) := by
  constructor
  · intro h3
    obtain ⟨pixels, hp, hl⟩ := rawRGB2Pixels_length (raw.length / 3) raw (by omega)
    refine ⟨pixels, hp, hl, ?_⟩
    intro i hi
    have h0 : 3 * i < raw.length := by omega
    have h1 : 3 * i + 1 < raw.length := by omega
    have h2 : 3 * i + 2 < raw.length := by omega
    refine ⟨raw[3 * i], raw[3 * i + 1], raw[3 * i + 2], List.getElem?_eq_getElem h0,
      List.getElem?_eq_getElem h1, List.getElem?_eq_getElem h2, ?_⟩
    rw [rawRGB2Pixels_getElem i raw pixels hp, List.getElem?_eq_getElem h0,
      List.getElem?_eq_getElem h1, List.getElem?_eq_getElem h2]
    rfl
  · intro h3
    cases hp : rawRGB2Pixels raw with
    | none => rfl
    | some pixels =>
      have := rawRGB2Pixels_some_length raw.length raw (Nat.le_refl _) pixels hp
      omega

/-- C18 on a buffer of two pixels. -/
theorem rawRGB2Pixels_spec_witness :
    ∃ pixels, rawRGB2Pixels [1, 2, 3, 4, 5, 6] = some pixels ∧
      pixels.length = [1, 2, 3, 4, 5, 6].length / 3 ∧
      ∀ i, i < [1, 2, 3, 4, 5, 6].length / 3 →
        ∃ r g b, [1, 2, 3, 4, 5, 6][3 * i]? = some r ∧ [1, 2, 3, 4, 5, 6][3 * i + 1]? = some g ∧
          [1, 2, 3, 4, 5, 6][3 * i + 2]? = some b ∧ pixels[i]? = some (r, g, b) :=
  (rawRGB2Pixels_spec [1, 2, 3, 4, 5, 6]).1 (by decide)

/-! ## The grayscale index, in exact arithmetic -/

/-- C19. In exact arithmetic the brightness of a byte triple lies in `[0, 1]`, so
`uint8(brightness*23)` is at most 23, the 8-bit addition of 232 does not wrap
around, and the grayscale index lies in `232..255`: it is neither `colorUndef`
nor `colorTransparent`. -/
theorem grayIndex_of_bytes (r g b : Nat) (hr : r < 256) (hg : g < 256) (hb : b < 256) :
    0 ≤ exactFloat.brightness r g b ∧ exactFloat.brightness r g b ≤ 1 ∧
    exactFloat.level (exactFloat.brightness r g b) + 232 < 256 ∧
    232 ≤ grayIndex exactFloat (exactFloat.brightness r g b) ∧
    grayIndex exactFloat (exactFloat.brightness r g b) ≤ 255 ∧
    grayIndex exactFloat (exactFloat.brightness r g b) ≠ colorUndef ∧
    grayIndex exactFloat (exactFloat.brightness r g b) ≠ colorTransparent := by
  have hr2 : (r : ℚ) ≤ 255 := by exact_mod_cast Nat.le_of_lt_succ hr
  have hg2 : (g : ℚ) ≤ 255 := by exact_mod_cast Nat.le_of_lt_succ hg
  have hb2 : (b : ℚ) ≤ 255 := by exact_mod_cast Nat.le_of_lt_succ hb
  have hr0 : (0 : ℚ) ≤ r := Nat.cast_nonneg r
  have hg0 : (0 : ℚ) ≤ g := Nat.cast_nonneg g
  have hb0 : (0 : ℚ) ≤ b := Nat.cast_nonneg b
  have hbri : exactFloat.brightness r g b =
      ((r : ℚ) * 0.299 + (g : ℚ) * 0.587 + (b : ℚ) * 0.114) / 255 := rfl
  have hlev := exactFloat_level_brightness r g b
  have hle : exactFloat.level (exactFloat.brightness r g b) ≤ 23 := by
    rw [hlev]
    have hN : (299 * r + 587 * g + 114 * b) * 23 ≤ 255000 * 23 := by omega
    have hdiv : (299 * r + 587 * g + 114 * b) * 23 / 255000 ≤ 23 :=
      Nat.div_le_of_le_mul hN
    exact Nat.le_trans (Nat.mod_le _ _) hdiv
  clear hlev
  refine ⟨?_, ?_, by omega, ?_, ?_, ?_, ?_⟩
  · rw [hbri]
    apply div_nonneg _ (by norm_num)
    norm_num
    nlinarith
  · rw [hbri, div_le_one (by norm_num)]
    norm_num
    nlinarith
  all_goals
    simp only [grayIndex, colorUndef, colorTransparent]
    omega

/-- C19 at white: brightness 1, index 255. -/
theorem grayIndex_of_bytes_witness :
    exactFloat.level (exactFloat.brightness 255 255 255) + 232 < 256 ∧
    232 ≤ grayIndex exactFloat (exactFloat.brightness 255 255 255) ∧
    grayIndex exactFloat (exactFloat.brightness 255 255 255) ≠ colorTransparent :=
  ⟨(grayIndex_of_bytes 255 255 255 (by decide) (by decide) (by decide)).2.2.1,
   (grayIndex_of_bytes 255 255 255 (by decide) (by decide) (by decide)).2.2.2.1,
   (grayIndex_of_bytes 255 255 255 (by decide) (by decide) (by decide)).2.2.2.2.2.2⟩

/-! ## IEEE rounding -/

/-- Rounding to the nearest integer does not pass an integer above. -/
theorem roundHalfEven_le {x : ℚ} {n : Int} (h : x ≤ n) : roundHalfEven x ≤ n := by
  have hfx : (⌊x⌋ : ℚ) ≤ x := Int.floor_le x
  have hf : ⌊x⌋ ≤ n := by exact_mod_cast hfx.trans h
  unfold roundHalfEven
  split_ifs with h1 h2 h3
  · exact hf
  · have h4 : (⌊x⌋ : ℚ) < n := by linarith
    have h5 : ⌊x⌋ < n := by exact_mod_cast h4
    omega
  · exact hf
  · have h4 : (⌊x⌋ : ℚ) < n := by linarith [not_lt.mp h1]
    have h5 : ⌊x⌋ < n := by exact_mod_cast h4
    omega

/-- Rounding to the nearest integer does not pass an integer below. -/
theorem le_roundHalfEven {x : ℚ} {n : Int} (h : (n : ℚ) ≤ x) : n ≤ roundHalfEven x := by
  have hf : n ≤ ⌊x⌋ := Int.le_floor.mpr h
  unfold roundHalfEven
  split_ifs <;> omega

theorem roundHalfEven_intCast (n : Int) : roundHalfEven (n : ℚ) = n :=
  le_antisymm (roundHalfEven_le le_rfl) (le_roundHalfEven le_rfl)

theorem roundHalfEven_eq_of_lt {x : ℚ} {k : Int} (h1 : (k : ℚ) - 1 / 2 < x)
    (h2 : x < k + 1 / 2) : roundHalfEven x = k := by
  have hfx : (⌊x⌋ : ℚ) ≤ x := Int.floor_le x
  have hfx2 : x < ⌊x⌋ + 1 := Int.lt_floor_add_one x
  have ha : ((k - 1 : Int) : ℚ) < (⌊x⌋ + 1 : Int) := by push_cast; linarith
  have hb : ((⌊x⌋ : Int) : ℚ) < (k + 1 : Int) := by push_cast; linarith
  have ha2 : k - 1 < ⌊x⌋ + 1 := by exact_mod_cast ha
  have hb2 : ⌊x⌋ < k + 1 := by exact_mod_cast hb
  unfold roundHalfEven
  split_ifs with h3 h4 h5
  · have hc : ((k : Int) : ℚ) < (⌊x⌋ + 1 : Int) := by push_cast; linarith
    have hc2 : k < ⌊x⌋ + 1 := by exact_mod_cast hc
    omega
  · have hc : ((⌊x⌋ : Int) : ℚ) < (k : Int) := by linarith
    have hc2 : ⌊x⌋ < k := by exact_mod_cast hc
    omega
  · exfalso
    have h6 : x - ⌊x⌋ = 1 / 2 := le_antisymm (not_lt.mp h4) (not_lt.mp h3)
    have hc : ((k - 1 : Int) : ℚ) < (⌊x⌋ : Int) := by push_cast; linarith
    have hd : ((⌊x⌋ : Int) : ℚ) < (k : Int) := by linarith
    have hc2 : k - 1 < ⌊x⌋ := by exact_mod_cast hc
    have hd2 : ⌊x⌋ < k := by exact_mod_cast hd
    omega
  · exfalso
    have h6 : x - ⌊x⌋ = 1 / 2 := le_antisymm (not_lt.mp h4) (not_lt.mp h3)
    have hc : ((k - 1 : Int) : ℚ) < (⌊x⌋ : Int) := by push_cast; linarith
    have hd : ((⌊x⌋ : Int) : ℚ) < (k : Int) := by linarith
    have hc2 : k - 1 < ⌊x⌋ := by exact_mod_cast hc
    have hd2 : ⌊x⌋ < k := by exact_mod_cast hd
    omega

theorem roundHalfEven_tie_odd {x : ℚ} {f : Int} (h : x = f + 1 / 2) (hodd : f % 2 = 1) :
    roundHalfEven x = f + 1 := by
  have hfl : ⌊x⌋ = f := by
    rw [Int.floor_eq_iff, h]
    constructor <;> linarith
  unfold roundHalfEven
  rw [hfl, h]
  have h1 : ¬ ((f : ℚ) + 1 / 2 - f < 1 / 2) := by norm_num
  have h2 : ¬ ((1 : ℚ) / 2 < (f : ℚ) + 1 / 2 - f) := by norm_num
  have h3 : ¬ (f % 2 = 0) := by omega
  rw [if_neg h1, if_neg h2, if_neg h3]

theorem roundHalfEven_tie_even {x : ℚ} {f : Int} (h : x = f + 1 / 2) (heven : f % 2 = 0) :
    roundHalfEven x = f := by
  have hfl : ⌊x⌋ = f := by
    rw [Int.floor_eq_iff, h]
    constructor <;> linarith
  unfold roundHalfEven
  rw [hfl, h]
  have h1 : ¬ ((f : ℚ) + 1 / 2 - f < 1 / 2) := by norm_num
  have h2 : ¬ ((1 : ℚ) / 2 < (f : ℚ) + 1 / 2 - f) := by norm_num
  rw [if_neg h1, if_neg h2, if_pos heven]

theorem roundHalfEven_mono {x y : ℚ} (h : x ≤ y) : roundHalfEven x ≤ roundHalfEven y := by
  have hfl : ⌊x⌋ ≤ ⌊y⌋ := Int.floor_mono h
  rcases lt_or_eq_of_le hfl with hlt | heq
  · have h1 : roundHalfEven x ≤ ⌊x⌋ + 1 :=
      roundHalfEven_le (by push_cast; exact (Int.lt_floor_add_one x).le)
    have h2 : ⌊y⌋ ≤ roundHalfEven y := le_roundHalfEven (Int.floor_le y)
    omega
  · unfold roundHalfEven
    rw [← heq]
    split_ifs <;> first | omega | (exfalso; linarith)

theorem two_zpow_pos (k : Int) : (0 : ℚ) < 2 ^ k := zpow_pos (by norm_num) k

theorem round64_le_of_multiple {x : ℚ} {m : Int} (h : x ≤ m * 2 ^ ulpExp x) :
    round64 x ≤ m * 2 ^ ulpExp x := by
  unfold round64
  have hp := two_zpow_pos (ulpExp x)
  have h1 : x / 2 ^ ulpExp x ≤ m := by rw [div_le_iff₀ hp]; exact h
  have h2 : ((roundHalfEven (x / 2 ^ ulpExp x) : Int) : ℚ) ≤ m := by
    exact_mod_cast roundHalfEven_le h1
  exact mul_le_mul_of_nonneg_right h2 hp.le

theorem le_round64_of_multiple {x : ℚ} {m : Int} (h : (m : ℚ) * 2 ^ ulpExp x ≤ x) :
    (m : ℚ) * 2 ^ ulpExp x ≤ round64 x := by
  unfold round64
  have hp := two_zpow_pos (ulpExp x)
  have h1 : (m : ℚ) ≤ x / 2 ^ ulpExp x := by rw [le_div_iff₀ hp]; exact h
  have h2 : (m : ℚ) ≤ ((roundHalfEven (x / 2 ^ ulpExp x) : Int) : ℚ) := by
    exact_mod_cast le_roundHalfEven h1
  exact mul_le_mul_of_nonneg_right h2 hp.le

theorem ulpExp_ge (x : ℚ) : -1074 ≤ ulpExp x := by
  unfold ulpExp
  have := le_max_right (Int.log 2 |x|) (-1022)
  omega

theorem log_eq_of_bounds {r : ℚ} {e : Int} (h1 : 2 ^ e ≤ r) (h2 : r < 2 ^ (e + 1)) :
    Int.log 2 r = e := by
  have hpos : 0 < r := lt_of_lt_of_le (two_zpow_pos e) h1
  have ha : e ≤ Int.log 2 r :=
    (Int.zpow_le_iff_le_log (by norm_num) hpos).mp (by exact_mod_cast h1)
  have hb : Int.log 2 r < e + 1 :=
    (Int.lt_zpow_iff_log_lt (by norm_num) hpos).mp (by exact_mod_cast h2)
  omega

theorem ulpExp_eq {x : ℚ} {e : Int} (he : -1022 ≤ e) (h1 : 2 ^ e ≤ |x|)
    (h2 : |x| < 2 ^ (e + 1)) : ulpExp x = e - 52 := by
  unfold ulpExp
  rw [log_eq_of_bounds h1 h2, max_eq_left he]

theorem round64_eq_of_exponent {x : ℚ} (e : Int) (he : -1022 ≤ e) (h1 : 2 ^ e ≤ |x|)
    (h2 : |x| < 2 ^ (e + 1)) :
    round64 x = roundHalfEven (x / 2 ^ (e - 52)) * 2 ^ (e - 52) := by
  unfold round64
  rw [ulpExp_eq he h1 h2]

theorem ulpExp_le_zero {x : ℚ} (h : |x| < 2 ^ (53 : Int)) : ulpExp x ≤ 0 := by
  unfold ulpExp
  have hl : Int.log 2 |x| < 53 := by
    rcases eq_or_lt_of_le (abs_nonneg x) with h0 | hpos
    · rw [← h0, Int.log_zero_right]; norm_num
    · exact (Int.lt_zpow_iff_log_lt (by norm_num) hpos).mp (by exact_mod_cast h)
  have := max_le (Int.le_of_lt_add_one (by omega : Int.log 2 |x| < 52 + 1))
    (by norm_num : (-1022 : Int) ≤ 52)
  omega

theorem int_eq_multiple (n : Int) {u : Int} (hu : u ≤ 0) :
    (n : ℚ) = ((n * 2 ^ (-u).toNat : Int) : ℚ) * 2 ^ u := by
  have h1 : ((-u).toNat : Int) = -u := Int.toNat_of_nonneg (by omega)
  push_cast
  rw [← zpow_natCast, h1, mul_assoc, ← zpow_add₀ (by norm_num : (2 : ℚ) ≠ 0)]
  simp

theorem round64_le_int {x : ℚ} {n : Int} (hx : |x| < 2 ^ (53 : Int)) (h : x ≤ n) :
    round64 x ≤ n := by
  have hu := ulpExp_le_zero hx
  rw [int_eq_multiple n hu] at h ⊢
  exact round64_le_of_multiple h

theorem int_le_round64 {x : ℚ} {n : Int} (hx : |x| < 2 ^ (53 : Int)) (h : (n : ℚ) ≤ x) :
    (n : ℚ) ≤ round64 x := by
  have hu := ulpExp_le_zero hx
  rw [int_eq_multiple n hu] at h ⊢
  exact le_round64_of_multiple h

theorem round64_nonneg {x : ℚ} (h : 0 ≤ x) : 0 ≤ round64 x := by
  have h1 := le_round64_of_multiple (x := x) (m := 0) (by simpa using h)
  simpa using h1

theorem round64_zero : round64 0 = 0 := by
  unfold round64 roundHalfEven
  simp

/-- A `float64` value is not changed by rounding. -/
theorem round64_of_multiple {x : ℚ} {n k : Int} (hx : x = n * 2 ^ k)
    (hn : |n| ≤ 9007199254740992) (hk : -1074 ≤ k) : round64 x = x := by
  have hp := two_zpow_pos (ulpExp x)
  have key : ∃ m : Int, x = m * 2 ^ ulpExp x := by
    by_cases hx0 : x = 0
    · exact ⟨0, by simp [hx0]⟩
    by_cases hle : ulpExp x ≤ k
    · refine ⟨n * 2 ^ (k - ulpExp x).toNat, ?_⟩
      have h1 : ((k - ulpExp x).toNat : Int) = k - ulpExp x := Int.toNat_of_nonneg (by omega)
      push_cast
      rw [← zpow_natCast, h1, mul_assoc, ← zpow_add₀ (by norm_num : (2 : ℚ) ≠ 0)]
      rw [show k - ulpExp x + ulpExp x = k by ring]
      exact hx
    · have hlt : k < ulpExp x := not_le.mp hle
      have hpos : 0 < |x| := abs_pos.mpr hx0
      have hlog : 2 ^ Int.log 2 |x| ≤ |x| := by
        have := Int.zpow_log_le_self (b := 2) (r := |x|) (by norm_num) hpos
        exact_mod_cast this
      have habs : |x| = |(n : ℚ)| * 2 ^ k := by
        rw [hx, abs_mul, abs_of_pos (two_zpow_pos k)]
      have hnq : |(n : ℚ)| ≤ 2 ^ (53 : Int) := by
        have : ((|n| : Int) : ℚ) ≤ ((9007199254740992 : Int) : ℚ) := by exact_mod_cast hn
        rw [Int.cast_abs] at this
        norm_num at this ⊢
        exact this
      have hub : |x| ≤ 2 ^ (53 + k) := by
        rw [habs, zpow_add₀ (by norm_num : (2 : ℚ) ≠ 0)]
        exact mul_le_mul_of_nonneg_right hnq (two_zpow_pos k).le
      have hle2 : Int.log 2 |x| ≤ 53 + k :=
        (zpow_le_zpow_iff_right₀ (by norm_num : (1 : ℚ) < 2)).mp (hlog.trans hub)
      have hu : ulpExp x = k + 1 ∧ Int.log 2 |x| = 53 + k := by
        unfold ulpExp at hlt ⊢
        rcases le_total (Int.log 2 |x|) (-1022) with hc | hc
        · rw [max_eq_right hc] at hlt; omega
        · rw [max_eq_left hc] at hlt ⊢; omega
      rw [hu.2] at hlog
      have hn2 : (2 : ℚ) ^ (53 : Int) ≤ |(n : ℚ)| := by
        rw [habs, zpow_add₀ (by norm_num : (2 : ℚ) ≠ 0)] at hlog
        exact le_of_mul_le_mul_right hlog (two_zpow_pos k)
      have hn3 : (9007199254740992 : Int) ≤ |n| := by
        have : ((9007199254740992 : Int) : ℚ) ≤ ((|n| : Int) : ℚ) := by
          rw [Int.cast_abs]
          norm_num at hn2 ⊢
          exact hn2
        exact_mod_cast this
      have hn4 : |n| = 9007199254740992 := le_antisymm hn hn3
      have hn5 : n = 2 * (n / 2) := by
        rcases abs_cases n with ⟨h1, _⟩ | ⟨h1, _⟩ <;> omega
      refine ⟨n / 2, ?_⟩
      rw [hu.1, zpow_add_one₀ (by norm_num : (2 : ℚ) ≠ 0), hx]
      have hn6 : (n : ℚ) = 2 * ((n / 2 : Int) : ℚ) := by exact_mod_cast hn5
      rw [hn6]
      ring
  obtain ⟨m, hm⟩ := key
  have hdiv : x / 2 ^ ulpExp x = m := by
    rw [div_eq_iff (ne_of_gt hp)]
    exact hm
  unfold round64
  rw [hdiv, roundHalfEven_intCast]
  exact hm.symm

/-- Rounding is monotone on the non-negative numbers. -/
theorem round64_mono {x y : ℚ} (hx : 0 ≤ x) (h : x ≤ y) : round64 x ≤ round64 y := by
  rcases eq_or_lt_of_le hx with h0 | hpos
  · rw [← h0, round64_zero]
    exact round64_nonneg (hx.trans h)
  have hypos : 0 < y := lt_of_lt_of_le hpos h
  have hlogm : Int.log 2 x ≤ Int.log 2 y := Int.log_mono_right hpos h
  have hax : |x| = x := abs_of_pos hpos
  have hay : |y| = y := abs_of_pos hypos
  have hu : ulpExp x ≤ ulpExp y := by
    unfold ulpExp
    rw [hax, hay]
    have := max_le_max hlogm (le_refl (-1022 : Int))
    omega
  rcases eq_or_lt_of_le hu with heq | hlt
  · unfold round64
    rw [heq]
    have hp := two_zpow_pos (ulpExp y)
    have h1 : x / 2 ^ ulpExp y ≤ y / 2 ^ ulpExp y := div_le_div_of_nonneg_right h hp.le
    have h2 : ((roundHalfEven (x / 2 ^ ulpExp y) : Int) : ℚ)
        ≤ ((roundHalfEven (y / 2 ^ ulpExp y) : Int) : ℚ) := by
      exact_mod_cast roundHalfEven_mono h1
    exact mul_le_mul_of_nonneg_right h2 hp.le
  · have hL : -1022 < Int.log 2 y ∧ ulpExp y = Int.log 2 y - 52 ∧
        Int.log 2 x < Int.log 2 y := by
      unfold ulpExp at hlt ⊢
      rw [hax, hay] at hlt
      rw [hay]
      rcases le_total (Int.log 2 y) (-1022) with hc | hc
      · rw [max_eq_right hc, max_eq_right (hlogm.trans hc)] at hlt; omega
      · rw [max_eq_left hc] at hlt ⊢
        have := le_max_left (Int.log 2 x) (-1022)
        have := le_max_right (Int.log 2 x) (-1022)
        omega
    obtain ⟨hL1, hL2, hL3⟩ := hL
    have hxlt : x < 2 ^ (Int.log 2 x + 1) := by
      have := Int.lt_zpow_succ_log_self (b := 2) (by norm_num) x
      exact_mod_cast this
    have hxle : x ≤ 2 ^ Int.log 2 y :=
      hxlt.le.trans (zpow_le_zpow_right₀ (by norm_num) (by omega))
    have hyge : (2 : ℚ) ^ Int.log 2 y ≤ y := by
      have := Int.zpow_log_le_self (b := 2) (r := y) (by norm_num) hypos
      exact_mod_cast this
    have hux : ulpExp x ≤ Int.log 2 y := by omega
    have hc1 : (2 : ℚ) ^ Int.log 2 y
        = ((2 ^ (Int.log 2 y - ulpExp x).toNat : Int) : ℚ) * 2 ^ ulpExp x := by
      have h1 : ((Int.log 2 y - ulpExp x).toNat : Int) = Int.log 2 y - ulpExp x :=
        Int.toNat_of_nonneg (by omega)
      push_cast
      rw [← zpow_natCast, h1, ← zpow_add₀ (by norm_num : (2 : ℚ) ≠ 0)]
      rw [show Int.log 2 y - ulpExp x + ulpExp x = Int.log 2 y by ring]
    have hc2 : (2 : ℚ) ^ Int.log 2 y = ((2 ^ 52 : Int) : ℚ) * 2 ^ ulpExp y := by
      rw [hL2, zpow_sub₀ (by norm_num : (2 : ℚ) ≠ 0)]
      norm_num
      ring
    have ha : round64 x ≤ 2 ^ Int.log 2 y := by
      rw [hc1] at hxle ⊢
      exact round64_le_of_multiple hxle
    have hb : (2 : ℚ) ^ Int.log 2 y ≤ round64 y := by
      rw [hc2] at hyge ⊢
      exact le_round64_of_multiple hyge
    exact ha.trans hb

/-- The rounding of a number of known exponent that is not half-way between two
`float64` values. -/
theorem round64_eval {x : ℚ} (e k : Int) (he : -1022 ≤ e) (h1 : 2 ^ e ≤ |x|)
    (h2 : |x| < 2 ^ (e + 1)) (h3 : (k : ℚ) - 1 / 2 < x / 2 ^ (e - 52))
    (h4 : x / 2 ^ (e - 52) < k + 1 / 2) : round64 x = k * 2 ^ (e - 52) := by
  rw [round64_eq_of_exponent e he h1 h2, roundHalfEven_eq_of_lt h3 h4]

/-- The rounding of a number of known exponent half-way between two `float64`
values, the lower one odd. -/
theorem round64_eval_tie {x : ℚ} (e f : Int) (he : -1022 ≤ e) (h1 : 2 ^ e ≤ |x|)
    (h2 : |x| < 2 ^ (e + 1)) (h3 : x / 2 ^ (e - 52) = f + 1 / 2) (hodd : f % 2 = 1) :
    round64 x = ((f + 1 : Int) : ℚ) * 2 ^ (e - 52) := by
  rw [round64_eq_of_exponent e he h1 h2, roundHalfEven_tie_odd h3 hodd]

/-- The rounding of a number of known exponent half-way between two `float64`
values, the lower one even. -/
theorem round64_eval_tie_even {x : ℚ} (e f : Int) (he : -1022 ≤ e) (h1 : 2 ^ e ≤ |x|)
    (h2 : |x| < 2 ^ (e + 1)) (h3 : x / 2 ^ (e - 52) = f + 1 / 2) (heven : f % 2 = 0) :
    round64 x = (f : ℚ) * 2 ^ (e - 52) := by
  rw [round64_eq_of_exponent e he h1 h2, roundHalfEven_tie_even h3 heven]

theorem goInt_of_nonneg {x : ℚ} (h : 0 ≤ x) : goInt x = ⌊x⌋ := by
  unfold goInt
  rw [if_pos h]

/-- The `float64` product `b*23` for `b` in `[0, 1]`: it lies in `[0, 23]` and its
integer part is that of the exact product or one more, the latter only when the
product was rounded up to that integer. -/
theorem mul64_23_bounds {b : ℚ} (h0 : 0 ≤ b) (h1 : b ≤ 1) :
    0 ≤ mul64 b 23 ∧ mul64 b 23 ≤ 23 ∧ ⌊b * 23⌋ ≤ ⌊mul64 b 23⌋ ∧
    ⌊mul64 b 23⌋ ≤ ⌊b * 23⌋ + 1 ∧
    (⌊mul64 b 23⌋ = ⌊b * 23⌋ + 1 → mul64 b 23 = ((⌊b * 23⌋ + 1 : Int) : ℚ)) := by
  have hx0 : 0 ≤ b * 23 := by positivity
  have hx1 : b * 23 ≤ 23 := by linarith
  have habs : |b * 23| < 2 ^ (53 : Int) := by
    rw [abs_of_nonneg hx0]
    norm_num
    linarith
  have hp0 : 0 ≤ mul64 b 23 := round64_nonneg hx0
  have hp1 : mul64 b 23 ≤ ((23 : Int) : ℚ) :=
    round64_le_int habs (by push_cast; exact hx1)
  have hlo : ((⌊b * 23⌋ : Int) : ℚ) ≤ mul64 b 23 := int_le_round64 habs (Int.floor_le _)
  have hhi : mul64 b 23 ≤ ((⌊b * 23⌋ + 1 : Int) : ℚ) :=
    round64_le_int habs (by push_cast; exact (Int.lt_floor_add_one _).le)
  have hfl : ((⌊mul64 b 23⌋ : Int) : ℚ) ≤ mul64 b 23 := Int.floor_le _
  refine ⟨hp0, by exact_mod_cast hp1, Int.le_floor.mpr hlo, ?_, ?_⟩
  · have : ((⌊mul64 b 23⌋ : Int) : ℚ) ≤ ((⌊b * 23⌋ + 1 : Int) : ℚ) := hfl.trans hhi
    exact_mod_cast this
  · intro h
    rw [h] at hfl
    exact le_antisymm hhi hfl

theorem round64_c299 : round64 0.299 = 5386305154335113 / 2 ^ 54 := by
  rw [round64_eval (-2) 5386305154335113 (by norm_num) (by norm_num [abs_of_pos])
    (by norm_num [abs_of_pos]) (by norm_num) (by norm_num)]
  norm_num

theorem round64_c587 : round64 0.587 = 5287225962532962 / 2 ^ 53 := by
  rw [round64_eval (-1) 5287225962532962 (by norm_num) (by norm_num [abs_of_pos])
    (by norm_num [abs_of_pos]) (by norm_num) (by norm_num)]
  norm_num

theorem round64_c114 : round64 0.114 = 8214565720323785 / 2 ^ 56 := by
  rw [round64_eval (-4) 8214565720323785 (by norm_num) (by norm_num [abs_of_pos])
    (by norm_num [abs_of_pos]) (by norm_num) (by norm_num)]
  norm_num

theorem round64_c02 : round64 0.2 = 7205759403792794 / 2 ^ 55 := by
  rw [round64_eval (-3) 7205759403792794 (by norm_num) (by norm_num [abs_of_pos])
    (by norm_num [abs_of_pos]) (by norm_num) (by norm_num)]
  norm_num

theorem round64_c04 : round64 0.4 = 7205759403792794 / 2 ^ 54 := by
  rw [round64_eval (-2) 7205759403792794 (by norm_num) (by norm_num [abs_of_pos])
    (by norm_num [abs_of_pos]) (by norm_num) (by norm_num)]
  norm_num

theorem round64_c06 : round64 0.6 = 5404319552844595 / 2 ^ 53 := by
  rw [round64_eval (-1) 5404319552844595 (by norm_num) (by norm_num [abs_of_pos])
    (by norm_num [abs_of_pos]) (by norm_num) (by norm_num)]
  norm_num

theorem round64_c08 : round64 0.8 = 7205759403792794 / 2 ^ 53 := by
  rw [round64_eval (-1) 7205759403792794 (by norm_num) (by norm_num [abs_of_pos])
    (by norm_num [abs_of_pos]) (by norm_num) (by norm_num)]
  norm_num

/-- Line 43 at a white pixel, operation by operation: the brightness is exactly 1. -/
theorem brightness_white : float64Model.brightness 255 255 255 = 1 := by
  have h1 : mul64 255 (round64 0.299) = 5365264899825991 / 2 ^ 46 := by
    unfold mul64
    rw [round64_c299, round64_eval 6 5365264899825991 (by norm_num) (by norm_num [abs_of_pos])
      (by norm_num [abs_of_pos]) (by norm_num) (by norm_num)]
    norm_num
  have h2 : mul64 255 (round64 0.587) = 5266572736116818 / 2 ^ 45 := by
    unfold mul64
    rw [round64_c587, round64_eval 7 5266572736116818 (by norm_num) (by norm_num [abs_of_pos])
      (by norm_num [abs_of_pos]) (by norm_num) (by norm_num)]
    norm_num
  have h3 : mul64 255 (round64 0.114) = 8182477572978770 / 2 ^ 48 := by
    unfold mul64
    rw [round64_c114, round64_eval 4 8182477572978770 (by norm_num) (by norm_num [abs_of_pos])
      (by norm_num [abs_of_pos]) (by norm_num) (by norm_num)]
    norm_num
  have h12 : add64 (5365264899825991 / 2 ^ 46) (5266572736116818 / 2 ^ 45)
      = 7949205186029814 / 2 ^ 45 := by
    unfold add64
    rw [round64_eval_tie 7 7949205186029813 (by norm_num) (by norm_num [abs_of_pos])
      (by norm_num [abs_of_pos]) (by norm_num) (by norm_num)]
    norm_num
  have h123 : add64 (7949205186029814 / 2 ^ 45) (8182477572978770 / 2 ^ 48) = 255 := by
    unfold add64
    rw [round64_eval 7 8972014882652160 (by norm_num) (by norm_num [abs_of_pos])
      (by norm_num [abs_of_pos]) (by norm_num) (by norm_num)]
    norm_num
  have hd : div64 255 255 = 1 := by
    unfold div64
    rw [round64_eval 0 4503599627370496 (by norm_num) (by norm_num [abs_of_pos])
      (by norm_num [abs_of_pos]) (by norm_num) (by norm_num)]
    norm_num
  show div64 (add64 (add64 (mul64 ((255 : Nat) : ℚ) (round64 0.299))
    (mul64 ((255 : Nat) : ℚ) (round64 0.587))) (mul64 ((255 : Nat) : ℚ) (round64 0.114))) 255 = 1
  rw [show ((255 : Nat) : ℚ) = 255 by norm_num, h1, h2, h3, h12, h123, hd]

/-- The `float64` brightness of a byte triple lies in `[0, 1]`. -/
theorem float64_brightness_range (r g b : Nat) (hr : r < 256) (hg : g < 256) (hb : b < 256) :
    0 ≤ float64Model.brightness r g b ∧ float64Model.brightness r g b ≤ 1 := by
  have hr2 : (r : ℚ) ≤ 255 := by exact_mod_cast Nat.le_of_lt_succ hr
  have hg2 : (g : ℚ) ≤ 255 := by exact_mod_cast Nat.le_of_lt_succ hg
  have hb2 : (b : ℚ) ≤ 255 := by exact_mod_cast Nat.le_of_lt_succ hb
  have hr0 : (0 : ℚ) ≤ r := Nat.cast_nonneg r
  have hg0 : (0 : ℚ) ≤ g := Nat.cast_nonneg g
  have hb0 : (0 : ℚ) ≤ b := Nat.cast_nonneg b
  have c1 : (0 : ℚ) ≤ round64 0.299 := round64_nonneg (by norm_num)
  have c2 : (0 : ℚ) ≤ round64 0.587 := round64_nonneg (by norm_num)
  have c3 : (0 : ℚ) ≤ round64 0.114 := round64_nonneg (by norm_num)
  have m1 : mul64 r (round64 0.299) ≤ mul64 255 (round64 0.299) :=
    round64_mono (mul_nonneg hr0 c1) (mul_le_mul_of_nonneg_right hr2 c1)
  have m2 : mul64 g (round64 0.587) ≤ mul64 255 (round64 0.587) :=
    round64_mono (mul_nonneg hg0 c2) (mul_le_mul_of_nonneg_right hg2 c2)
  have m3 : mul64 b (round64 0.114) ≤ mul64 255 (round64 0.114) :=
    round64_mono (mul_nonneg hb0 c3) (mul_le_mul_of_nonneg_right hb2 c3)
  have n1 : 0 ≤ mul64 r (round64 0.299) := round64_nonneg (mul_nonneg hr0 c1)
  have n2 : 0 ≤ mul64 g (round64 0.587) := round64_nonneg (mul_nonneg hg0 c2)
  have n3 : 0 ≤ mul64 b (round64 0.114) := round64_nonneg (mul_nonneg hb0 c3)
  have a1 : add64 (mul64 r (round64 0.299)) (mul64 g (round64 0.587))
      ≤ add64 (mul64 255 (round64 0.299)) (mul64 255 (round64 0.587)) :=
    round64_mono (add_nonneg n1 n2) (add_le_add m1 m2)
  have p1 : 0 ≤ add64 (mul64 r (round64 0.299)) (mul64 g (round64 0.587)) :=
    round64_nonneg (add_nonneg n1 n2)
  have a2 : add64 (add64 (mul64 r (round64 0.299)) (mul64 g (round64 0.587)))
        (mul64 b (round64 0.114))
      ≤ add64 (add64 (mul64 255 (round64 0.299)) (mul64 255 (round64 0.587)))
        (mul64 255 (round64 0.114)) :=
    round64_mono (add_nonneg p1 n3) (add_le_add a1 m3)
  have p2 : 0 ≤ add64 (add64 (mul64 r (round64 0.299)) (mul64 g (round64 0.587)))
      (mul64 b (round64 0.114)) := round64_nonneg (add_nonneg p1 n3)
  have hw := brightness_white
  have hdef : ∀ r g b : Nat, float64Model.brightness r g b =
      div64 (add64 (add64 (mul64 r (round64 0.299)) (mul64 g (round64 0.587)))
        (mul64 b (round64 0.114))) 255 := fun _ _ _ => rfl
  rw [hdef] at hw ⊢
  rw [show ((255 : Nat) : ℚ) = 255 by norm_num] at hw
  constructor
  · exact round64_nonneg (div_nonneg p2 (by norm_num))
  · rw [← hw]
    exact round64_mono (div_nonneg p2 (by norm_num))
      (div_le_div_of_nonneg_right a2 (by norm_num))

theorem float64_level_le {p : ℚ} (h0 : 0 ≤ p) (h1 : p ≤ 1) : float64Model.level p ≤ 23 := by
  obtain ⟨hp0, hp1, _⟩ := mul64_23_bounds h0 h1
  have hf0 : 0 ≤ ⌊mul64 p 23⌋ := Int.floor_nonneg.mpr hp0
  have hf1 : ⌊mul64 p 23⌋ ≤ 23 := by
    have : ((⌊mul64 p 23⌋ : Int) : ℚ) ≤ ((23 : Int) : ℚ) := by
      push_cast
      exact (Int.floor_le _).trans hp1
    exact_mod_cast this
  have hlev : float64Model.level p = Int.toNat (goInt (mul64 p 23)) % 256 := rfl
  rw [hlev, goInt_of_nonneg hp0]
  omega

/-- In binary64 `uint8(brightness*23)` of a byte triple is at most 23. -/
theorem float64Model_byteLevels : float64Model.ByteLevels := by
  intro r g b hr hg hb
  obtain ⟨h0, h1⟩ := float64_brightness_range r g b hr hg hb
  exact float64_level_le h0 h1

/-! ## Binary64 and exact arithmetic on byte triples -/

theorem roundHalfEven_error (y : ℚ) : |(roundHalfEven y : ℚ) - y| ≤ 1 / 2 := by
  have h1 : (⌊y⌋ : ℚ) ≤ y := Int.floor_le y
  have h2 : y < ⌊y⌋ + 1 := Int.lt_floor_add_one y
  unfold roundHalfEven
  split_ifs <;> rw [abs_le] <;> constructor <;> push_cast <;> linarith

theorem round64_error {x : ℚ} {u : Int} (hu : ulpExp x ≤ u) : |round64 x - x| ≤ 2 ^ u / 2 := by
  have hp := two_zpow_pos (ulpExp x)
  have hx : x = x / 2 ^ ulpExp x * 2 ^ ulpExp x := by
    rw [div_mul_cancel₀ _ (ne_of_gt hp)]
  have h1 : round64 x - x
      = ((roundHalfEven (x / 2 ^ ulpExp x) : ℚ) - x / 2 ^ ulpExp x) * 2 ^ ulpExp x := by
    unfold round64
    rw [sub_mul, ← hx]
  rw [h1, abs_mul, abs_of_pos hp]
  have h2 := roundHalfEven_error (x / 2 ^ ulpExp x)
  have h3 : (2 : ℚ) ^ ulpExp x ≤ 2 ^ u := zpow_le_zpow_right₀ (by norm_num) hu
  calc |(roundHalfEven (x / 2 ^ ulpExp x) : ℚ) - x / 2 ^ ulpExp x| * 2 ^ ulpExp x
      ≤ 1 / 2 * 2 ^ ulpExp x := mul_le_mul_of_nonneg_right h2 hp.le
    _ ≤ 1 / 2 * 2 ^ u := mul_le_mul_of_nonneg_left h3 (by norm_num)
    _ = 2 ^ u / 2 := by ring

theorem ulpExp_le_of_lt_256 {x : ℚ} (h : |x| < 256) : ulpExp x ≤ -45 := by
  unfold ulpExp
  have hl : Int.log 2 |x| < 8 := by
    rcases eq_or_lt_of_le (abs_nonneg x) with h0 | hpos
    · rw [← h0, Int.log_zero_right]; norm_num
    · exact (Int.lt_zpow_iff_log_lt (by norm_num) hpos).mp (by norm_num; exact h)
  have := max_le (Int.le_of_lt_add_one (by omega : Int.log 2 |x| < 7 + 1))
    (by norm_num : (-1022 : Int) ≤ 7)
  omega

/-- Below 256 a rounding moves the result by at most `2^-46`. -/
theorem round64_near {x : ℚ} (h0 : 0 ≤ x) (h : x < 256) :
    x - 1 / 70368744177664 ≤ round64 x ∧ round64 x ≤ x + 1 / 70368744177664 := by
  have h1 := round64_error (ulpExp_le_of_lt_256 (by rw [abs_of_nonneg h0]; exact h))
  rw [abs_le] at h1
  norm_num at h1
  constructor <;> linarith [h1.1, h1.2]

theorem round64_int {n : Int} (hn : |n| ≤ 9007199254740992) : round64 (n : ℚ) = n :=
  round64_of_multiple (n := n) (k := 0) (by norm_num) hn (by norm_num)

theorem brightness_black : float64Model.brightness 0 0 0 = 0 := by
  show div64 (add64 (add64 (mul64 ((0 : Nat) : ℚ) (round64 0.299))
    (mul64 ((0 : Nat) : ℚ) (round64 0.587))) (mul64 ((0 : Nat) : ℚ) (round64 0.114))) 255 = 0
  simp only [mul64, add64, div64, Nat.cast_zero, zero_mul, round64_zero, add_zero, zero_div]

/-- The distance between the `float64` product `brightness*23` of a byte triple
and the exact value `(299 r + 587 g + 114 b) * 23 / 255000`. -/
theorem float64_level_near (r g b : Nat) (hr : r < 256) (hg : g < 256) (hb : b < 256) :
    ((299 * r + 587 * g + 114 * b : Nat) : ℚ) * 23 / 255000 - 1 / 1000000000
      ≤ mul64 (float64Model.brightness r g b) 23 ∧
    mul64 (float64Model.brightness r g b) 23
      ≤ ((299 * r + 587 * g + 114 * b : Nat) : ℚ) * 23 / 255000 + 1 / 1000000000 := by
  have hr2 : (r : ℚ) ≤ 255 := by exact_mod_cast Nat.le_of_lt_succ hr
  have hg2 : (g : ℚ) ≤ 255 := by exact_mod_cast Nat.le_of_lt_succ hg
  have hb2 : (b : ℚ) ≤ 255 := by exact_mod_cast Nat.le_of_lt_succ hb
  have hr0 : (0 : ℚ) ≤ r := Nat.cast_nonneg r
  have hg0 : (0 : ℚ) ≤ g := Nat.cast_nonneg g
  have hb0 : (0 : ℚ) ≤ b := Nat.cast_nonneg b
  have hdef : float64Model.brightness r g b =
      div64 (add64 (add64 (mul64 r (round64 0.299)) (mul64 g (round64 0.587)))
        (mul64 b (round64 0.114))) 255 := rfl
  rw [hdef, round64_c299, round64_c587, round64_c114]
  unfold mul64 add64 div64
  obtain ⟨a1, b1⟩ := round64_near (x := (r : ℚ) * (5386305154335113 / 2 ^ 54))
    (by positivity) (by norm_num; linarith)
  obtain ⟨a2, b2⟩ := round64_near (x := (g : ℚ) * (5287225962532962 / 2 ^ 53))
    (by positivity) (by norm_num; linarith)
  obtain ⟨a3, b3⟩ := round64_near (x := (b : ℚ) * (8214565720323785 / 2 ^ 56))
    (by positivity) (by norm_num; linarith)
  have n1 := round64_nonneg (x := (r : ℚ) * (5386305154335113 / 2 ^ 54)) (by positivity)
  have n2 := round64_nonneg (x := (g : ℚ) * (5287225962532962 / 2 ^ 53)) (by positivity)
  have n3 := round64_nonneg (x := (b : ℚ) * (8214565720323785 / 2 ^ 56)) (by positivity)
  generalize round64 ((r : ℚ) * (5386305154335113 / 2 ^ 54)) = t1 at *
  generalize round64 ((g : ℚ) * (5287225962532962 / 2 ^ 53)) = t2 at *
  generalize round64 ((b : ℚ) * (8214565720323785 / 2 ^ 56)) = t3 at *
  norm_num at a1 b1 a2 b2 a3 b3
  obtain ⟨a4, b4⟩ := round64_near (x := t1 + t2) (by linarith) (by linarith)
  have n4 := round64_nonneg (x := t1 + t2) (by linarith)
  generalize round64 (t1 + t2) = s1 at *
  obtain ⟨a5, b5⟩ := round64_near (x := s1 + t3) (by linarith) (by linarith)
  have n5 := round64_nonneg (x := s1 + t3) (by linarith)
  generalize round64 (s1 + t3) = s2 at *
  obtain ⟨a6, b6⟩ := round64_near (x := s2 / 255) (by positivity)
    (by rw [div_lt_iff₀ (by norm_num)]; linarith)
  have n6 := round64_nonneg (x := s2 / 255) (by positivity)
  generalize round64 (s2 / 255) = d at *
  have hd1 : d ≤ 2 := by
    have : s2 / 255 ≤ 1 + 1 / 255 := by
      rw [div_le_iff₀ (by norm_num)]; linarith
    linarith
  obtain ⟨a7, b7⟩ := round64_near (x := d * 23) (by positivity) (by linarith)
  generalize round64 (d * 23) = l at *
  have e6a : s2 / 255 = s2 * (1 / 255) := by ring
  rw [e6a] at a6 b6
  push_cast
  constructor <;> linarith

theorem floor_of_near {l : ℚ} {n q s : Nat} (hdm : 255000 * q + s = n * 23) (hs1 : 1 ≤ s)
    (hs2 : s ≤ 254999) (hlo : (n : ℚ) * 23 / 255000 - 1 / 1000000000 ≤ l)
    (hhi : l ≤ (n : ℚ) * 23 / 255000 + 1 / 1000000000) : ⌊l⌋ = (q : Int) := by
  have hdmq : 255000 * (q : ℚ) + (s : ℚ) = (n : ℚ) * 23 := by exact_mod_cast hdm
  have hs1q : (1 : ℚ) ≤ (s : ℚ) := by exact_mod_cast hs1
  have hs2q : (s : ℚ) ≤ 254999 := by exact_mod_cast hs2
  rw [Int.floor_eq_iff]
  push_cast
  constructor <;> linarith

theorem level_integer_cases (r g b : Nat) (hr : r < 256) (hg : g < 256) (hb : b < 256)
    (hs : (299 * r + 587 * g + 114 * b) * 23 % 255000 = 0) :
    (r = 0 ∧ g = 0 ∧ b = 0) ∨ (r = 255 ∧ g = 255 ∧ b = 255) := by
  have hdvd : 255000 ∣ (299 * r + 587 * g + 114 * b) * 23 := Nat.dvd_of_mod_eq_zero hs
  have hco : Nat.Coprime 255000 23 := by norm_num
  obtain ⟨k, hk⟩ := hco.dvd_of_dvd_mul_right hdvd
  clear hs hdvd hco
  have hk1 : k ≤ 1 := by omega
  rcases Nat.le_one_iff_eq_zero_or_eq_one.mp hk1 with h0 | h1
  · subst h0
    left
    omega
  · subst h1
    right
    omega

/-- In binary64 `uint8(brightness*23)` of a byte triple is the integer quotient of
`(299 r + 587 g + 114 b) * 23` by `255000`, as in exact arithmetic: the exact
value is an integer only for black and for white, and otherwise it is farther
from every integer than the roundings can move it. -/
theorem float64_level_brightness (r g b : Nat) (hr : r < 256) (hg : g < 256) (hb : b < 256) :
    float64Model.level (float64Model.brightness r g b) =
      (299 * r + 587 * g + 114 * b) * 23 / 255000 % 256 := by
  obtain ⟨hB0, hB1⟩ := float64_brightness_range r g b hr hg hb
  obtain ⟨hL0, hL1, _⟩ := mul64_23_bounds hB0 hB1
  have hlev : float64Model.level (float64Model.brightness r g b)
      = Int.toNat (goInt (mul64 (float64Model.brightness r g b) 23)) % 256 := rfl
  rw [hlev, goInt_of_nonneg hL0]
  have hfloor : ⌊mul64 (float64Model.brightness r g b) 23⌋
      = (((299 * r + 587 * g + 114 * b) * 23 / 255000 : Nat) : Int) := by
    by_cases hs : (299 * r + 587 * g + 114 * b) * 23 % 255000 = 0
    · rcases level_integer_cases r g b hr hg hb hs with ⟨h1, h2, h3⟩ | ⟨h1, h2, h3⟩
      · subst h1 h2 h3
        rw [brightness_black]
        unfold mul64
        rw [zero_mul, round64_zero]
        simp
      · subst h1 h2 h3
        rw [brightness_white]
        unfold mul64
        rw [one_mul]
        have h23 : round64 (23 : ℚ) = 23 := by
          have := round64_int (n := 23) (by norm_num)
          simpa using this
        rw [h23]
        simp
    · obtain ⟨hlo, hhi⟩ := float64_level_near r g b hr hg hb
      exact floor_of_near (Nat.div_add_mod _ 255000) (Nat.one_le_iff_ne_zero.mpr hs)
        (Nat.le_of_lt_succ (Nat.mod_lt _ (by norm_num))) hlo hhi
  rw [hfloor, Int.toNat_natCast]

/-- On the brightness of a byte triple binary64 and exact arithmetic give the same
level, hence the same grayscale index. -/
theorem float64_level_eq_exact (r g b : Nat) (hr : r < 256) (hg : g < 256) (hb : b < 256) :
    float64Model.level (float64Model.brightness r g b)
      = exactFloat.level (exactFloat.brightness r g b) ∧
    grayIndex float64Model (float64Model.brightness r g b)
      = grayIndex exactFloat (exactFloat.brightness r g b) := by
  have h := float64_level_brightness r g b hr hg hb
  have h2 := exactFloat_level_brightness r g b
  refine ⟨by rw [h, h2], ?_⟩
  unfold grayIndex
  rw [h, h2]

/-! ## The grayscale index of an arbitrary brightness -/

/-- C13, as the code behaves. For every brightness `b` in `[0, 1]` the grayscale
quantization `uint8(b*23) + 232`, computed in 8 bits, is
`clamp(floor(p) + 232, 232, 255)` where `p` is the `float64` product `b*23`; the
clamp is not active, the value being `floor(p) + 232` itself. The integer part
of `p` is that of the exact product or one more, the latter only when the
product was rounded up to that integer. For the brightness of a byte triple the
value is `floor(e*23) + 232` with `e` the exact brightness
`(299 r + 587 g + 114 b) / 255000`. -/
theorem grayIndex_clamp (b : ℚ) (h0 : 0 ≤ b) (h1 : b ≤ 1) :
    ((grayIndex float64Model b : Nat) : Int) = max 232 (min 255 (⌊mul64 b 23⌋ + 232)) ∧
    ((grayIndex float64Model b : Nat) : Int) = ⌊mul64 b 23⌋ + 232 ∧
    ⌊b * 23⌋ ≤ ⌊mul64 b 23⌋ ∧ ⌊mul64 b 23⌋ ≤ ⌊b * 23⌋ + 1 ∧
    (⌊mul64 b 23⌋ = ⌊b * 23⌋ + 1 → mul64 b 23 = ((⌊b * 23⌋ + 1 : Int) : ℚ)) ∧
    (∀ r g c : Nat, r < 256 → g < 256 → c < 256 →
      ((grayIndex float64Model (float64Model.brightness r g c) : Nat) : Int)
        = ⌊exactFloat.brightness r g c * 23⌋ + 232) := by
  obtain ⟨hp0, hp1, hlo, hhi, heq⟩ := mul64_23_bounds h0 h1
  have hf0 : 0 ≤ ⌊mul64 b 23⌋ := Int.floor_nonneg.mpr hp0
  have hf1 : ⌊mul64 b 23⌋ ≤ 23 := by
    have : ((⌊mul64 b 23⌋ : Int) : ℚ) ≤ ((23 : Int) : ℚ) := by
      push_cast
      exact (Int.floor_le _).trans hp1
    exact_mod_cast this
  have hlev : float64Model.level b = Int.toNat (goInt (mul64 b 23)) % 256 := rfl
  refine ⟨?_, ?_, hlo, hhi, heq, ?_⟩
  · unfold grayIndex
    rw [hlev, goInt_of_nonneg hp0]
    omega
  · unfold grayIndex
    rw [hlev, goInt_of_nonneg hp0]
    omega
  · intro r g c hr hg hc
    have hfe := (float64_level_eq_exact r g c hr hg hc).2
    have hx0 : 0 ≤ exactFloat.brightness r g c := by
      show 0 ≤ ((r : ℚ) * 0.299 + (g : ℚ) * 0.587 + (c : ℚ) * 0.114) / 255
      positivity
    have hx1 : exactFloat.brightness r g c ≤ 1 := by
      have hr2 : (r : ℚ) ≤ 255 := by exact_mod_cast Nat.le_of_lt_succ hr
      have hg2 : (g : ℚ) ≤ 255 := by exact_mod_cast Nat.le_of_lt_succ hg
      have hc2 : (c : ℚ) ≤ 255 := by exact_mod_cast Nat.le_of_lt_succ hc
      show ((r : ℚ) * 0.299 + (g : ℚ) * 0.587 + (c : ℚ) * 0.114) / 255 ≤ 1
      rw [div_le_one (by norm_num)]
      norm_num
      linarith
    have he0 : 0 ≤ ⌊exactFloat.brightness r g c * 23⌋ :=
      Int.floor_nonneg.mpr (by positivity)
    have he1 : ⌊exactFloat.brightness r g c * 23⌋ < 24 :=
      Int.floor_lt.mpr (by push_cast; linarith)
    have hle : exactFloat.level (exactFloat.brightness r g c)
        = Int.toNat ⌊exactFloat.brightness r g c * 23⌋ % 256 := rfl
    rw [hfe]
    unfold grayIndex
    rw [hle]
    omega

/-- C13 at brightness one half. -/
theorem grayIndex_clamp_witness :
    ((grayIndex float64Model (1 / 2) : Nat) : Int)
      = max 232 (min 255 (⌊mul64 (1 / 2) 23⌋ + 232)) ∧
    ((grayIndex float64Model (1 / 2) : Nat) : Int) = ⌊mul64 (1 / 2) 23⌋ + 232 ∧
    ⌊(1 / 2 : ℚ) * 23⌋ ≤ ⌊mul64 (1 / 2) 23⌋ ∧ ⌊mul64 (1 / 2) 23⌋ ≤ ⌊(1 / 2 : ℚ) * 23⌋ + 1 ∧
    (⌊mul64 (1 / 2) 23⌋ = ⌊(1 / 2 : ℚ) * 23⌋ + 1 →
      mul64 (1 / 2) 23 = ((⌊(1 / 2 : ℚ) * 23⌋ + 1 : Int) : ℚ)) ∧
    (∀ r g c : Nat, r < 256 → g < 256 → c < 256 →
      ((grayIndex float64Model (float64Model.brightness r g c) : Nat) : Int)
        = ⌊exactFloat.brightness r g c * 23⌋ + 232) :=
  grayIndex_clamp (1 / 2) (by norm_num) (by norm_num)

/-- C13 as stated, with the integer part of the exact product, fails at the
`float64` value `1566469435607129 / 2^55` of `[0, 1]`: the exact product
`1 - 2^-55` has integer part 0, so the stated value is 232, but the `float64`
product is 1 and the program computes 233. -/
theorem grayIndex_clamp_counterexample :
    0 ≤ edgeBrightness ∧ edgeBrightness ≤ 1 ∧ round64 edgeBrightness = edgeBrightness ∧
    mul64 edgeBrightness 23 = 1 ∧
    grayIndex float64Model edgeBrightness = 233 ∧
    ⌊edgeBrightness * 23⌋ = 0 ∧
    max 232 (min 255 (⌊edgeBrightness * 23⌋ + 232)) = 232 ∧
    ((grayIndex float64Model edgeBrightness : Nat) : Int)
      ≠ max 232 (min 255 (⌊edgeBrightness * 23⌋ + 232)) := by
  have hrep : round64 edgeBrightness = edgeBrightness :=
    round64_of_multiple (n := 1566469435607129) (k := -55)
      (by unfold edgeBrightness; norm_num) (by norm_num) (by norm_num)
  have hmul : mul64 edgeBrightness 23 = 1 := by
    unfold mul64 edgeBrightness
    rw [round64_eval (-1) 9007199254740992 (by norm_num) (by norm_num [abs_of_pos])
      (by norm_num [abs_of_pos]) (by norm_num) (by norm_num)]
    norm_num
  have hfl : ⌊edgeBrightness * 23⌋ = 0 := by
    rw [Int.floor_eq_iff]
    unfold edgeBrightness
    norm_num
  have hidx : grayIndex float64Model edgeBrightness = 233 := by
    have hlev : float64Model.level edgeBrightness
        = Int.toNat (goInt (mul64 edgeBrightness 23)) % 256 := rfl
    unfold grayIndex
    rw [hlev, hmul, goInt_of_nonneg (by norm_num)]
    norm_num
  refine ⟨by unfold edgeBrightness; norm_num, by unfold edgeBrightness; norm_num, hrep, hmul,
    hidx, hfl, ?_, ?_⟩
  · rw [hfl]; decide
  · rw [hidx, hfl]; decide

/-! ## The choice of the quantizer -/

/-- C16. In colourful mode a `DistanceAlgorithm` other than `"rgb"` and `"cie94"`,
the empty string included, selects the YIQ quantizer: the call is the same as
with `DistanceAlgorithm = "yiq"`, output and final state included. `"rgb"`
selects the RGB quantizer and `"cie94"` the CIE94 quantizer. -/
theorem DrawRGB_default_algorithm {β : Type} (q : Quantizers) (F : FloatModel β)
    (raw : List Nat) (config : Config) (w : World) (hcol : config.Colorful = true)
    (h1 : config.DistanceAlgorithm ≠ "rgb") (h2 : config.DistanceAlgorithm ≠ "cie94") :
    rgb2Xterm q config = q.rgb2XtermYIQ ∧
    DrawRGB q F raw config w = DrawRGB q F raw { config with DistanceAlgorithm := "yiq" } w ∧
    rgb2Xterm q { config with DistanceAlgorithm := "rgb" } = q.rgb2XtermRGB ∧
    rgb2Xterm q { config with DistanceAlgorithm := "cie94" } = q.rgb2XtermCIE94 := by
  have hy : rgb2Xterm q config = q.rgb2XtermYIQ := by
    unfold rgb2Xterm
    rw [if_pos hcol, if_neg h1, if_neg h2]
  have hy2 : rgb2Xterm q { config with DistanceAlgorithm := "yiq" } = q.rgb2XtermYIQ := by
    unfold rgb2Xterm
    simp only [hcol, if_true]
    rw [if_neg (by decide), if_neg (by decide)]
  refine ⟨hy, ?_, ?_, ?_⟩
  · unfold DrawRGB
    simp only [hy, hy2]
  · unfold rgb2Xterm
    simp only [hcol, if_true]
  · unfold rgb2Xterm
    simp only [hcol, if_true]
    rw [if_neg (by decide)]

/-- C16 for the empty name and for an unknown name. -/
theorem DrawRGB_default_algorithm_witness :
    DrawRGB unusedQuantizers exactFloat [255, 0, 0] ⟨1, 1, true, ""⟩ (World.init [[(0, 0)]])
      = DrawRGB unusedQuantizers exactFloat [255, 0, 0]
          { (⟨1, 1, true, ""⟩ : Config) with DistanceAlgorithm := "yiq" }
          (World.init [[(0, 0)]]) :=
  (DrawRGB_default_algorithm unusedQuantizers exactFloat [255, 0, 0] ⟨1, 1, true, ""⟩
    (World.init [[(0, 0)]]) rfl (by decide) (by decide)).2.1

/-! ## The colours of a cell -/

theorem exactFloat_byteLevels : exactFloat.ByteLevels := by
  intro r g b hr hg hb
  rw [exactFloat_level_brightness]
  have hN : (299 * r + 587 * g + 114 * b) * 23 ≤ 255000 * 23 := by omega
  exact Nat.le_trans (Nat.mod_le _ _) (Nat.div_le_of_le_mul hN)

/-- The triple at index `i` holds three bytes of the buffer. -/
theorem rawRGB2Pixels_bytes (raw : List Nat) (pixels : List (Nat × Nat × Nat)) (i : Nat)
    (p : Nat × Nat × Nat) (hp : rawRGB2Pixels raw = some pixels) (hi : pixels[i]? = some p) :
    raw[3 * i]? = some p.1 ∧ raw[3 * i + 1]? = some p.2.1 ∧ raw[3 * i + 2]? = some p.2.2 := by
  rw [rawRGB2Pixels_getElem i raw pixels hp] at hi
  cases h0 : raw[3 * i]? with
  | none => rw [h0] at hi; simp at hi
  | some r =>
    cases h1 : raw[3 * i + 1]? with
    | none => rw [h0, h1] at hi; simp at hi
    | some g =>
      cases h2 : raw[3 * i + 2]? with
      | none => rw [h0, h1, h2] at hi; simp at hi
      | some b =>
        rw [h0, h1, h2] at hi
        simp only [Option.some_bind, Option.some.injEq] at hi
        subst hi
        exact ⟨rfl, rfl, rfl⟩

/-- The colours of a cell, in terms of the bytes of the buffer: the top colour is
the index of the pixel at column `x`, row `y`; the bottom colour is the index
of the pixel at row `y + 1` when `y + 1 < Height`, and `colorTransparent`
otherwise. -/
theorem framePair_parts {β : Type} (q : Quantizers) (F : FloatModel β) (raw : List Nat)
    (config : Config) (x y c1 c2 : Nat)
    (hpair : framePair q F raw config x y = some (c1, c2)) :
    (∃ r g b, raw[3 * (y * config.Width.toNat + x)]? = some r ∧
      raw[3 * (y * config.Width.toNat + x) + 1]? = some g ∧
      raw[3 * (y * config.Width.toNat + x) + 2]? = some b ∧
      c1 = sampleIndex q F config (r, g, b)) ∧
    (y + 1 < config.Height.toNat →
      ∃ r g b, raw[3 * ((y + 1) * config.Width.toNat + x)]? = some r ∧
        raw[3 * ((y + 1) * config.Width.toNat + x) + 1]? = some g ∧
        raw[3 * ((y + 1) * config.Width.toNat + x) + 2]? = some b ∧
        c2 = sampleIndex q F config (r, g, b)) ∧
    (¬ y + 1 < config.Height.toNat → c2 = colorTransparent) := by
  rw [framePair_eq] at hpair
  cases hp : rawRGB2Pixels raw with
  | none => rw [hp] at hpair; simp at hpair
  | some pixels =>
    rw [hp] at hpair
    simp only [cellColors] at hpair
    cases h1 : pixels[y * config.Width.toNat + x]? with
    | none => rw [h1] at hpair; simp at hpair
    | some p1 =>
      rw [h1] at hpair
      simp only at hpair
      obtain ⟨b0, b1, b2⟩ := rawRGB2Pixels_bytes raw pixels _ p1 hp h1
      by_cases hy : y + 1 < config.Height.toNat
      · rw [if_pos hy] at hpair
        cases h2 : pixels[(y + 1) * config.Width.toNat + x]? with
        | none => rw [h2] at hpair; simp at hpair
        | some p2 =>
          rw [h2] at hpair
          simp only [Option.some.injEq, Prod.mk.injEq] at hpair
          obtain ⟨d0, d1, d2⟩ := rawRGB2Pixels_bytes raw pixels _ p2 hp h2
          exact ⟨⟨p1.1, p1.2.1, p1.2.2, b0, b1, b2, hpair.1.symm⟩,
            fun _ => ⟨p2.1, p2.2.1, p2.2.2, d0, d1, d2, hpair.2.symm⟩,
            fun h => absurd hy h⟩
      · rw [if_neg hy] at hpair
        simp only [Option.some.injEq, Prod.mk.injEq] at hpair
        exact ⟨⟨p1.1, p1.2.1, p1.2.2, b0, b1, b2, hpair.1.symm⟩,
          fun h => absurd h hy, fun _ => hpair.2.symm⟩

theorem byte_of_getElem {raw : List Nat} (hbytes : ∀ v ∈ raw, v < 256) {i v : Nat}
    (h : raw[i]? = some v) : v < 256 :=
  hbytes v (List.getElem?_mem h)

/-- The index of a pixel of bytes is a palette index, not a sentinel. -/
theorem sampleIndex_ge {β : Type} (q : Quantizers) (F : FloatModel β) (config : Config)
    (hpal : q.InPalette) (hlev : F.ByteLevels) (r g b : Nat)
    (hr : r < 256) (hg : g < 256) (hb : b < 256) :
    16 ≤ sampleIndex q F config (r, g, b) := by
  unfold sampleIndex
  by_cases hcol : config.Colorful = true
  · simp only [hcol, if_true]
    obtain ⟨h1, h2, h3⟩ := hpal r g b
    unfold rgb2Xterm
    simp only [hcol, if_true]
    split_ifs <;> assumption
  · simp only [hcol, Bool.false_eq_true, if_false]
    have := hlev r g b hr hg hb
    omega

/-- C11. In grayscale mode, for every cell of the frame (upper pixel row `y` below
`Height`) the bottom colour is `colorTransparent` exactly when `y + 1 >= Height`,
which for an even `y` means that `Height` is odd and the cell lies in the final
pair-row. Every other cell has as bottom colour the grayscale index of the pixel
at row `y + 1`, which lies in `232..255` and so is not `colorTransparent`. The
buffer holds bytes, and `uint8(brightness*23)` of a byte triple is at most 23. -/
theorem grayscale_bottom_colour {β : Type} (q : Quantizers) (F : FloatModel β)
    (raw : List Nat) (config : Config) (x y c1 c2 : Nat)
    (hgray : config.Colorful = false) (hlev : F.ByteLevels)
    (hbytes : ∀ v ∈ raw, v < 256)
    (hpair : framePair q F raw config x y = some (c1, c2)) :
    (c2 = colorTransparent ↔ config.Height.toNat ≤ y + 1) ∧
    (y % 2 = 0 → y < config.Height.toNat →
      (c2 = colorTransparent ↔
        config.Height.toNat % 2 = 1 ∧ y + 1 = config.Height.toNat)) ∧
    (y + 1 < config.Height.toNat →
      ∃ r g b, raw[3 * ((y + 1) * config.Width.toNat + x)]? = some r ∧
        raw[3 * ((y + 1) * config.Width.toNat + x) + 1]? = some g ∧
        raw[3 * ((y + 1) * config.Width.toNat + x) + 2]? = some b ∧
        c2 = grayIndex F (F.brightness r g b) ∧ 232 ≤ c2 ∧ c2 ≤ 255) := by
  obtain ⟨_, hlow, htr⟩ := framePair_parts q F raw config x y c1 c2 hpair
  have hidx : ∀ r g b, sampleIndex q F config (r, g, b) = grayIndex F (F.brightness r g b) := by
    intro r g b
    simp only [sampleIndex, hgray, Bool.false_eq_true, if_false, grayIndex]
  have hrange : y + 1 < config.Height.toNat →
      ∃ r g b, raw[3 * ((y + 1) * config.Width.toNat + x)]? = some r ∧
        raw[3 * ((y + 1) * config.Width.toNat + x) + 1]? = some g ∧
        raw[3 * ((y + 1) * config.Width.toNat + x) + 2]? = some b ∧
        c2 = grayIndex F (F.brightness r g b) ∧ 232 ≤ c2 ∧ c2 ≤ 255 := by
    intro hy
    obtain ⟨r, g, b, h0, h1, h2, hc⟩ := hlow hy
    have hl := hlev r g b (byte_of_getElem hbytes h0) (byte_of_getElem hbytes h1)
      (byte_of_getElem hbytes h2)
    rw [hidx] at hc
    refine ⟨r, g, b, h0, h1, h2, hc, ?_, ?_⟩ <;>
      (rw [hc]; unfold grayIndex; omega)
  have hiff : c2 = colorTransparent ↔ config.Height.toNat ≤ y + 1 := by
    constructor
    · intro hc
      by_contra hcon
      obtain ⟨_, _, _, _, _, _, _, h232, _⟩ := hrange (by omega)
      rw [hc] at h232
      unfold colorTransparent at h232
      omega
    · intro hle
      exact htr (by omega)
  refine ⟨hiff, ?_, hrange⟩
  intro hev hy
  rw [hiff]
  omega

/-- C11 on a grayscale frame of one column and three rows: the cell of the rows 0
and 1 has the index of the second pixel as bottom colour, the cell of the row 2
has `colorTransparent`. -/
theorem grayscale_bottom_colour_witness :
    framePair unusedQuantizers exactFloat [255, 255, 255, 0, 0, 0, 255, 255, 255]
      ⟨1, 3, false, ""⟩ 0 0 = some (255, 232) ∧
    ((232 : Nat) = colorTransparent ↔ (3 : Int).toNat ≤ 0 + 1) ∧
    framePair unusedQuantizers exactFloat [255, 255, 255, 0, 0, 0, 255, 255, 255]
      ⟨1, 3, false, ""⟩ 0 2 = some (255, 1) ∧
    ((1 : Nat) = colorTransparent ↔ (3 : Int).toNat ≤ 2 + 1) := by
  have hb : ∀ v ∈ [255, 255, 255, 0, 0, 0, 255, 255, 255], v < 256 := by decide
  have h0 : framePair unusedQuantizers exactFloat [255, 255, 255, 0, 0, 0, 255, 255, 255]
      ⟨1, 3, false, ""⟩ 0 0 = some (255, 232) := by
    simp [framePair, rawRGB2BrightnessPixels, cellColors, exactFloat_level_brightness]
  have h2 : framePair unusedQuantizers exactFloat [255, 255, 255, 0, 0, 0, 255, 255, 255]
      ⟨1, 3, false, ""⟩ 0 2 = some (255, 1) := by
    simp [framePair, rawRGB2BrightnessPixels, cellColors, exactFloat_level_brightness,
      colorTransparent]
  exact ⟨h0, (grayscale_bottom_colour unusedQuantizers exactFloat _ _ 0 0 255 232 rfl
      exactFloat_byteLevels hb h0).1,
    h2, (grayscale_bottom_colour unusedQuantizers exactFloat _ _ 0 2 255 1 rfl
      exactFloat_byteLevels hb h2).1⟩

/-- C12. For every frame of odd height, each cell of the last pair-row (upper pixel
row `Height - 1`) has the bottom colour `colorTransparent`; its top colour is a
palette index, so whenever `dot` paints the cell, in whatever world, the glyph it
appends is the upper half block U+2580. The quantizers yield palette indices (16
and above), the buffer holds bytes, and `uint8(brightness*23)` of a byte triple
is at most 23. -/
theorem odd_height_last_row {β : Type} (q : Quantizers) (F : FloatModel β)
    (raw : List Nat) (config : Config) (x c1 c2 : Nat) (w : World)
    (hpal : q.InPalette) (hlev : F.ByteLevels) (hbytes : ∀ v ∈ raw, v < 256)
    (hodd : config.Height.toNat % 2 = 1)
    (hpair : framePair q F raw config x (config.Height.toNat - 1) = some (c1, c2)) :
    c2 = colorTransparent ∧ c1 ≠ colorTransparent ∧
    (dot x ((config.Height.toNat - 1) / 2) c1 c2 w).sequence =
      w.sequence ++ cursorMove x ((config.Height.toNat - 1) / 2)
        ++ (if colorTransparent ≠ w.oldbg then bgCode colorTransparent else "")
        ++ (if c1 ≠ w.oldfg then fgCode c1 else "") ++ "▀" := by
  obtain ⟨⟨r, g, b, h0, h1, h2, hc1⟩, _, htr⟩ :=
    framePair_parts q F raw config x _ c1 c2 hpair
  have hc2 : c2 = colorTransparent := htr (by omega)
  have h16 := sampleIndex_ge q F config hpal hlev r g b (byte_of_getElem hbytes h0)
    (byte_of_getElem hbytes h1) (byte_of_getElem hbytes h2)
  have hne : c1 ≠ colorTransparent := by
    rw [hc1]; unfold colorTransparent; omega
  refine ⟨hc2, hne, ?_⟩
  subst hc2
  rw [dot_eq]
  simp [hne]

theorem paletteQuantizers_inPalette : paletteQuantizers.InPalette := by
  intro r g b
  exact ⟨Nat.le_refl _, Nat.le_refl _, Nat.le_refl _⟩

/-- C12 on a frame of one white pixel in colourful mode: the cell has the colours
`(16, colorTransparent)` and is painted with the upper half block. -/
theorem odd_height_last_row_witness :
    framePair paletteQuantizers exactFloat [255, 255, 255] ⟨1, 1, true, "rgb"⟩ 0 0
      = some (16, 1) ∧
    (1 = colorTransparent ∧ 16 ≠ colorTransparent ∧
      (dot 0 ((1 - 1) / 2) 16 1 (World.init (initialCache 1 1))).sequence =
        (World.init (initialCache 1 1)).sequence ++ cursorMove 0 ((1 - 1) / 2)
          ++ (if colorTransparent ≠ (World.init (initialCache 1 1)).oldbg
              then bgCode colorTransparent else "")
          ++ (if 16 ≠ (World.init (initialCache 1 1)).oldfg then fgCode 16 else "")
          ++ "▀") := by
  have hp : framePair paletteQuantizers exactFloat [255, 255, 255] ⟨1, 1, true, "rgb"⟩ 0 0
      = some (16, 1) := by
    simp [framePair, rawRGB2Pixels, cellColors, rgb2Xterm, paletteQuantizers,
      colorTransparent]
  exact ⟨hp, odd_height_last_row paletteQuantizers exactFloat [255, 255, 255]
    ⟨1, 1, true, "rgb"⟩ 0 16 1 (World.init (initialCache 1 1))
    paletteQuantizers_inPalette exactFloat_byteLevels (by decide) (by decide) hp⟩

/-! ## Two scenarios from the initial state -/

/-- C14, as the code behaves. A frame of 2 by 2 red pixels in colourful mode with
the `"rgb"` algorithm, from the initial cache and render state, `R` being the
index of red (a palette index): `DrawRGB` returns after painting two cells, one
for each column of the single pair-row, both with top = bottom = `R` and a space
as glyph. The text holds exactly one background-switch code, at the first cell,
and no foreground-switch code; the foreground stays `colorUndef`; nothing is
flushed. -/
theorem DrawRGB_red_2x2 {β : Type} (q : Quantizers) (F : FloatModel β)
    (hred : 16 ≤ q.rgb2XtermRGB 255 0 0) :
    DrawRGB q F [255, 0, 0, 255, 0, 0, 255, 0, 0, 255, 0, 0] ⟨2, 2, true, "rgb"⟩
        (World.init (initialCache 2 1)) =
      .done
        { oldfg := colorUndef
          oldbg := q.rgb2XtermRGB 255 0 0
          sequence := cursorMove 0 0 ++ bgCode (q.rgb2XtermRGB 255 0 0) ++ " "
            ++ cursorMove 1 0 ++ " "
          fCache := [[(q.rgb2XtermRGB 255 0 0, q.rgb2XtermRGB 255 0 0)],
                     [(q.rgb2XtermRGB 255 0 0, q.rgb2XtermRGB 255 0 0)]]
          stdout := []
          dotCalls := [(0, 0, q.rgb2XtermRGB 255 0 0, q.rgb2XtermRGB 255 0 0),
                       (1, 0, q.rgb2XtermRGB 255 0 0, q.rgb2XtermRGB 255 0 0)] } ∧
    cursorMove 0 0 = "\x1b[1;1H" ∧ cursorMove 1 0 = "\x1b[1;2H" ∧
    bgCode (q.rgb2XtermRGB 255 0 0)
      = "\x1b[48;5;" ++ toString (q.rgb2XtermRGB 255 0 0) ++ "m" := by
  have h0 : ¬ q.rgb2XtermRGB 255 0 0 = 0 := by omega
  have h1 : ¬ q.rgb2XtermRGB 255 0 0 = 1 := by omega
  refine ⟨?_, by decide, by decide, by simp [bgCode, colorTransparent, h1]⟩
  simp [DrawRGB, rawRGB2Pixels, drawLoop, List.range', forEach, drawRow, paintCell,
    cellColors, cacheGet, cacheSet, flushRow, rgb2Xterm, World.init, initialCache,
    List.range, List.range.loop, List.replicate, dot, colorUndef, colorTransparent, h0, h1,
    cursorMove, bgCode, fgCode, String.append_assoc]

/-- C14 as stated fails: whatever the quantizers are, the 2 by 2 red frame never
renders exactly one cell (it renders the two cells of its pair-row, or none when
the index of red is the one the cache holds). -/
theorem DrawRGB_red_2x2_counterexample :
    ¬ ∃ q : Quantizers,
      (DrawRGB q exactFloat [255, 0, 0, 255, 0, 0, 255, 0, 0, 255, 0, 0] ⟨2, 2, true, "rgb"⟩
        (World.init (initialCache 2 1))).world.dotCalls.length = 1 := by
  rintro ⟨q, h⟩
  revert h
  by_cases hq : q.rgb2XtermRGB 255 0 0 = 0 <;>
    simp [DrawRGB, rawRGB2Pixels, drawLoop, List.range', forEach, drawRow, paintCell,
      cellColors, cacheGet, cacheSet, flushRow, rgb2Xterm, World.init, initialCache,
      List.range, List.range.loop, List.replicate, Outcome.world, hq, dot, colorUndef]

/-- The amended C14 with quantizers that send every colour to the index 16. -/
theorem DrawRGB_red_2x2_witness :
    DrawRGB paletteQuantizers exactFloat [255, 0, 0, 255, 0, 0, 255, 0, 0, 255, 0, 0]
        ⟨2, 2, true, "rgb"⟩ (World.init (initialCache 2 1)) =
      .done
        { oldfg := colorUndef
          oldbg := 16
          sequence := cursorMove 0 0 ++ bgCode 16 ++ " " ++ cursorMove 1 0 ++ " "
          fCache := [[(16, 16)], [(16, 16)]]
          stdout := []
          dotCalls := [(0, 0, 16, 16), (1, 0, 16, 16)] } :=
  (DrawRGB_red_2x2 paletteQuantizers exactFloat (Nat.le_refl 16)).1

/-- C15. A frame of one white pixel, in either mode, from the initial cache and
render state, `W` being the index of white (a palette index): `DrawRGB` returns
after painting exactly one cell, with bottom colour `colorTransparent`. The
sequence is the cursor move `ESC[1;1H`, the background reset `ESC[49m`, the
foreground code `ESC[38;5;<W>m` and the upper half block U+2580; nothing is
flushed. -/
theorem DrawRGB_white_pixel {β : Type} (q : Quantizers) (F : FloatModel β)
    (colorful : Bool) (algorithm : String)
    (hwhite : 16 ≤ sampleIndex q F ⟨1, 1, colorful, algorithm⟩ (255, 255, 255)) :
    DrawRGB q F [255, 255, 255] ⟨1, 1, colorful, algorithm⟩ (World.init (initialCache 1 1)) =
      .done
        { oldfg := sampleIndex q F ⟨1, 1, colorful, algorithm⟩ (255, 255, 255)
          oldbg := colorTransparent
          sequence := cursorMove 0 0 ++ bgCode colorTransparent
            ++ fgCode (sampleIndex q F ⟨1, 1, colorful, algorithm⟩ (255, 255, 255)) ++ "▀"
          fCache := [[(sampleIndex q F ⟨1, 1, colorful, algorithm⟩ (255, 255, 255),
            colorTransparent)]]
          stdout := []
          dotCalls := [(0, 0, sampleIndex q F ⟨1, 1, colorful, algorithm⟩ (255, 255, 255),
            colorTransparent)] } ∧
    cursorMove 0 0 = "\x1b[1;1H" ∧ bgCode colorTransparent = "\x1b[49m" ∧
    fgCode (sampleIndex q F ⟨1, 1, colorful, algorithm⟩ (255, 255, 255))
      = "\x1b[38;5;"
        ++ toString (sampleIndex q F ⟨1, 1, colorful, algorithm⟩ (255, 255, 255)) ++ "m" := by
  have h0 : ¬ sampleIndex q F ⟨1, 1, colorful, algorithm⟩ (255, 255, 255) = 0 := by omega
  have h1 : ¬ sampleIndex q F ⟨1, 1, colorful, algorithm⟩ (255, 255, 255) = 1 := by omega
  refine ⟨?_, by decide, by decide, by simp [fgCode, colorUndef, h0]⟩
  cases colorful with
  | true =>
    have hs : sampleIndex q F ⟨1, 1, true, algorithm⟩ (255, 255, 255)
        = rgb2Xterm q ⟨1, 1, true, algorithm⟩ 255 255 255 := rfl
    rw [hs] at h0 h1 ⊢
    simp [DrawRGB, rawRGB2Pixels, drawLoop, List.range', forEach, drawRow, paintCell,
      cellColors, cacheGet, cacheSet, flushRow, World.init, initialCache,
      List.range, List.range.loop, List.replicate, dot, colorUndef, colorTransparent, h0, h1,
      cursorMove, bgCode, fgCode, String.append_assoc]
  | false =>
    have hs : sampleIndex q F ⟨1, 1, false, algorithm⟩ (255, 255, 255)
        = (F.level (F.brightness 255 255 255) + 232) % 256 := rfl
    rw [hs] at h0 h1 ⊢
    simp [DrawRGB, rawRGB2BrightnessPixels, drawLoop, List.range', forEach, drawRow,
      paintCell, cellColors, cacheGet, cacheSet, flushRow, World.init, initialCache,
      List.range, List.range.loop, List.replicate, dot, colorUndef, colorTransparent, h0, h1,
      cursorMove, bgCode, fgCode, String.append_assoc]

/-- C15 in grayscale mode and exact arithmetic, where the index of white is 255. -/
theorem DrawRGB_white_pixel_witness :
    sampleIndex unusedQuantizers exactFloat ⟨1, 1, false, ""⟩ (255, 255, 255) = 255 ∧
    DrawRGB unusedQuantizers exactFloat [255, 255, 255] ⟨1, 1, false, ""⟩
        (World.init (initialCache 1 1)) =
      .done
        { oldfg := sampleIndex unusedQuantizers exactFloat ⟨1, 1, false, ""⟩ (255, 255, 255)
          oldbg := colorTransparent
          sequence := cursorMove 0 0 ++ bgCode colorTransparent
            ++ fgCode (sampleIndex unusedQuantizers exactFloat ⟨1, 1, false, ""⟩
                (255, 255, 255)) ++ "▀"
          fCache := [[(sampleIndex unusedQuantizers exactFloat ⟨1, 1, false, ""⟩
            (255, 255, 255), colorTransparent)]]
          stdout := []
          dotCalls := [(0, 0, sampleIndex unusedQuantizers exactFloat ⟨1, 1, false, ""⟩
            (255, 255, 255), colorTransparent)] } := by
  have hw : sampleIndex unusedQuantizers exactFloat ⟨1, 1, false, ""⟩ (255, 255, 255) = 255 := by
    simp [sampleIndex, exactFloat_level_brightness]
  exact ⟨hw, (DrawRGB_white_pixel unusedQuantizers exactFloat false "" (by rw [hw]; decide)).1⟩

/-! ## The pending sequence is never dropped -/

theorem continues_refl (w : World) : Continues w w :=
  ⟨[], by simp, Or.inl ⟨rfl, "", by simp⟩⟩

theorem continues_trans {w1 w2 w3 : World} (h12 : Continues w1 w2) (h23 : Continues w2 w3) :
    Continues w1 w3 := by
  obtain ⟨l1, hs1, h1⟩ := h12
  obtain ⟨l2, hs2, h2⟩ := h23
  refine ⟨l1 ++ l2, by rw [hs2, hs1, List.append_assoc], ?_⟩
  rcases h1 with ⟨hnil, s, hseq⟩ | ⟨s, more, hl⟩
  · subst hnil
    rcases h2 with ⟨hnil2, s2, hseq2⟩ | ⟨s2, more2, hl2⟩
    · subst hnil2
      exact Or.inl ⟨rfl, s ++ s2, by rw [hseq2, hseq, String.append_assoc]⟩
    · exact Or.inr ⟨s ++ s2, more2, by rw [hl2, hseq, String.append_assoc]; rfl⟩
  · exact Or.inr ⟨s, more ++ l2, by rw [hl]; rfl⟩

theorem continues_paintCell {α : Type} (quant : α → Nat) (pixels : List α)
    (width height y x : Nat) (w : World) :
    Continues w (paintCell quant pixels width height y x w).world := by
  unfold paintCell
  cases cellColors quant pixels width height x y with
  | none => exact continues_refl w
  | some p =>
    simp only
    cases cacheGet w.fCache x (y / 2) with
    | none => exact continues_refl w
    | some old =>
      simp only
      by_cases hd : p.1 ≠ old.1 ∨ p.2 ≠ old.2
      · rw [if_pos hd]
        exact ⟨[], by simp [Outcome.world, dot_stdout],
          Or.inl ⟨rfl, _, dot_sequence_codes x (y / 2) p.1 p.2 w⟩⟩
      · rw [if_neg hd]
        exact continues_refl w

theorem continues_forEach (body : Nat → World → Outcome)
    (hbody : ∀ x w, Continues w (body x w).world) :
    ∀ (xs : List Nat) (w : World), Continues w (forEach xs body w).world := by
  intro xs
  induction xs with
  | nil => intro w; exact continues_refl w
  | cons x rest ih =>
    intro w
    unfold forEach
    have hx := hbody x w
    cases hb : body x w with
    | done w1 =>
      rw [hb] at hx
      exact continues_trans hx (ih w1)
    | panic w1 =>
      rw [hb] at hx
      exact hx

theorem continues_flushRow (height y : Nat) (w : World) : Continues w (flushRow height y w) := by
  unfold flushRow
  by_cases hf : y + 2 < height
  · rw [if_pos hf]
    exact ⟨[w.sequence], rfl, Or.inr ⟨"", [], by simp⟩⟩
  · rw [if_neg hf]
    exact continues_refl w

theorem continues_drawRow {α : Type} (quant : α → Nat) (pixels : List α)
    (width height y : Nat) (w : World) :
    Continues w (drawRow quant pixels width height y w).world := by
  unfold drawRow
  have h := continues_forEach (paintCell quant pixels width height y)
    (continues_paintCell quant pixels width height y) (List.range width) w
  cases hf : forEach (List.range width) (paintCell quant pixels width height y) w with
  | done w1 =>
    rw [hf] at h
    exact continues_trans h (continues_flushRow height y w1)
  | panic w1 =>
    rw [hf] at h
    exact h

/-- Whatever the buffer and the configuration, and whether the call returns or
fails, the output after `DrawRGB` continues the output before it. -/
theorem continues_DrawRGB {β : Type} (q : Quantizers) (F : FloatModel β) (raw : List Nat)
    (config : Config) (w : World) : Continues w (DrawRGB q F raw config w).world := by
  unfold DrawRGB
  by_cases hcol : config.Colorful = true
  · simp only [hcol, if_true]
    cases rawRGB2Pixels raw with
    | none => exact continues_refl w
    | some pixels => exact continues_forEach _ (continues_drawRow _ pixels _ _) _ w
  · simp only [hcol, Bool.false_eq_true, if_false]
    cases rawRGB2BrightnessPixels F raw with
    | none => exact continues_refl w
    | some pixels => exact continues_forEach _ (continues_drawRow _ pixels _ _) _ w

theorem flush_not_mem_frameEvents (pair : Nat → Nat → Option (Nat × Nat)) (cache : FrameCache)
    (width height : Nat) (hh : height ≤ 2) :
    Event.flush ∉ frameEvents pair cache width height := by
  intro hm
  unfold frameEvents at hm
  obtain ⟨y, hy, he⟩ := mem_rowsEvents.mp hm
  obtain ⟨i, hi, rfl⟩ := List.mem_range'.mp hy
  unfold rowEvents at he
  rcases List.mem_append.mp he with h | h
  · exact flush_not_mem_cells pair cache _ _ h
  · have hnf : ¬ (0 + 2 * i + 2 < height) := by omega
    rw [if_neg hnf] at h
    simp at h

/-- C20. `DrawRGB` never drops the text pending in the sequence. For every call,
returning or failing, the lines printed before the call are still in front of
the output, and the sequence of the entry is a prefix of the first line the call
prints or, when it prints none, of the sequence at the end of the call. For a
valid frame of height at most 2 on a cache that covers it, the call prints
nothing and the sequence on return is the sequence of the entry followed by the
codes of the cells painted in this call, so it is at least as long as before. -/
theorem DrawRGB_keeps_pending {β : Type} (q : Quantizers) (F : FloatModel β)
    (raw : List Nat) (config : Config) (w : World) :
    (∃ lines, (DrawRGB q F raw config w).world.stdout = w.stdout ++ lines ∧
      (lines = [] → ∃ s, (DrawRGB q F raw config w).world.sequence = w.sequence ++ s) ∧
      (∀ first more, lines = first :: more → ∃ s, first = w.sequence ++ s)) ∧
    (ValidFrame raw config →
      Covers w.fCache config.Width.toNat ((config.Height.toNat + 1) / 2) →
      config.Height ≤ 2 →
      (DrawRGB q F raw config w).failed = false ∧
      (DrawRGB q F raw config w).world.stdout = w.stdout ∧
      (DrawRGB q F raw config w).world.sequence =
        w.sequence ++ renderCodes (eventCodes (frameEvents (framePair q F raw config)
          w.fCache config.Width.toNat config.Height.toNat) w) ∧
      w.sequence.length ≤ (DrawRGB q F raw config w).world.sequence.length) := by
  constructor
  · obtain ⟨lines, hs, h⟩ := continues_DrawRGB q F raw config w
    refine ⟨lines, hs, ?_, ?_⟩
    · intro hnil
      rcases h with ⟨_, s, hseq⟩ | ⟨s, more, hl⟩
      · exact ⟨s, hseq⟩
      · rw [hnil] at hl; simp at hl
    · intro first more hl
      rcases h with ⟨hnil, _⟩ | ⟨s, more2, hl2⟩
      · rw [hnil] at hl; simp at hl
      · rw [hl] at hl2
        injection hl2 with h1 _
        exact ⟨s, h1⟩
  · intro hv hcov hh
    have hnf := flush_not_mem_frameEvents (framePair q F raw config) w.fCache
      config.Width.toNat config.Height.toNat (by omega)
    obtain ⟨hp1, hp2⟩ := replay_paints _ w hnf
    rw [DrawRGB_eq q F raw config w hv hcov]
    refine ⟨rfl, hp1, hp2, ?_⟩
    simp only [Outcome.world]
    rw [hp2, String.length_append]
    omega

/-- C20 on a frame of one column and two rows in grayscale mode, with text pending
in the sequence. -/
theorem DrawRGB_keeps_pending_witness :
    (DrawRGB unusedQuantizers exactFloat [0, 0, 0, 255, 255, 255] ⟨1, 2, false, ""⟩
        { World.init (initialCache 1 1) with sequence := "pending" }).failed = false ∧
    (DrawRGB unusedQuantizers exactFloat [0, 0, 0, 255, 255, 255] ⟨1, 2, false, ""⟩
        { World.init (initialCache 1 1) with sequence := "pending" }).world.stdout = [] ∧
    (DrawRGB unusedQuantizers exactFloat [0, 0, 0, 255, 255, 255] ⟨1, 2, false, ""⟩
        { World.init (initialCache 1 1) with sequence := "pending" }).world.sequence =
      "pending" ++ renderCodes (eventCodes (frameEvents
        (framePair unusedQuantizers exactFloat [0, 0, 0, 255, 255, 255] ⟨1, 2, false, ""⟩)
        (initialCache 1 1) 1 2) { World.init (initialCache 1 1) with sequence := "pending" }) ∧
    "pending".length ≤
      (DrawRGB unusedQuantizers exactFloat [0, 0, 0, 255, 255, 255] ⟨1, 2, false, ""⟩
        { World.init (initialCache 1 1) with sequence := "pending" }).world.sequence.length :=
  (DrawRGB_keeps_pending unusedQuantizers exactFloat [0, 0, 0, 255, 255, 255]
    ⟨1, 2, false, ""⟩ { World.init (initialCache 1 1) with sequence := "pending" }).2
    (by decide) (by decide) (by decide)

/-! ## DrawRGB in binary64 and in exact arithmetic -/

theorem paintCell_samples_map {α γ : Type} (f : α → γ) (quant : γ → Nat) (pixels : List α)
    (width height : Nat) :
    paintCell quant (pixels.map f) width height
      = paintCell (fun p => quant (f p)) pixels width height := by
  funext y x w
  unfold paintCell
  rw [cellColors_map]

theorem drawLoop_samples_map {α γ : Type} (f : α → γ) (quant : γ → Nat) (pixels : List α)
    (width height : Nat) (w : World) :
    drawLoop quant (pixels.map f) width height w
      = drawLoop (fun p => quant (f p)) pixels width height w := by
  have hrow : drawRow quant (pixels.map f) width height
      = drawRow (fun p => quant (f p)) pixels width height := by
    funext y w
    unfold drawRow
    rw [paintCell_samples_map]
  unfold drawLoop
  rw [hrow]

theorem cellColors_quant_congr {α : Type} (q1 q2 : α → Nat) (pixels : List α)
    (h : ∀ p ∈ pixels, q1 p = q2 p) (width height x y : Nat) :
    cellColors q1 pixels width height x y = cellColors q2 pixels width height x y := by
  unfold cellColors
  cases h1 : pixels[y * width + x]? with
  | none => rfl
  | some p1 =>
    have e1 := h p1 (List.getElem?_mem h1)
    by_cases hy : y + 1 < height
    · simp only [if_pos hy]
      cases h2 : pixels[(y + 1) * width + x]? with
      | none => rfl
      | some p2 =>
        have e2 := h p2 (List.getElem?_mem h2)
        simp only [e1, e2]
    · simp only [if_neg hy, e1]

theorem drawLoop_quant_congr {α : Type} (q1 q2 : α → Nat) (pixels : List α)
    (h : ∀ p ∈ pixels, q1 p = q2 p) (width height : Nat) (w : World) :
    drawLoop q1 pixels width height w = drawLoop q2 pixels width height w := by
  have hcell : paintCell q1 pixels width height = paintCell q2 pixels width height := by
    funext y x w
    unfold paintCell
    rw [cellColors_quant_congr q1 q2 pixels h]
  have hrow : drawRow q1 pixels width height = drawRow q2 pixels width height := by
    funext y w
    unfold drawRow
    rw [hcell]
  unfold drawLoop
  rw [hrow]

theorem rawRGB2Pixels_mem_bytes {raw : List Nat} {pixels : List (Nat × Nat × Nat)}
    (hp : rawRGB2Pixels raw = some pixels) (hbytes : ∀ v ∈ raw, v < 256) :
    ∀ t ∈ pixels, t.1 < 256 ∧ t.2.1 < 256 ∧ t.2.2 < 256 := by
  intro t ht
  obtain ⟨i, hi⟩ := List.mem_iff_getElem?.mp ht
  obtain ⟨h0, h1, h2⟩ := rawRGB2Pixels_bytes raw pixels i t hp hi
  exact ⟨byte_of_getElem hbytes h0, byte_of_getElem hbytes h1, byte_of_getElem hbytes h2⟩

/-- On a buffer of bytes `DrawRGB` does the same in binary64 and in exact
arithmetic: every grayscale index is the same. -/
theorem DrawRGB_float64_eq_exact (q : Quantizers) (raw : List Nat) (config : Config)
    (w : World) (hbytes : ∀ v ∈ raw, v < 256) :
    DrawRGB q float64Model raw config w = DrawRGB q exactFloat raw config w := by
  unfold DrawRGB
  by_cases hc : config.Colorful = true
  · simp only [hc, if_true]
  · simp only [hc, Bool.false_eq_true, if_false]
    rw [rawRGB2BrightnessPixels_eq_map float64Model raw.length raw (Nat.le_refl _),
      rawRGB2BrightnessPixels_eq_map exactFloat raw.length raw (Nat.le_refl _)]
    cases hp : rawRGB2Pixels raw with
    | none => rfl
    | some pixels =>
      simp only [Option.map_some']
      rw [drawLoop_samples_map, drawLoop_samples_map]
      apply drawLoop_quant_congr
      intro t ht
      obtain ⟨h1, h2, h3⟩ := rawRGB2Pixels_mem_bytes hp hbytes t ht
      have := (float64_level_eq_exact t.1 t.2.1 t.2.2 h1 h2 h3).1
      simp only [this]

/-! ## AsciiDrawRGB -/

theorem concatText_append (a b : List String) :
    concatText (a ++ b) = concatText a ++ concatText b := by
  induction a with
  | nil => simp [concatText]
  | cons s rest ih => simp [concatText, ih, String.append_assoc]

theorem asciiRow_eq (samples : List ℚ) (width y : Nat) :
    ∀ (xs : List Nat) (out : String), (∀ x ∈ xs, y * width + x < samples.length) →
      asciiRow samples width y xs out =
        (out ++ concatText (xs.map (fun x => asciiPixel (samples.getD (y * width + x) 0))),
          false) := by
  intro xs
  induction xs with
  | nil => intro out _; simp [asciiRow, concatText]
  | cons x rest ih =>
    intro out h
    have hx := h x (List.mem_cons_self _ _)
    unfold asciiRow
    rw [List.getElem?_eq_getElem hx]
    simp only
    rw [ih _ (fun x2 h2 => h x2 (List.mem_cons_of_mem _ h2))]
    simp only [List.map_cons, concatText, String.append_assoc, List.getD_eq_getElem?_getD,
      List.getElem?_eq_getElem hx, Option.getD_some]

theorem asciiRows_eq (samples : List ℚ) (width height : Nat) :
    ∀ (ys : List Nat) (out : String),
      (∀ y ∈ ys, ∀ x, x < width → y * width + x < samples.length) →
      asciiRows samples width height ys out =
        (out ++ concatText (asciiFrameTexts samples width height ys), false) := by
  intro ys
  induction ys with
  | nil => intro out _; simp [asciiRows, asciiFrameTexts, concatText]
  | cons y rest ih =>
    intro out h
    unfold asciiRows
    rw [asciiRow_eq samples width y (List.range width) out
      (fun x hx => h y (List.mem_cons_self _ _) x (List.mem_range.mp hx))]
    simp only
    rw [ih _ (fun y2 h2 => h y2 (List.mem_cons_of_mem _ h2))]
    by_cases hy : y + 1 < height
    · simp only [if_pos hy, asciiFrameTexts, concatText_append, concatText,
        String.append_assoc, String.append_empty]
    · simp only [if_neg hy, asciiFrameTexts, concatText_append, concatText,
        String.append_assoc, String.append_empty, String.empty_append]

theorem int_lt_iff_le (j J : Int) {c : ℚ} (hlo : (J : ℚ) < c) (hhi : c < J + 1) :
    (j : ℚ) < c ↔ j ≤ J := by
  constructor
  · intro h
    have h1 : ((j : Int) : ℚ) < ((J + 1 : Int) : ℚ) := by push_cast; linarith
    have h2 : j < J + 1 := by exact_mod_cast h1
    omega
  · intro h
    have h1 : ((j : Int) : ℚ) ≤ ((J : Int) : ℚ) := by exact_mod_cast h
    linarith

/-- On a multiple of `2^-45` the comparison with a `float64` band edge agrees with
the comparison with the decimal edge itself. -/
theorem band_edges (j : Int) :
    (((j : ℚ) / (35184372088832 : Nat) < round64 0.2) ↔
      ((j : ℚ) / (35184372088832 : Nat) < 0.2)) ∧
    (((j : ℚ) / (35184372088832 : Nat) < round64 0.4) ↔
      ((j : ℚ) / (35184372088832 : Nat) < 0.4)) ∧
    (((j : ℚ) / (35184372088832 : Nat) < round64 0.6) ↔
      ((j : ℚ) / (35184372088832 : Nat) < 0.6)) ∧
    (((j : ℚ) / (35184372088832 : Nat) < round64 0.8) ↔
      ((j : ℚ) / (35184372088832 : Nat) < 0.8)) := by
  have hD : (0 : ℚ) < ((35184372088832 : Nat) : ℚ) := by norm_num
  rw [round64_c02, round64_c04, round64_c06, round64_c08]
  simp only [div_lt_iff₀ hD]
  refine ⟨?_, ?_, ?_, ?_⟩
  · rw [int_lt_iff_le j 7036874417766 (by norm_num) (by norm_num),
      int_lt_iff_le j 7036874417766 (by norm_num) (by norm_num)]
  · rw [int_lt_iff_le j 14073748835532 (by norm_num) (by norm_num),
      int_lt_iff_le j 14073748835532 (by norm_num) (by norm_num)]
  · rw [int_lt_iff_le j 21110623253299 (by norm_num) (by norm_num),
      int_lt_iff_le j 21110623253299 (by norm_num) (by norm_num)]
  · rw [int_lt_iff_le j 28147497671065 (by norm_num) (by norm_num),
      int_lt_iff_le j 28147497671065 (by norm_num) (by norm_num)]

/-- The value `bg` of line 189 is a multiple of `2^-45` between 232 and 255. -/
theorem asciiBg_form {p : ℚ} (h0 : 0 ≤ p) (h1 : p ≤ 1) :
    ∃ n : Int, add64 (mul64 p 23) 232 = (n : ℚ) / (35184372088832 : Nat) ∧
      8162774324609024 ≤ n ∧ n ≤ 8972014882652160 := by
  obtain ⟨hp0, hp1, _⟩ := mul64_23_bounds h0 h1
  have ha : |mul64 p 23 + 232| = mul64 p 23 + 232 := abs_of_nonneg (by linarith)
  have hx1 : (2 : ℚ) ^ (7 : Int) ≤ |mul64 p 23 + 232| := by
    rw [ha]; norm_num; linarith
  have hx2 : |mul64 p 23 + 232| < (2 : ℚ) ^ (7 + 1 : Int) := by
    rw [ha]; norm_num; linarith
  refine ⟨roundHalfEven ((mul64 p 23 + 232) / 2 ^ (7 - 52 : Int)), ?_, ?_, ?_⟩
  · unfold add64
    rw [round64_eq_of_exponent 7 (by norm_num) hx1 hx2]
    norm_num
    ring
  · apply le_roundHalfEven
    rw [le_div_iff₀ (two_zpow_pos _)]
    norm_num
    linarith
  · apply roundHalfEven_le
    rw [div_le_iff₀ (two_zpow_pos _)]
    norm_num
    linarith

/-- The `float64` operations of lines 189-191 on the value `bg`: the sum `bg+1`,
the difference of `floatMin` and the three operations of `floatMod` are exact. -/
theorem asciiBg_exact {bg : ℚ} {n : Int} (hbg : bg = (n : ℚ) / (35184372088832 : Nat))
    (hn1 : 8162774324609024 ≤ n) (hn2 : n ≤ 8972014882652160) :
    add64 bg 1 = bg + 1 ∧ floatMin 255 (bg + 1) = min 255 (bg + 1) ∧
    floatMod bg 1 = Int.fract bg ∧
    Int.fract bg = ((n % (35184372088832 : Nat) : Int) : ℚ) / (35184372088832 : Nat) ∧
    0 ≤ bg := by
  have hfr : Int.fract bg
      = ((n % (35184372088832 : Nat) : Int) : ℚ) / (35184372088832 : Nat) := by
    rw [hbg]
    exact Int.fract_div_intCast_eq_div_intCast_mod
  have hfloor : ⌊bg⌋ = n / (35184372088832 : Nat) := by
    rw [hbg]
    exact Rat.floor_intCast_div_natCast n _
  have hrep : round64 bg = bg :=
    round64_of_multiple (n := n) (k := -45) (by rw [hbg]; norm_num; ring)
      (by rw [abs_le]; constructor <;> omega) (by norm_num)
  have hadd : add64 bg 1 = bg + 1 := by
    unfold add64
    exact round64_of_multiple (n := n + 35184372088832) (k := -45)
      (by rw [hbg]; norm_num; ring) (by rw [abs_le]; constructor <;> omega) (by norm_num)
  have hsub : sub64 255 (bg + 1) = 255 - (bg + 1) := by
    unfold sub64
    exact round64_of_multiple (n := 8936830510563328 - n) (k := -45)
      (by rw [hbg]; norm_num; ring) (by rw [abs_le]; constructor <;> omega) (by norm_num)
  have hdiv : div64 bg 1 = bg := by
    unfold div64
    rw [div_one, hrep]
  have hmul : mul64 1 (⌊bg⌋ : ℚ) = (⌊bg⌋ : ℚ) := by
    unfold mul64
    rw [one_mul]
    exact round64_of_multiple (n := ⌊bg⌋) (k := 0) (by norm_num)
      (by rw [hfloor, abs_le]; constructor <;> omega) (by norm_num)
  have hmod : floatMod bg 1 = Int.fract bg := by
    unfold floatMod
    rw [hdiv, hmul]
    unfold sub64
    rw [Int.self_sub_floor]
    have hj0 : 0 ≤ n % (35184372088832 : Nat) := Int.emod_nonneg _ (by norm_num)
    have hj1 : n % (35184372088832 : Nat) < (35184372088832 : Nat) :=
      Int.emod_lt_of_pos _ (by norm_num)
    exact round64_of_multiple (n := n % (35184372088832 : Nat)) (k := -45)
      (by rw [hfr]; norm_num; ring) (by rw [abs_le]; constructor <;> omega) (by norm_num)
  have hmin : floatMin 255 (bg + 1) = min 255 (bg + 1) := by
    unfold floatMin
    rw [hsub]
    by_cases h : 255 - (bg + 1) > 0
    · rw [if_pos h, min_eq_right (by linarith)]
    · rw [if_neg h, min_eq_left (by linarith)]
  have hbg0 : 0 ≤ bg := by
    rw [hbg]
    apply div_nonneg _ (by norm_num)
    have : ((0 : Int) : ℚ) ≤ (n : ℚ) := by exact_mod_cast (by omega : (0 : Int) ≤ n)
    simpa using this
  exact ⟨hadd, hmin, hmod, hfr, hbg0⟩

/-- The text of one pixel of brightness in `[0, 1]`, from the `float64` value `bg`
of `brightness*23 + 232`: the minimum, the fractional part and the comparisons
with the band edges are those of exact arithmetic on `bg`. -/
theorem asciiPixel_eq (brightness bg fg m : ℚ) (h0 : 0 ≤ brightness) (h1 : brightness ≤ 1)
    (hbg : bg = add64 (mul64 brightness 23) 232) (hfg : fg = min 255 (bg + 1))
    (hm : m = Int.fract bg) :
    asciiPixel brightness =
        if m < 0.2 then asciiPrintf ⌊bg⌋ ⌊fg⌋ " "
        else if m < 0.4 then asciiPrintf ⌊bg⌋ ⌊fg⌋ "░"
        else if m < 0.6 then asciiPrintf ⌊bg⌋ ⌊fg⌋ "▒"
        else if m < 0.8 then asciiPrintf ⌊fg⌋ ⌊bg⌋ "▒"
        else asciiPrintf ⌊fg⌋ ⌊bg⌋ "░" := by
  obtain ⟨n, hn, hn1, hn2⟩ := asciiBg_form h0 h1
  rw [← hbg] at hn
  obtain ⟨hadd, hmin, hmod, hfr, hbg0⟩ := asciiBg_exact hn hn1 hn2
  obtain ⟨e2, e4, e6, e8⟩ := band_edges (n % (35184372088832 : Nat))
  rw [← hfr, ← hm] at e2 e4 e6 e8
  have hfg0 : 0 ≤ fg := by
    rw [hfg]
    exact le_min (by norm_num) (by linarith)
  unfold asciiPixel
  simp only [← hbg, hadd, hmin, hmod, ← hfg, ← hm, e2, e4, e6, e8]
  split_ifs <;> simp only [goInt_of_nonneg hbg0, goInt_of_nonneg hfg0]

/-- Lines 43 and 189 at the bytes `(1, 155, 94)`, operation by operation. -/
theorem brightness_edge : float64Model.brightness 1 155 94 = 3602879701896397 / 2 ^ 53 ∧
    add64 (mul64 (3602879701896397 / 2 ^ 53) 23) 232 = 4243235273913139 / 2 ^ 44 := by
  rw [show float64Model.brightness 1 155 94 =
    div64 (add64 (add64 (mul64 ((1 : Nat) : ℚ) (round64 0.299))
      (mul64 ((155 : Nat) : ℚ) (round64 0.587))) (mul64 ((94 : Nat) : ℚ) (round64 0.114))) 255
    from rfl]
  rw [round64_c299, round64_c587, round64_c114]
  rw [show ((1 : Nat) : ℚ) = 1 by norm_num, show ((155 : Nat) : ℚ) = 155 by norm_num,
    show ((94 : Nat) : ℚ) = 94 by norm_num]
  have h1 : mul64 1 (5386305154335113 / 2 ^ 54) = 5386305154335113 / 2 ^ 54 := by
    unfold mul64
    rw [round64_eval (-2) 5386305154335113 (by norm_num) (by norm_num [abs_of_pos])
      (by norm_num [abs_of_pos]) (by norm_num) (by norm_num)]
    norm_num
  have h2 : mul64 155 (5287225962532962 / 2 ^ 53) = 6402500189004759 / 2 ^ 46 := by
    unfold mul64
    rw [round64_eval (6) 6402500189004759 (by norm_num) (by norm_num [abs_of_pos])
      (by norm_num [abs_of_pos]) (by norm_num) (by norm_num)]
    norm_num
  have h3 : mul64 94 (8214565720323785 / 2 ^ 56) = 1508142925215695 / 2 ^ 47 := by
    unfold mul64
    rw [round64_eval (3) 6032571700862780 (by norm_num) (by norm_num [abs_of_pos])
      (by norm_num [abs_of_pos]) (by norm_num) (by norm_num)]
    norm_num
  have h12 : add64 (5386305154335113 / 2 ^ 54) (6402500189004759 / 2 ^ 46) = 6423540443513881 / 2 ^ 46 := by
    unfold add64
    rw [round64_eval (6) 6423540443513881 (by norm_num) (by norm_num [abs_of_pos])
      (by norm_num [abs_of_pos]) (by norm_num) (by norm_num)]
    norm_num
  have h123 : add64 (6423540443513881 / 2 ^ 46) (1508142925215695 / 2 ^ 47) = 102 := by
    unfold add64
    rw [round64_eval_tie_even (6) 7177611906121728 (by norm_num) (by norm_num [abs_of_pos])
      (by norm_num [abs_of_pos]) (by norm_num) (by norm_num)]
    norm_num
  have hd : div64 102 255 = 3602879701896397 / 2 ^ 53 := by
    unfold div64
    rw [round64_eval (-2) 7205759403792794 (by norm_num) (by norm_num [abs_of_pos])
      (by norm_num [abs_of_pos]) (by norm_num) (by norm_num)]
    norm_num
  have ht : mul64 (3602879701896397 / 2 ^ 53) 23 = 5179139571476071 / 2 ^ 49 := by
    unfold mul64
    rw [round64_eval (3) 5179139571476071 (by norm_num) (by norm_num [abs_of_pos])
      (by norm_num [abs_of_pos]) (by norm_num) (by norm_num)]
    norm_num
  have hbg : add64 (5179139571476071 / 2 ^ 49) 232 = 4243235273913139 / 2 ^ 44 := by
    unfold add64
    rw [round64_eval (7) 8486470547826278 (by norm_num) (by norm_num [abs_of_pos])
      (by norm_num [abs_of_pos]) (by norm_num) (by norm_num)]
    norm_num
  rw [h1, h2, h3, h12, h123, hd, ht, hbg]
  exact ⟨rfl, rfl⟩

theorem floor_eq_of_bounds {x : ℚ} {k : Int} (h1 : (k : ℚ) ≤ x) (h2 : x < k + 1) : ⌊x⌋ = k :=
  Int.floor_eq_iff.mpr ⟨h1, h2⟩

theorem float64_samples_range : ∀ (n : Nat) (raw : List Nat), raw.length ≤ n →
    (∀ v ∈ raw, v < 256) →
    ∀ samples, rawRGB2BrightnessPixels float64Model raw = some samples →
    ∀ p ∈ samples, 0 ≤ p ∧ p ≤ 1 := by
  intro n
  induction n with
  | zero =>
    intro raw h _ samples hs p hp
    have : raw = [] := List.length_eq_zero.mp (by omega)
    subst this
    simp only [rawRGB2BrightnessPixels, Option.some.injEq] at hs
    subst hs
    simp at hp
  | succ n ih =>
    intro raw h hb samples hs p hp
    match raw, h, hb, hs with
    | [], _, _, hs =>
      simp only [rawRGB2BrightnessPixels, Option.some.injEq] at hs
      subst hs
      simp at hp
    | [_], _, _, hs => simp [rawRGB2BrightnessPixels] at hs
    | [_, _], _, _, hs => simp [rawRGB2BrightnessPixels] at hs
    | r :: g :: b :: rest, h, hb, hs =>
      simp only [rawRGB2BrightnessPixels] at hs
      cases hrest : rawRGB2BrightnessPixels float64Model rest with
      | none => rw [hrest] at hs; simp at hs
      | some ret =>
        rw [hrest] at hs
        simp only [Option.some.injEq] at hs
        subst hs
        rcases List.mem_cons.mp hp with h1 | h1
        · rw [h1]
          exact float64_brightness_range r g b (hb r (by simp)) (hb g (by simp))
            (hb b (by simp))
        · exact ih rest (by simp only [List.length_cons] at h; omega)
            (fun v hv => hb v (by simp [hv])) ret hrest p h1

/-- C17, as the code behaves. For every valid frame `AsciiDrawRGB` returns, and the
text it prints is, row by row and pixel by pixel in the order of the buffer, the
text of each pixel, with a newline after every row but the last; the brightness
samples of a buffer of bytes lie in `[0, 1]`. The text of a pixel does not
depend on any other pixel: with `bg` the `float64` value of
`brightness*23 + 232` (the product rounded, then the sum), `fg = min(255, bg+1)`
and `m` the fractional part of `bg`, it is `ESC[48;5;<B>mESC[38;5;<F>m` and a
glyph, where the glyph is a space for `m < 0.2`, U+2591 for `m < 0.4`, U+2592 for
`m < 0.6`, with `B = floor(bg)` and `F = floor(fg)`, and U+2592 for `m < 0.8`,
U+2591 otherwise, with `B = floor(fg)` and `F = floor(bg)`. -/
theorem AsciiDrawRGB_spec (raw : List Nat) (config : Config) (hv : ValidFrame raw config) :
    (∃ samples, rawRGB2BrightnessPixels float64Model raw = some samples ∧
      config.Width.toNat * config.Height.toNat ≤ samples.length ∧
      AsciiDrawRGB raw config =
        (concatText (asciiFrameTexts samples config.Width.toNat config.Height.toNat
          (List.range config.Height.toNat)), false) ∧
      ((∀ v ∈ raw, v < 256) → ∀ p ∈ samples, 0 ≤ p ∧ p ≤ 1)) ∧
    (∀ brightness bg fg m : ℚ, 0 ≤ brightness → brightness ≤ 1 →
      bg = add64 (mul64 brightness 23) 232 →
      fg = min 255 (bg + 1) → m = Int.fract bg →
      asciiPixel brightness =
        if m < 0.2 then asciiPrintf ⌊bg⌋ ⌊fg⌋ " "
        else if m < 0.4 then asciiPrintf ⌊bg⌋ ⌊fg⌋ "░"
        else if m < 0.6 then asciiPrintf ⌊bg⌋ ⌊fg⌋ "▒"
        else if m < 0.8 then asciiPrintf ⌊fg⌋ ⌊bg⌋ "▒"
        else asciiPrintf ⌊fg⌋ ⌊bg⌋ "░") ∧
    (∀ (bg fg : Int) (chr : String), asciiPrintf bg fg chr =
      "\x1b[48;5;" ++ toString bg ++ "m" ++ ("\x1b[38;5;" ++ toString fg ++ "m") ++ chr) := by
  refine ⟨?_, ?_, ?_⟩
  · obtain ⟨n, hn, hfit⟩ := validFrame_pixels hv
    obtain ⟨samples, hs, hl⟩ := rawRGB2BrightnessPixels_length float64Model n raw hn
    refine ⟨samples, hs, by omega, ?_,
      fun hb => float64_samples_range raw.length raw (Nat.le_refl _) hb samples hs⟩
    unfold AsciiDrawRGB
    rw [hs]
    simp only
    rw [asciiRows_eq, String.empty_append]
    intro y hy x hx
    have hy2 := List.mem_range.mp hy
    have h1 : (y + 1) * config.Width.toNat ≤ config.Height.toNat * config.Width.toNat :=
      Nat.mul_le_mul_right _ hy2
    have h2 : config.Height.toNat * config.Width.toNat
        = config.Width.toNat * config.Height.toNat := Nat.mul_comm _ _
    have h3 : (y + 1) * config.Width.toNat = y * config.Width.toNat + config.Width.toNat := by
      ring
    omega
  · intro brightness bg fg m hb0 hb1 hbg hfg hm
    exact asciiPixel_eq brightness bg fg m hb0 hb1 hbg hfg hm
  · intro bg fg chr
    simp only [asciiPrintf, String.append_assoc]
    rfl

/-- C17 on a valid frame of two pixels in one row. -/
theorem AsciiDrawRGB_spec_witness :
    ∃ samples, rawRGB2BrightnessPixels float64Model [0, 0, 0, 255, 255, 255] = some samples ∧
      (2 : Int).toNat * (1 : Int).toNat ≤ samples.length ∧
      AsciiDrawRGB [0, 0, 0, 255, 255, 255] ⟨2, 1, false, ""⟩ =
        (concatText (asciiFrameTexts samples (2 : Int).toNat (1 : Int).toNat
          (List.range (1 : Int).toNat)), false) ∧
      ((∀ v ∈ [0, 0, 0, 255, 255, 255], v < 256) → ∀ p ∈ samples, 0 ≤ p ∧ p ≤ 1) :=
  (AsciiDrawRGB_spec [0, 0, 0, 255, 255, 255] ⟨2, 1, false, ""⟩ (by decide)).1

/-- C17 as stated, with `brightness*23 + 232` not rounded, fails on the frame of
one pixel with the bytes `(1, 155, 94)`: the exact brightness is `0.4`, so
`bg = 241.2` and `m = 0.2`, which is not below `0.2`, and the stated glyph is
U+2591; the same holds from the `float64` brightness `3602879701896397 / 2^53`,
where `m` is above `0.2` by less than `10^-15`. The program rounds the sum to
`4243235273913139 / 2^44`, below `241.2`, and prints a space. -/
theorem AsciiDrawRGB_spec_counterexample :
    ValidFrame [1, 155, 94] ⟨1, 1, false, ""⟩ ∧
    float64Model.brightness 1 155 94 = 3602879701896397 / 2 ^ 53 ∧
    add64 (mul64 (3602879701896397 / 2 ^ 53) 23) 232 = 4243235273913139 / 2 ^ 44 ∧
    AsciiDrawRGB [1, 155, 94] ⟨1, 1, false, ""⟩ = (asciiPrintf 241 242 " ", false) ∧
    asciiPixelExact (3602879701896397 / 2 ^ 53) = asciiPrintf 241 242 "░" ∧
    asciiPixelExact (exactFloat.brightness 1 155 94) = asciiPrintf 241 242 "░" ∧
    asciiPrintf 241 242 " " ≠ asciiPrintf 241 242 "░" := by
  obtain ⟨hb, hbg⟩ := brightness_edge
  refine ⟨by decide, hb, hbg, ?_, ?_, ?_, ?_⟩
  · have hpix : asciiPixel (3602879701896397 / 2 ^ 53) = asciiPrintf 241 242 " " := by
      have hfl : ⌊(4243235273913139 / 2 ^ 44 : ℚ)⌋ = 241 :=
        floor_eq_of_bounds (by norm_num) (by norm_num)
      have hfl2 : ⌊min (255 : ℚ) (4243235273913139 / 2 ^ 44 + 1)⌋ = 242 := by
        rw [min_eq_right (by norm_num)]
        exact floor_eq_of_bounds (by norm_num) (by norm_num)
      have hm : Int.fract (4243235273913139 / 2 ^ 44 : ℚ) < 0.2 := by
        unfold Int.fract
        rw [hfl]
        norm_num
      rw [asciiPixel_eq (3602879701896397 / 2 ^ 53) (4243235273913139 / 2 ^ 44)
        (min 255 (4243235273913139 / 2 ^ 44 + 1)) (Int.fract (4243235273913139 / 2 ^ 44 : ℚ))
        (by norm_num) (by norm_num) hbg.symm rfl rfl]
      rw [if_pos hm, hfl, hfl2]
    have hrange : List.range (1 : Int).toNat = [0] := by decide
    simp only [AsciiDrawRGB, rawRGB2BrightnessPixels, hb, hrange, asciiRows, asciiRow]
    have hw : (1 : Int).toNat = 1 := by decide
    have hr1 : List.range 1 = [0] := by decide
    simp only [hw, hr1, asciiRow, Nat.zero_mul, Nat.add_zero, List.getElem?_cons_zero,
      hpix, String.empty_append]
    simp
  · have hfl : ⌊(3602879701896397 / 2 ^ 53 : ℚ) * 23 + 232⌋ = 241 :=
      floor_eq_of_bounds (by norm_num) (by norm_num)
    have hfl2 : ⌊min (255 : ℚ) ((3602879701896397 / 2 ^ 53 : ℚ) * 23 + 232 + 1)⌋ = 242 := by
      rw [min_eq_right (by norm_num)]
      exact floor_eq_of_bounds (by norm_num) (by norm_num)
    have hm1 : ¬ (Int.fract ((3602879701896397 / 2 ^ 53 : ℚ) * 23 + 232) < 0.2) := by
      unfold Int.fract
      rw [hfl]
      norm_num
    have hm2 : Int.fract ((3602879701896397 / 2 ^ 53 : ℚ) * 23 + 232) < 0.4 := by
      unfold Int.fract
      rw [hfl]
      norm_num
    unfold asciiPixelExact
    simp only [if_neg hm1, if_pos hm2, hfl, hfl2]
  · have hbr : exactFloat.brightness 1 155 94 = 2 / 5 := by
      show (((1 : Nat) : ℚ) * 0.299 + ((155 : Nat) : ℚ) * 0.587 + ((94 : Nat) : ℚ) * 0.114) / 255
        = 2 / 5
      norm_num
    have hfl : ⌊(2 / 5 : ℚ) * 23 + 232⌋ = 241 :=
      floor_eq_of_bounds (by norm_num) (by norm_num)
    have hfl2 : ⌊min (255 : ℚ) ((2 / 5 : ℚ) * 23 + 232 + 1)⌋ = 242 := by
      rw [min_eq_right (by norm_num)]
      exact floor_eq_of_bounds (by norm_num) (by norm_num)
    have hm1 : ¬ (Int.fract ((2 / 5 : ℚ) * 23 + 232) < 0.2) := by
      unfold Int.fract
      rw [hfl]
      norm_num
    have hm2 : Int.fract ((2 / 5 : ℚ) * 23 + 232) < 0.4 := by
      unfold Int.fract
      rw [hfl]
      norm_num
    rw [hbr]
    unfold asciiPixelExact
    simp only [if_neg hm1, if_pos hm2, hfl, hfl2]
  · decide

end Img2xterm
